import Mathlib

/-!
Shallow embedding of the Stabilizer LLVM pass (code / stack / heap
randomization and intrinsic lowering) and proofs about its behaviour.

The IR is modelled structurally: a module owns functions and global
variables; functions own basic blocks of instructions; instruction
operands are either SSA registers or constants.  LLVM `Constant`s are
uniqued objects addressed by pointer; the pointer value of a constant is
modelled by an explicit parameter `addr : Const → Nat` wherever the
source code's behaviour depends on pointer ordering (`std::map` keyed by
`Constant*`).  Fresh SSA values and instruction identities are drawn
from an explicit counter.
-/

namespace StabM

/-- IR types.  Function types are flattened by arity (only arities used
by the pass appear); identified struct types are referenced by name, and
`fieldT st i` stands for the type of field `i` of struct `st` (the pass
only manipulates such types symbolically). -/
inductive Ty where
  | void
  | int (bits : Nat)
  | half
  | flt
  | dbl
  | ptr (t : Ty)
  | fn0 (ret : Ty)
  | fn1 (ret : Ty) (a : Ty)
  | fn2 (ret : Ty) (a b : Ty)
  | fn6 (ret : Ty) (a b c d e f : Ty)
  | strukt (name : String)
  | arr (n : Nat) (t : Ty)
  | fieldT (st : Ty) (i : Nat)
  deriving DecidableEq, Repr

/-- IR constants.  `gv n` is the address of the global value named `n`
(function or global variable).  `cast1` covers the unary constant cast
expressions used by the pass (pointer casts, integer casts), `gepSlot`
is the inbounds `getelementptr (0, i)` expression used for relocation
slots, `binE` an arbitrary binary constant expression, `sizeOfC` the
`sizeof` constant expression. -/
inductive Const where
  | intC (bits : Nat) (val : Nat)
  | fpC (t : Ty) (bits : Nat)
  | nullC (t : Ty)
  | gv (n : String)
  | cast1 (op : String) (t : Ty) (a : Const)
  | gepSlot (st : Ty) (base : Const) (idx : Nat)
  | binE (op : String) (a b : Const)
  | sizeOfC (t : Ty)
  deriving DecidableEq, Repr

/-- An instruction operand: a constant or an SSA register. -/
inductive Opnd where
  | c (k : Const)
  | reg (r : Nat)
  deriving DecidableEq, Repr

/-- The float conversion opcodes handled by `getFloatConversion`. -/
inductive ConvOp where
  | fptoui | fptosi | uitofp | sitofp | fptrunc
  deriving DecidableEq, Repr

/-- Instruction opcodes.  A `call`'s operand list is its arguments
followed by the callee (LLVM stores the called operand last).  A `phi`'s
operands are its incoming values; `inblocks` lists the corresponding
incoming block ids positionally. -/
inductive Op where
  | phi (ty : Ty) (inblocks : List Nat)
  | call
  | conv (c : ConvOp) (inTy outTy : Ty)
  | load (ty : Ty)
  | zext (ty : Ty)
  | ptrtoint (ty : Ty)
  | inttoptr (ty : Ty)
  | mulNUW
  | subOp
  | ret
  | brOp (targets : List Nat)
  | opaqueOp (s : String)
  deriving DecidableEq, Repr

/-- An instruction: identity `iid` (modelling the instruction's memory
address), opcode, operands, and optional SSA result. -/
structure Instr where
  iid : Nat
  op : Op
  operands : List Opnd
  res : Option Nat
  deriving DecidableEq, Repr

/-- A basic block: id and instruction list; the last instruction is the
terminator. -/
structure BB where
  bbid : Nat
  instrs : List Instr
  deriving DecidableEq, Repr

/-- Linkage classes used by the pass. -/
inductive Linkage where
  | external | internal | linkonceODR | appending | privateLk | weakAny | common
  deriving DecidableEq, Repr

/-- A function.  A function with no blocks is a declaration. -/
structure Func where
  name : String
  ty : Ty
  linkage : Linkage
  intrinsic : Bool
  fnAttrs : List String
  alignment : Option Nat
  blocks : List BB
  deriving DecidableEq, Repr

/-- Global-variable initializers.  `table` is the field list of a
relocation-table struct initializer; `ctorTab` is the constructor-table
array of `(priority, function, data)` entries. -/
inductive Init where
  | scalar (c : Const)
  | table (fields : List Const)
  | ctorTab (entries : List (Nat × Const × Const))
  deriving DecidableEq, Repr

/-- A global variable. -/
structure GlobalVar where
  name : String
  ty : Ty
  isConst : Bool
  linkage : Linkage
  ginit : Init
  deriving DecidableEq, Repr

/-- A module. -/
structure Module where
  triple : String
  ptrBytes : Nat
  funcs : List Func
  gvars : List GlobalVar
  deriving DecidableEq, Repr

/-! ## String and platform helpers -/

/-- Lowercase a string character by character (mirrors the
`transform(..., ::tolower)` over the target triple). -/
def lowerStr (s : String) : String := String.mk (s.data.map Char.toLower)

/-- Substring test on character lists. -/
def hasSub : List Char → List Char → Bool
  | [], pat => pat.isEmpty
  | s@(_ :: rest), pat => pat.isPrefixOf s || hasSub rest pat

/-- Substring test mirroring `string::find(...) != npos`. -/
def containsStr (s pat : String) : Bool := hasSub s.data pat.data

/-- Target platforms distinguished by `StabilizerImpl::getPlatform`. -/
inductive Platform where
  | x86_64 | x86_32 | PowerPC | INVALID
  deriving DecidableEq, Repr

/-- Classification of the module's target triple
(`StabilizerImpl::getPlatform`). -/
def getPlatform (m : Module) : Platform :=
  let t := lowerStr m.triple
  if containsStr t "x86_64" || containsStr t "amd64" then .x86_64
  else if containsStr t "i386" || containsStr t "i486"
       || containsStr t "i586" || containsStr t "i686" then .x86_32
  else if containsStr t "powerpc" then .PowerPC
  else .INVALID

/-- Pointer width in bits (`StabilizerImpl::getIntptrSize`). -/
def getIntptrBits (m : Module) : Nat := if m.ptrBytes = 4 then 32 else 64

/-- The `intptr_t` type (`StabilizerImpl::getIntptrType`). -/
def getIntptrTy (m : Module) : Ty := if m.ptrBytes = 4 then .int 32 else .int 64

/-- Pointer-sized integer constant (`StabilizerImpl::getIntptr`). -/
def getIntptrCst (m : Module) (v : Nat) : Const := .intC (getIntptrBits m) v

/-- Whether the platform uses PC-relative data addressing
(`StabilizerImpl::isDataPCRelative`): true on x86-64 and unknown
targets, false on x86-32 and PowerPC. -/
def isDataPCRelative (m : Module) : Bool :=
  match getPlatform m with
  | .x86_64 => true
  | .x86_32 => false
  | .PowerPC => false
  | .INVALID => true

/-- The `i8*` type. -/
def i8p : Ty := .ptr (.int 8)

/-! ## Module lookups and basic operations -/

/-- Symbol-table function lookup (`Module::getFunction`). -/
def funcNamed (m : Module) (n : String) : Option Func :=
  m.funcs.find? (fun f => f.name = n)

/-- Symbol-table global-variable lookup (`Module::getGlobalVariable`). -/
def gvarNamed (m : Module) (n : String) : Option GlobalVar :=
  m.gvars.find? (fun g => g.name = n)

/-- A function with no basic blocks is a declaration. -/
def Func.isDecl (f : Func) : Bool := f.blocks.isEmpty

/-- Update every function named `n` (names are unique in well-formed
modules, so this is the single symbol-table entry). -/
def updateFuncs (l : List Func) (n : String) (g : Func → Func) : List Func :=
  l.map (fun f => if f.name = n then g f else f)

/-- Insert `d` immediately after the (first) function named `n`
(`Module::getFunctionList().insertAfter`). -/
def insertFnAfter (l : List Func) (n : String) (d : Func) : List Func :=
  match l with
  | [] => []
  | f :: rest => if f.name = n then f :: d :: rest else f :: insertFnAfter rest n d

/-- Get-or-create a function declaration
(`Intrinsic::getDeclaration` / lookup-then-`Function::Create`). -/
def getOrDeclare (m : Module) (n : String) (ty : Ty) (intr : Bool) : Module :=
  match funcNamed m n with
  | some _ => m
  | none => { m with funcs := m.funcs ++ [⟨n, ty, .external, intr, [], none, []⟩] }

/-! ## Global-reference and float-constant detection -/

/-- Check whether a constant is or (recursively, through constant
expressions) contains a global value, excluding compiler intrinsics and
the personality routine (`StabilizerImpl::containsGlobal`).  The module
is consulted to decide whether a named global is a `Function` and
whether it is an intrinsic; a name with no function entry is a plain
global value (the source branches on `isa<Function>` / `isa<GlobalValue>`).
Constant aggregates are not `ConstantExpr`s and fall through to `false`,
exactly as in the source. -/
def containsGlobal (m : Module) : Const → Bool
  | .gv n =>
      match funcNamed m n with
      | some f => !(f.intrinsic || n == "__gxx_personality_v0")
      | none => true
  | .cast1 _ _ a => containsGlobal m a
  | .gepSlot _ b _ => containsGlobal m b
  | .binE _ a b => containsGlobal m a || containsGlobal m b
  | _ => false

/-- Check whether a constant is or (through constant expressions)
contains a floating-point literal
(`StabilizerImpl::containsConstantFloat`). -/
def containsConstantFloat : Const → Bool
  | .fpC _ _ => true
  | .cast1 _ _ a => containsConstantFloat a
  | .gepSlot _ b _ => containsConstantFloat b
  | .binE _ a b => containsConstantFloat a || containsConstantFloat b
  | _ => false

/-! ## Use replacement (`Value::replaceAllUsesWith` by name) -/

/-- Replace every reference to global `old` by `new` inside a constant. -/
def substC (o n : String) : Const → Const
  | .gv x => if x = o then .gv n else .gv x
  | .cast1 op t a => .cast1 op t (substC o n a)
  | .gepSlot st b i => .gepSlot st (substC o n b) i
  | .binE op a b => .binE op (substC o n a) (substC o n b)
  | c => c

/-- Replace a global in an operand. -/
def substOpnd (o n : String) : Opnd → Opnd
  | .c k => .c (substC o n k)
  | x => x

/-- Replace a global in an instruction's operands. -/
def substInstr (o n : String) (i : Instr) : Instr :=
  { i with operands := i.operands.map (substOpnd o n) }

/-- Replace a global throughout a function body. -/
def substFunc (o n : String) (f : Func) : Func :=
  { f with blocks := f.blocks.map (fun b => { b with instrs := b.instrs.map (substInstr o n) }) }

/-- Replace a global in a global initializer. -/
def substInit (o n : String) : Init → Init
  | .scalar c => .scalar (substC o n c)
  | .table cs => .table (cs.map (substC o n))
  | .ctorTab es => .ctorTab (es.map (fun e => (e.1, substC o n e.2.1, substC o n e.2.2)))

/-- Retarget every use of global `o` to `n` throughout the module
(`replaceAllUsesWith`: uses live in instruction operands and global
initializers). -/
def substModuleUses (o n : String) (m : Module) : Module :=
  { m with
    funcs := m.funcs.map (substFunc o n),
    gvars := m.gvars.map (fun g => { g with ginit := substInit o n g.ginit }) }

/-! ## Heap randomization (`StabilizerImpl::randomizeHeap`) -/

/-- Count uses of global `n` in a constant. -/
def countGvC (n : String) : Const → Nat
  | .gv x => if x = n then 1 else 0
  | .cast1 _ _ a => countGvC n a
  | .gepSlot _ b _ => countGvC n b
  | .binE _ a b => countGvC n a + countGvC n b
  | _ => 0

/-- Count uses of global `n` in an operand. -/
def countGvOpnd (n : String) : Opnd → Nat
  | .c k => countGvC n k
  | _ => 0

/-- Count uses of global `n` in an instruction. -/
def countGvInstr (n : String) (i : Instr) : Nat :=
  (i.operands.map (countGvOpnd n)).sum

/-- Count uses of global `n` in a function body. -/
def countGvFunc (n : String) (f : Func) : Nat :=
  (f.blocks.map (fun b => (b.instrs.map (countGvInstr n)).sum)).sum

/-- Count uses of global `n` in a global initializer. -/
def countGvInit (n : String) : Init → Nat
  | .scalar c => countGvC n c
  | .table cs => (cs.map (countGvC n)).sum
  | .ctorTab es => (es.map (fun e => countGvC n e.2.1 + countGvC n e.2.2)).sum

/-- Count uses of global `n` in the whole module. -/
def usesOf (m : Module) (n : String) : Nat :=
  (m.funcs.map (countGvFunc n)).sum + (m.gvars.map (fun g => countGvInit n g.ginit)).sum

/-- Replace one allocator: if a function named `n` exists, create an
external declaration `stabilizer_n` with the same function type and
retarget all uses of the original to it (one `if(..._fn)` block of
`randomizeHeap`). -/
def heapReplaceOne (m : Module) (n : String) : Module :=
  match funcNamed m n with
  | none => m
  | some fn =>
      let m2 : Module :=
        { m with funcs := m.funcs ++
            [⟨"stabilizer_" ++ n, fn.ty, .external, false, [], none, []⟩] }
      substModuleUses n ("stabilizer_" ++ n) m2

/-- The four allocator entry points rewired by `randomizeHeap`, in
source order. -/
def allocNames : List String := ["malloc", "calloc", "realloc", "free"]

/-- Rewire the four allocator entry points to the Stabilizer runtime
(`StabilizerImpl::randomizeHeap`).  The source looks up all four names
before rewriting; since each rewrite only adds a `stabilizer_`-prefixed
name, processing the four `if` blocks sequentially is equivalent. -/
def randomizeHeap (m : Module) : Module :=
  allocNames.foldl heapReplaceOne m

/-! ## Stack randomization (`StabilizerImpl::randomizeStack`)

The source collects every `CallInst` of the function, then for each call
`c` inserts eight instructions immediately before `c` (load the pad
byte, zero-extend, multiply by 16, stack-save, ptrtoint, subtract,
inttoptr, stack-restore of the adjusted pointer) and one stack-restore
of the saved pointer immediately before `c->getNextNode()`.  Insertion
before a pointer-identified instruction is modelled by `insertBeforeIid`
keyed on instruction identities. -/

def stacksaveName : String := "llvm.stacksave"

def stackrestoreName : String := "llvm.stackrestore"

/-- The eight instructions inserted before a call site, drawing fresh
ids/registers `k`..`k+7` (the id doubles as the SSA result). -/
def preSeq (m : Module) (padName : String) (k : Nat) : List Instr :=
  [ ⟨k,   .load (.int 8), [.c (.gv padName)], some k⟩,
    ⟨k+1, .zext (getIntptrTy m), [.reg k], some (k+1)⟩,
    ⟨k+2, .mulNUW, [.reg (k+1), .c (getIntptrCst m 16)], some (k+2)⟩,
    ⟨k+3, .call, [.c (.gv stacksaveName)], some (k+3)⟩,
    ⟨k+4, .ptrtoint (getIntptrTy m), [.reg (k+3)], some (k+4)⟩,
    ⟨k+5, .subOp, [.reg (k+4), .reg (k+2)], some (k+5)⟩,
    ⟨k+6, .inttoptr i8p, [.reg (k+5)], some (k+6)⟩,
    ⟨k+7, .call, [.reg (k+6), .c (.gv stackrestoreName)], none⟩ ]

/-- The stack-restore of the originally saved pointer inserted after the
call (before the call's next instruction). -/
def postRestore (k : Nat) : Instr :=
  ⟨k+8, .call, [.reg (k+3), .c (.gv stackrestoreName)], none⟩

/-- Call sites with their following instruction, in block order
(`getNextNode`; in well-formed IR a call is never the terminator, so the
next node exists). -/
def callsWithNext : List Instr → List (Nat × Nat)
  | [] => []
  | [_] => []
  | i :: j :: rest =>
      (if i.op = .call then [(i.iid, j.iid)] else []) ++ callsWithNext (j :: rest)

/-- Insert `news` immediately before the instruction with identity
`tgt`. -/
def insertBeforeIid (tgt : Nat) (news : List Instr) : List Instr → List Instr
  | [] => []
  | i :: rest =>
      if i.iid = tgt then news ++ i :: rest
      else i :: insertBeforeIid tgt news rest

/-- Pad one call site: the pre-call sequence goes before the call, the
restoring call before the call's recorded next instruction. -/
def padCallsite (m : Module) (padName : String) (l : List Instr)
    (cn : Nat × Nat) (k : Nat) : List Instr :=
  insertBeforeIid cn.2 [postRestore k]
    (insertBeforeIid cn.1 (preSeq m padName k) l)

/-- Process each collected call site in order, consuming nine fresh ids
per call. -/
def padLoop (m : Module) (padName : String) :
    List (Nat × Nat) → List Instr → Nat → List Instr × Nat
  | [], l, k => (l, k)
  | cn :: rest, l, k => padLoop m padName rest (padCallsite m padName l cn k) (k + 9)

/-- The module after materializing the `llvm.stacksave` and
`llvm.stackrestore` declarations. -/
def rsM2 (m : Module) : Module :=
  getOrDeclare (getOrDeclare m stacksaveName (.fn0 i8p) true)
    stackrestoreName (.fn1 .void i8p) true

/-- One block of the stack-randomization scan. -/
def rsStepB (m2 : Module) (padName : String) (acc : List BB × Nat) (b : BB) : List BB × Nat :=
  (acc.1 ++ [{ b with
      instrs := (padLoop m2 padName (callsWithNext b.instrs) b.instrs acc.2).1 }],
   (padLoop m2 padName (callsWithNext b.instrs) b.instrs acc.2).2)

/-- The stack-randomization transformation of one function
(`StabilizerImpl::randomizeStack`).  The source first materializes the
`llvm.stacksave` / `llvm.stackrestore` intrinsic declarations, collects
all call sites, then pads each; call collection happens before any
insertion, and every insertion is local to its call's block, so
processing blocks in order is equivalent. -/
def randomizeStack (m : Module) (fname padName : String) (k : Nat) : Module × Nat :=
  match funcNamed (rsM2 m) fname with
  | none => (rsM2 m, k)
  | some f =>
      ({ rsM2 m with funcs := (updateFuncs (rsM2 m).funcs fname
          (fun g => { g with
            blocks := (f.blocks.foldl (rsStepB (rsM2 m) padName) ([], k)).1 })) },
       (f.blocks.foldl (rsStepB (rsM2 m) padName) ([], k)).2)

/-- Structural characterization of the padding of one instruction list:
every call is bracketed by the pre-call sequence and the post-call
restore, other instructions are untouched. -/
def expandCalls (m : Module) (padName : String) : List Instr → Nat → List Instr × Nat
  | [], k => ([], k)
  | i :: rest, k =>
      if i.op = .call then
        let t := expandCalls m padName rest (k + 9)
        (preSeq m padName k ++ i :: postRestore k :: t.1, t.2)
      else
        let t := expandCalls m padName rest k
        (i :: t.1, t.2)

/-- Block-list form of the call-padding characterization: each block's
instruction list expanded in order, threading the fresh-id counter. -/
def expandBlocks (m : Module) (padName : String) : List BB → Nat → List BB × Nat
  | [], k => ([], k)
  | b :: rest, k =>
      ({ b with instrs := (expandCalls m padName b.instrs k).1 }
         :: (expandBlocks m padName rest (expandCalls m padName b.instrs k).2).1,
       (expandBlocks m padName rest (expandCalls m padName b.instrs k).2).2)

/-! ## Float extraction (`StabilizerImpl::extractFloatOperations` and
`StabilizerImpl::getFloatConversion`) -/

/-- Decimal digit characters of a positive number, most significant
first; the `fuel` argument only bounds the recursion depth. -/
def digitsAux : Nat → Nat → List Char
  | 0, _ => []
  | fuel+1, n =>
      if n = 0 then []
      else digitsAux fuel (n / 10) ++ [Nat.digitChar (n % 10)]

/-- Decimal rendering of a natural number. -/
def natStr (n : Nat) : String := if n = 0 then "0" else ⟨digitsAux n n⟩

/-- Name fragment of a conversion opcode. -/
def convOpStr : ConvOp → String
  | .fptoui => "fptoui"
  | .fptosi => "fptosi"
  | .uitofp => "uitofp"
  | .sitofp => "sitofp"
  | .fptrunc => "fptrunc"

/-- LLVM textual name of a type, as printed into converter names. -/
def tyName : Ty → String
  | .void => "void"
  | .int b => "i" ++ natStr b
  | .half => "half"
  | .flt => "float"
  | .dbl => "double"
  | .ptr _ => "ptr"
  | .fn0 _ => "fn"
  | .fn1 _ _ => "fn"
  | .fn2 _ _ _ => "fn"
  | .fn6 _ _ _ _ _ _ _ => "fn"
  | .strukt n => n
  | .arr _ _ => "arr"
  | .fieldT _ _ => "field"

/-- Name of a synthesized converter function: opcode, input type and
output type joined by dots. -/
def convName (c : ConvOp) (tin tout : Ty) : String :=
  convOpStr c ++ "." ++ tyName tin ++ "." ++ tyName tout

/-- An approximate type of a constant, used where the source queries
`getType` on values the pass created. -/
def constTy : Const → Ty
  | .intC b _ => .int b
  | .fpC t _ => t
  | .nullC t => t
  | .gv _ => i8p
  | .cast1 _ t _ => t
  | .gepSlot st _ i => .ptr (.fieldT st i)
  | .binE _ a _ => constTy a
  | .sizeOfC _ => .int 64

/-- The synthesized converter for a conversion shape: internal linkage,
one argument, body a single conversion of the argument followed by a
return of its result. -/
def converterFunc (c : ConvOp) (tin tout : Ty) : Func :=
  ⟨convName c tin tout, .fn1 tout tin, .internal, false, [], none,
   [⟨0, [⟨0, .conv c tin tout, [.reg 0], some 1⟩,
         ⟨1, .ret, [.reg 1], none⟩]⟩]⟩

/-- Get-or-create the converter function for a conversion shape
(`StabilizerImpl::getFloatConversion`).  Returns the (possibly
unchanged) module and the converter name. -/
def getFloatConversion (m : Module) (c : ConvOp) (tin tout : Ty) : Module × String :=
  match funcNamed m (convName c tin tout) with
  | some _ => (m, convName c tin tout)
  | none =>
      ({ m with funcs := m.funcs ++ [converterFunc c tin tout] },
       convName c tin tout)

/-- First-class scalar types: the only types that appear as the input
or output of an int-float conversion in well-typed IR.  On these,
`tyName` (and hence `convName`) is injective. -/
def scalarTy : Ty → Bool
  | .int _ => true
  | .half => true
  | .flt => true
  | .dbl => true
  | _ => false

/-- Whether an instruction is one of the conversions extracted by
`extractFloatOperations`: the four int-float conversions always, and
`fptrunc` only on PowerPC. -/
def isConvTarget (m : Module) (i : Instr) : Bool :=
  match i.op with
  | .conv c _ _ => c ≠ .fptrunc || getPlatform m = .PowerPC
  | _ => false

/-- Process the operand list of a non-conversion instruction: every
constant operand containing a floating-point literal is replaced by a
load from a fresh internal read-only `fconst` global; for PHI operands
the load is recorded against the incoming block (it will be inserted at
that block's terminator), otherwise it is emitted directly before the
instruction.  Returns the new operands, the leading loads, the
PHI-placed loads (tagged with their block), the created globals and the
next fresh id. -/
def efoOperands (isPhi : Bool) (inblocks : List Nat) :
    List Opnd → Nat → Nat →
    List Opnd × List Instr × List (Nat × Instr) × List GlobalVar × Nat
  | [], _, k => ([], [], [], [], k)
  | o :: rest, j, k =>
      match o with
      | .c cst =>
          if containsConstantFloat cst then
            let g : GlobalVar :=
              ⟨"fconst." ++ natStr k, constTy cst, true, .internal, .scalar cst⟩
            let ld : Instr := ⟨k, .load (constTy cst), [.c (.gv g.name)], some k⟩
            let r := efoOperands isPhi inblocks rest (j+1) (k+1)
            if isPhi then
              (Opnd.reg k :: r.1, r.2.1, (inblocks.getD j 0, ld) :: r.2.2.1,
               g :: r.2.2.2.1, r.2.2.2.2)
            else
              (Opnd.reg k :: r.1, ld :: r.2.1, r.2.2.1, g :: r.2.2.2.1, r.2.2.2.2)
          else
            let r := efoOperands isPhi inblocks rest (j+1) k
            (o :: r.1, r.2.1, r.2.2.1, r.2.2.2.1, r.2.2.2.2)
      | _ =>
          let r := efoOperands isPhi inblocks rest (j+1) k
          (o :: r.1, r.2.1, r.2.2.1, r.2.2.2.1, r.2.2.2.2)

/-- State threaded through the float-extraction scan. -/
structure EfoState where
  m : Module
  k : Nat
  phiRecs : List (Nat × Instr)
  deriving Repr

/-- Process one instruction of the float-extraction scan.  A conversion
target is replaced in place by a call to the (memoized) converter on the
same operand, taking over the conversion's SSA result (the source
creates the call before the conversion, redirects all uses, and deletes
the conversion).  Other instructions get their float-literal operands
extracted. -/
def efoInstr (s : EfoState) (i : Instr) : EfoState × List Instr :=
  match i.op with
  | .conv c tin tout =>
      if c ≠ .fptrunc || getPlatform s.m = .PowerPC then
        let r := getFloatConversion s.m c tin tout
        ({ s with m := r.1 },
         [⟨i.iid, .call, [i.operands.getD 0 (.reg 0), .c (.gv r.2)], i.res⟩])
      else
        let r := efoOperands false [] i.operands 0 s.k
        ({ m := { s.m with gvars := s.m.gvars ++ r.2.2.2.1 },
           k := r.2.2.2.2,
           phiRecs := s.phiRecs ++ r.2.2.1 },
         r.2.1 ++ [{ i with operands := r.1 }])
  | .phi _ inblocks =>
      let r := efoOperands true inblocks i.operands 0 s.k
      ({ m := { s.m with gvars := s.m.gvars ++ r.2.2.2.1 },
         k := r.2.2.2.2,
         phiRecs := s.phiRecs ++ r.2.2.1 },
       r.2.1 ++ [{ i with operands := r.1 }])
  | _ =>
      let r := efoOperands false [] i.operands 0 s.k
      ({ m := { s.m with gvars := s.m.gvars ++ r.2.2.2.1 },
         k := r.2.2.2.2,
         phiRecs := s.phiRecs ++ r.2.2.1 },
       r.2.1 ++ [{ i with operands := r.1 }])

/-- Insert `news` immediately before the last instruction (the
terminator) of a list. -/
def insertBeforeLast (news : List Instr) (l : List Instr) : List Instr :=
  l.take (l.length - 1) ++ news ++ l.drop (l.length - 1)

/-- One instruction of the float-extraction scan, accumulating the
rewritten instruction list. -/
def efoStepI (a : EfoState × List Instr) (i : Instr) : EfoState × List Instr :=
  ((efoInstr a.1 i).1, a.2 ++ (efoInstr a.1 i).2)

/-- One basic block of the float-extraction scan, accumulating the
rewritten block list. -/
def efoStepB (acc : EfoState × List BB) (b : BB) : EfoState × List BB :=
  ((b.instrs.foldl efoStepI (acc.1, [])).1,
   acc.2 ++ [{ b with instrs := (b.instrs.foldl efoStepI (acc.1, [])).2 }])

/-- The whole float-extraction scan of a block list. -/
def efoScan (m : Module) (k : Nat) (blocks : List BB) : EfoState × List BB :=
  blocks.foldl efoStepB (⟨m, k, []⟩, [])

/-- Place the PHI-recorded loads at their incoming blocks'
terminators. -/
def efoBlocks2 (st : EfoState × List BB) : List BB :=
  st.2.map (fun b =>
    { b with instrs := (insertBeforeLast
        ((st.1.phiRecs.filter (fun p => p.1 = b.bbid)).map (·.2)) b.instrs) })

/-- Float extraction over one function
(`StabilizerImpl::extractFloatOperations`): scan every instruction,
replacing conversions by converter calls and float-literal operands by
loads from fresh globals; PHI-operand loads are placed at the incoming
block's terminator. -/
def extractFloatOperations (m : Module) (fname : String) (k : Nat) : Module × Nat :=
  match funcNamed m fname with
  | none => (m, k)
  | some f =>
      ({ (efoScan m k f.blocks).1.m with
          funcs := (updateFuncs (efoScan m k f.blocks).1.m.funcs fname
            (fun g => { g with blocks := efoBlocks2 (efoScan m k f.blocks) })) },
       (efoScan m k f.blocks).1.k)

/-! ## PC-relative reference collection
(`StabilizerImpl::findPCRelativeUsesIn`)

The source accumulates a `std::map<Constant*, std::set<Use*>>`.  A
`std::map` keyed on pointers iterates in increasing pointer order, which
is what the ordered association list sorted by `addr` models; the
discovery order of the scan is retained inside each entry's use list. -/

/-- The constant of an operand when it (recursively) contains a global
value — the collection condition of the scan. -/
def condConst (m : Module) : Opnd → Option Const
  | .c k => if containsGlobal m k then some k else none
  | _ => none

/-- All qualifying (constant, instruction id, operand index) triples of
one instruction, in operand order.  For PHI nodes the operands are
exactly the incoming values, so the source's special PHI walk visits the
same use slots in the same order. -/
def collectPairsInstr (m : Module) (i : Instr) : List (Const × Nat × Nat) :=
  i.operands.enum.filterMap
    (fun jo => (condConst m jo.2).map (fun c => (c, i.iid, jo.1)))

/-- All qualifying use triples of a function in discovery order. -/
def collectPairs (m : Module) (f : Func) : List (Const × Nat × Nat) :=
  f.blocks.flatMap (fun b => b.instrs.flatMap (collectPairsInstr m))

/-- The reference map: constants (keyed by their address) with their
recorded uses. -/
abbrev RefMap := List (Const × List (Nat × Nat))

/-- Insertion into the pointer-ordered map: a `std::map` keeps its
entries sorted by the key's pointer value `addr`; a repeated key appends
the use to the existing entry. -/
def mapInsert (addr : Const → Nat) : RefMap → Const → Nat × Nat → RefMap
  | [], c, u => [(c, [u])]
  | (c0, us) :: rest, c, u =>
      if addr c = addr c0 then (c0, us ++ [u]) :: rest
      else if addr c < addr c0 then (c, [u]) :: (c0, us) :: rest
      else (c0, us) :: mapInsert addr rest c u

/-- The reference collection of a function
(`StabilizerImpl::findPCRelativeUsesIn`). -/
def findPCRelativeUsesIn (addr : Const → Nat) (m : Module) (f : Func) : RefMap :=
  (collectPairs m f).foldl (fun acc p => mapInsert addr acc p.1 p.2) []

/-! ## Code randomization (`StabilizerImpl::randomizeCode`) -/

/-- Name of the sentinel function of `fname`. -/
def dummyName (fname : String) : String := "stabilizer.dummy." ++ fname

/-- The sentinel ("dummy") function: internal linkage, `void()`,
64-byte alignment, a single basic block holding a single void return. -/
def dummyFuncOf (fname : String) : Func :=
  ⟨dummyName fname, .fn0 .void, .internal, false, [], some 64,
   [⟨0, [⟨0, .ret, [], none⟩]⟩]⟩

/-- Flattened rewrite records: for each table entry (in map order) and
each of its recorded uses, the pair `(table index, use)`. -/
def recordsOf (refs : RefMap) : List (Nat × Nat × Nat) :=
  refs.enum.flatMap (fun p => p.2.2.map (fun u => (p.1, u.1, u.2)))

/-- Position and table index of the record rewriting use `(iid, j)`. -/
def recFind (records : List (Nat × Nat × Nat)) (iid j : Nat) : Option (Nat × Nat) :=
  match records.enum.find? (fun pe => pe.2.2.1 = iid ∧ pe.2.2.2 = j) with
  | some pe => some (pe.1, pe.2.1)
  | none => none

/-- The relocation-table slot constant for table entry `idx`: an
inbounds `getelementptr (0, idx)` on the addressed table. -/
def slotConst (tableTy : Ty) (actualTable : Const) (idx : Nat) : Const :=
  .gepSlot tableTy actualTable idx

/-- The load inserted for the `p`-th record, fetching table entry `ti`:
a load whose pointer operand is the slot constant (the source uses
`slot->getType()` as the load's type). -/
def slotLoad (tableTy : Ty) (actualTable : Const) (k1 p ti : Nat) : Instr :=
  ⟨k1 + p, .load (.ptr (.fieldT tableTy ti)),
   [.c (slotConst tableTy actualTable ti)], some (k1 + p)⟩

/-- Rewrite the operands of one instruction: every recorded use slot is
retargeted to the register produced by its slot load. -/
def rewriteOps (records : List (Nat × Nat × Nat)) (k1 : Nat) (i : Instr) : Instr :=
  { i with operands := i.operands.enum.map (fun jo =>
      match recFind records i.iid jo.1 with
      | some pt => Opnd.reg (k1 + pt.1)
      | none => jo.2) }

/-- Placement of a record's load: `some b` when the use is a PHI
incoming value, naming the incoming block (the load goes before that
block's terminator); `none` for an ordinary instruction use (the load
goes directly before the instruction). -/
def recPlace (f : Func) (iid j : Nat) : Option Nat :=
  match (f.blocks.flatMap (fun b => b.instrs)).find? (fun i => i.iid = iid) with
  | some i =>
      match i.op with
      | .phi _ inblocks => some (inblocks.getD j 0)
      | _ => none
  | none => none

/-- The loads placed directly before instruction `i`. -/
def ownLoads (f : Func) (records : List (Nat × Nat × Nat))
    (tableTy : Ty) (actualTable : Const) (k1 : Nat) (i : Instr) : List Instr :=
  records.enum.filterMap (fun pe =>
    if pe.2.2.1 = i.iid ∧ recPlace f pe.2.2.1 pe.2.2.2 = none then
      some (slotLoad tableTy actualTable k1 pe.1 pe.2.1)
    else none)

/-- The loads placed before the terminator of block `b` (loads for PHI
uses whose incoming edge comes from `b`). -/
def phiLoads (f : Func) (records : List (Nat × Nat × Nat))
    (tableTy : Ty) (actualTable : Const) (k1 : Nat) (b : BB) : List Instr :=
  records.enum.filterMap (fun pe =>
    if recPlace f pe.2.2.1 pe.2.2.2 = some b.bbid then
      some (slotLoad tableTy actualTable k1 pe.1 pe.2.1)
    else none)

/-- Apply the use rewrite to a whole function body. -/
def rewriteBlocks (f : Func) (records : List (Nat × Nat × Nat))
    (tableTy : Ty) (actualTable : Const) (k1 : Nat) : List BB :=
  f.blocks.map (fun b =>
    { b with instrs := (insertBeforeLast
        (phiLoads f records tableTy actualTable k1 b)
        (b.instrs.flatMap (fun i =>
          ownLoads f records tableTy actualTable k1 i
            ++ [rewriteOps records k1 i]))) })

/-- Result of randomizing one function: the transformed module, the
argument list for `stabilizer_register_function`, and the fresh-id
counter. -/
structure RCResult where
  m : Module
  args : List Const
  k : Nat
  refs : RefMap
  deriving Repr

/-- Preparation of the randomized function (`randomizeCode` steps
before float extraction): place the sentinel immediately after the
function, strip stack-protector attributes, and demote linkonce-ODR
linkage to external. -/
def rcPrep (m : Module) (fname : String) : Module :=
  { m with funcs := (updateFuncs (insertFnAfter m.funcs fname (dummyFuncOf fname)) fname
      (fun f =>
        { f with
          fnAttrs := (f.fnAttrs.filter (fun a => a ≠ "stackprotect")).filter
              (fun a => a ≠ "stackprotectreq"),
          linkage := if f.linkage = .linkonceODR then .external else f.linkage })) }

/-- Struct type of a function's relocation table. -/
def rcTableTy (fname : String) : Ty := .strukt (fname ++ ".relocation_table_t")

/-- Name of a function's relocation table global. -/
def rcTableName (fname : String) : String := fname ++ ".relocation_table"

/-- The relocation-table global: an internal constant-initialized
aggregate holding each referenced constant as a field. -/
def rcTableGv (fname : String) (refs : RefMap) : GlobalVar :=
  ⟨rcTableName fname, rcTableTy fname, false, .internal, .table (refs.map (·.1))⟩

/-- Pointer to the table actually read at run time: past the sentinel
when data is PC-relative, else the static table itself. -/
def rcActualTable (m3 : Module) (fname : String) : Const :=
  if isDataPCRelative m3 then
    .cast1 "ptrcast" (.ptr (rcTableTy fname)) (.gv (dummyName fname))
  else .gv (rcTableName fname)

/-- The module after appending the relocation table and rewriting every
recorded constant use into a slot load. -/
def rcM4 (m3 : Module) (fname : String) (f3 : Func) (refs : RefMap) (k1 : Nat) : Module :=
  { m3 with
    gvars := m3.gvars ++ [rcTableGv fname refs],
    funcs := (updateFuncs m3.funcs fname (fun g =>
      { g with blocks := (rewriteBlocks f3 (recordsOf refs) (rcTableTy fname)
          (rcActualTable m3 fname) k1) })) }

/-- Table construction, use rewriting and argument assembly of
`randomizeCode` (everything after float extraction). -/
def rcBuild (addr : Const → Nat) (m3 : Module) (fname : String) (k1 : Nat) : RCResult :=
  match funcNamed m3 fname with
  | none => ⟨m3, [], k1, []⟩
  | some f3 =>
      if (findPCRelativeUsesIn addr m3 f3).isEmpty then
        ⟨m3,
         [ .cast1 "ptrcast" i8p (.gv fname),
           .cast1 "ptrcast" i8p (.gv (dummyName fname)),
           .nullC i8p,
           .intC 32 0,
           .intC 1 0 ],
         k1, findPCRelativeUsesIn addr m3 f3⟩
      else
        ⟨rcM4 m3 fname f3 (findPCRelativeUsesIn addr m3 f3) k1,
         [ .cast1 "ptrcast" i8p (.gv fname),
           .cast1 "ptrcast" i8p (.gv (dummyName fname)),
           .cast1 "ptrcast" i8p (.gv (rcTableName fname)),
           .cast1 "intcast" (.int 32) (.sizeOfC (rcTableTy fname)),
           .intC 1 (if isDataPCRelative m3 then 1 else 0) ],
         k1 + (recordsOf (findPCRelativeUsesIn addr m3 f3)).length,
         findPCRelativeUsesIn addr m3 f3⟩

/-- Code randomization of one function
(`StabilizerImpl::randomizeCode`): create and place the sentinel, strip
stack-protector attributes, demote linkonce-ODR linkage, extract float
operations, collect global-referencing constant uses, build the
relocation table, rewrite every recorded use into a slot load, and
produce the runtime registration arguments. -/
def randomizeCode (addr : Const → Nat) (m : Module) (fname : String) (k : Nat) : RCResult :=
  match funcNamed m fname with
  | none => ⟨m, [], k, []⟩
  | some _ =>
      rcBuild addr (extractFloatOperations (rcPrep m fname) fname k).1 fname
        (extractFloatOperations (rcPrep m fname) fname k).2

/-! ## Constructor synthesis (`StabilizerImpl::getConstructors`,
`StabilizerImpl::makeConstructor`) and the pass driver
(`StabilizerImpl::operator()`) -/

/-- Read the function pointers of the existing constructor table
(`StabilizerImpl::getConstructors`): the middle field of each entry; a
non-array initializer (an empty table) yields nothing. -/
def getConstructors (m : Module) : List Const :=
  match gvarNamed m "llvm.global_ctors" with
  | none => []
  | some g =>
      match g.ginit with
      | .ctorTab entries => entries.map (fun e => e.2.1)
      | _ => []

/-- Create the single module constructor
(`StabilizerImpl::makeConstructor`): an internal `void()` function named
`name` (its body is filled in by the caller), and a fresh one-entry
appending-linkage constructor table at priority 65535 pointing at it.
The new table takes the name `llvm.global_ctors`; a pre-existing table
of that name is erased from the module. -/
def makeConstructor (m : Module) (name : String) : Module :=
  let init : Func := ⟨name, .fn0 .void, .internal, false, [], none, []⟩
  let entry : Nat × Const × Const := (65535, .gv name, .nullC i8p)
  let newTab : GlobalVar :=
    ⟨"llvm.global_ctors", .arr 1 (.strukt "ctor_entry_t"), true, .appending,
     .ctorTab [entry]⟩
  { m with
    funcs := m.funcs ++ [init],
    gvars := (m.gvars.filter (fun g => g.name ≠ "llvm.global_ctors")) ++ [newTab] }

/-- Declare the three Stabilizer runtime functions
(`StabilizerImpl::declareRuntimeFunctions`), each external and
non-lazy-bind. -/
def declareRuntimeFunctions (m : Module) : Module :=
  { m with funcs := m.funcs ++
      [ ⟨"stabilizer_register_function",
         .fn6 .void i8p i8p i8p (.int 32) (.int 1) i8p,
         .external, false, ["nonlazybind"], none, []⟩,
        ⟨"stabilizer_register_constructor", .fn1 .void i8p,
         .external, false, ["nonlazybind"], none, []⟩,
        ⟨"stabilizer_register_stack_pad", .fn1 .void i8p,
         .external, false, ["nonlazybind"], none, []⟩ ] }

/-- The locally-defined function snapshot of `operator()`: functions
that are not intrinsics, not declarations, and not the personality
routine.  The source stores `Function*` pointers in a `std::set`; the
transformations applied to the members are independent, and the model
iterates them in module order. -/
def localFunctions (m : Module) : List String :=
  (m.funcs.filter (fun f =>
    !f.intrinsic && !f.isDecl && f.name ≠ "__gxx_personality_v0")).map (·.name)

/-- Stack-randomization stage of the driver: per local function, create
the single-byte internal pad global named `F.stack_pad` initialized to
zero, then pad every call site. -/
def stackStage (locals : List String) (m : Module) (k : Nat) : Module × Nat :=
  locals.foldl
    (fun (acc : Module × Nat) fname =>
      let pad : GlobalVar :=
        ⟨fname ++ ".stack_pad", .int 8, false, .internal, .scalar (.intC 8 0)⟩
      let m2 : Module := { acc.1 with gvars := acc.1.gvars ++ [pad] }
      randomizeStack m2 fname pad.name acc.2)
    (m, k)

/-- Code-randomization stage of the driver: randomize each local
function and accumulate one `stabilizer_register_function` call per
function, appending the stack-pad pointer (or a null `i8*` when stack
randomization is off). -/
def codeStage (stack : Bool) (addr : Const → Nat) (locals : List String)
    (m : Module) (k : Nat) : Module × Nat × List Instr :=
  locals.foldl
    (fun (acc : Module × Nat × List Instr) fname =>
      let r := randomizeCode addr acc.1 fname acc.2.1
      let padArg : Const :=
        if stack then .gv (fname ++ ".stack_pad") else .nullC (.ptr (.int 8))
      let callArgs : List Opnd :=
        (r.args ++ [padArg]).map Opnd.c ++ [.c (.gv "stabilizer_register_function")]
      (r.m, r.k + 1, acc.2.2 ++ [⟨r.k, .call, callArgs, none⟩]))
    (m, k, [])

/-- Driver stage: the module after optional heap randomization. -/
def spM1 (heap : Bool) (m : Module) : Module := if heap then randomizeHeap m else m

/-- Driver: the snapshot of locally-defined functions. -/
def spLocals (heap : Bool) (m : Module) : List String := localFunctions (spM1 heap m)

/-- Driver stage: after declaring the runtime functions. -/
def spM2 (heap : Bool) (m : Module) : Module := declareRuntimeFunctions (spM1 heap m)

/-- Driver stage: after optional stack randomization. -/
def spS3 (heap stack : Bool) (m : Module) (k : Nat) : Module × Nat :=
  if stack then stackStage (spLocals heap m) (spM2 heap m) k else (spM2 heap m, k)

/-- Driver: the captured pre-existing constructors. -/
def spOldCtors (heap stack : Bool) (m : Module) (k : Nat) : List Const :=
  getConstructors (spS3 heap stack m k).1

/-- Driver stage: after synthesizing the module constructor. -/
def spM4 (heap stack : Bool) (m : Module) (k : Nat) : Module :=
  makeConstructor (spS3 heap stack m k).1 "stabilizer.module_ctor"

/-- Driver stage: after optional code randomization with registration
accumulation. -/
def spS5 (heap stack code : Bool) (addr : Const → Nat) (m : Module) (k : Nat) :
    Module × Nat × List Instr :=
  if code then codeStage stack addr (spLocals heap m) (spM4 heap stack m k) (spS3 heap stack m k).2
  else (spM4 heap stack m k, (spS3 heap stack m k).2, [])

/-- Driver: registration calls plus re-registration of the captured
constructors. -/
def spCtorCalls1 (heap stack code : Bool) (addr : Const → Nat) (m : Module) (k : Nat) :
    List Instr :=
  (spS5 heap stack code addr m k).2.2 ++ ((spOldCtors heap stack m k).enum.map (fun pc =>
    (⟨(spS5 heap stack code addr m k).2.1 + pc.1, .call,
      [.c pc.2, .c (.gv "stabilizer_register_constructor")], none⟩ : Instr)))

/-- Driver: fresh-id counter after the constructor re-registrations. -/
def spK6 (heap stack code : Bool) (addr : Const → Nat) (m : Module) (k : Nat) : Nat :=
  (spS5 heap stack code addr m k).2.1 + (spOldCtors heap stack m k).length

/-- Driver: registration calls plus pad-only registrations when only
stack randomization is on. -/
def spCtorCalls2 (heap stack code : Bool) (addr : Const → Nat) (m : Module) (k : Nat) :
    List Instr :=
  if stack && !code then
    spCtorCalls1 heap stack code addr m k ++ ((spLocals heap m).enum.map (fun pn =>
      (⟨spK6 heap stack code addr m k + pn.1, .call,
        [.c (.gv (pn.2 ++ ".stack_pad")), .c (.gv "stabilizer_register_stack_pad")],
        none⟩ : Instr)))
  else spCtorCalls1 heap stack code addr m k

/-- Driver: the synthesized constructor's body. -/
def spBody (heap stack code : Bool) (addr : Const → Nat) (m : Module) (k : Nat) :
    List Instr :=
  spCtorCalls2 heap stack code addr m k
    ++ [⟨spK6 heap stack code addr m k + (spLocals heap m).length, .ret, [], none⟩]

/-- Driver stage: after filling the constructor's body. -/
def spM6 (heap stack code : Bool) (addr : Const → Nat) (m : Module) (k : Nat) : Module :=
  { (spS5 heap stack code addr m k).1 with
    funcs := (updateFuncs (spS5 heap stack code addr m k).1.funcs "stabilizer.module_ctor"
      (fun f => { f with blocks := [⟨0, spBody heap stack code addr m k⟩] })) }

/-- The Stabilizer pass driver (`StabilizerImpl::operator()`): heap
randomization, local-function snapshot, runtime declarations, stack
randomization, constructor capture and synthesis, code randomization
with registration, re-registration of pre-existing constructors,
pad-only registration, constructor return, and the final renaming of
`main`. -/
def stabilizerPass (heap stack code : Bool) (addr : Const → Nat)
    (m : Module) (k : Nat) : Module :=
  match funcNamed (spM6 heap stack code addr m k) "main" with
  | some _ =>
      { spM6 heap stack code addr m k with
        funcs := (updateFuncs (spM6 heap stack code addr m k).funcs "main"
          (fun f => { f with name := "stabilizer_main" })) }
  | none => spM6 heap stack code addr m k

/-! ## Intrinsic lowering (`lowerInstrinsicsPass`)

The pass is parametric in the process-wide intrinsic-to-libcall table
(`GetLibcall`, empty string meaning no mapping) and the always-inlined
list (`isAlwaysInl`); their definitions live outside this repository's
sources, so the pass is verified for an arbitrary table. -/

/-- One scan step of the lowering loop over a function name: an
intrinsic that is not always-inlined and has a non-empty mapping is
redirected to the (possibly freshly declared, external) libcall
function and marked for deletion; an unmapped intrinsic produces a
warning. -/
def lowerStep (getLibcall : String → String) (isAlwaysInl : String → Bool)
    (acc : Module × List String × List String) (fname : String) :
    Module × List String × List String :=
  match funcNamed acc.1 fname with
  | none => acc
  | some f =>
      if f.intrinsic && !isAlwaysInl f.name then
        let r := getLibcall f.name
        if r ≠ "" then
          let m2 :=
            match funcNamed acc.1 r with
            | some _ => acc.1
            | none => { acc.1 with funcs := acc.1.funcs ++
                [⟨r, f.ty, .external, false, [], none, []⟩] }
          (substModuleUses f.name r m2, acc.2.1 ++ [f.name], acc.2.2)
        else
          (acc.1, acc.2.1,
           acc.2.2 ++ ["warning: unable to handle intrinsic " ++ f.name])
      else acc

/-- The intrinsic-lowering pass (`lowerInstrinsicsPass`): scan the
module's functions (the scan visits the original list; functions
appended during the scan are non-intrinsic declarations and are left
untouched by the loop), then erase every marked intrinsic.  Returns the
transformed module and the emitted warnings. -/
def lowerIntrinsicsPass (getLibcall : String → String) (isAlwaysInl : String → Bool)
    (m : Module) : Module × List String :=
  let r := (m.funcs.map (·.name)).foldl (lowerStep getLibcall isAlwaysInl) (m, [], [])
  ({ r.1 with funcs := r.1.funcs.filter (fun f => !(r.2.1.contains f.name)) }, r.2.2)

/-! # Verification

General lemmas about the embedding, followed by one theorem per
specification claim. -/

/-- Boolean string-prefix test on the underlying character lists. -/
def strHasPfx (p s : String) : Bool := p.data.isPrefixOf s.data

/-- Shape of an instruction: everything but the operand values. -/
def instrShape (i : Instr) : Nat × Op × Nat × Option Nat :=
  (i.iid, i.op, i.operands.length, i.res)

/-- Shape of a basic block. -/
def bbShape (b : BB) : Nat × List (Nat × Op × Nat × Option Nat) :=
  (b.bbid, b.instrs.map instrShape)

/-- Shape of a function: name, type, linkage, intrinsic flag and full
instruction structure minus operand values. -/
def funcShape (f : Func) :
    String × Ty × Linkage × Bool × List (Nat × List (Nat × Op × Nat × Option Nat)) :=
  (f.name, f.ty, f.linkage, f.intrinsic, f.blocks.map bbShape)

theorem strdata_append (s t : String) : (s ++ t).data = s.data ++ t.data := by
  cases s; cases t; rfl

theorem strHasPfx_append (p t : String) : strHasPfx p (p ++ t) = true := by
  simp [strHasPfx, strdata_append, List.isPrefixOf_iff_prefix]

theorem strHasPfx_ne (p x t : String) (h : strHasPfx p x = false) : p ++ t ≠ x := by
  intro he
  rw [← he, strHasPfx_append] at h
  exact Bool.true_eq_false.mp h

/-- Substituting a use target never changes a constant's use count of an
unrelated global, and erases the substituted one. -/
theorem substC_kill (o s : String) (hs : s ≠ o) (c : Const) :
    countGvC o (substC o s c) = 0 := by
  induction c with
  | intC b v => simp [substC, countGvC]
  | fpC t b => simp [substC, countGvC]
  | nullC t => simp [substC, countGvC]
  | gv x =>
      by_cases hx : x = o <;> simp [substC, countGvC, hx, hs]
  | cast1 op t a ih => simpa [substC, countGvC] using ih
  | gepSlot st b i ih => simpa [substC, countGvC] using ih
  | binE op a b iha ihb => simp [substC, countGvC, iha, ihb]
  | sizeOfC t => simp [substC, countGvC]

theorem substC_mono (o s x : String) (hs : s ≠ x) (c : Const) :
    countGvC x (substC o s c) ≤ countGvC x c := by
  induction c with
  | intC b v => simp [substC, countGvC]
  | fpC t b => simp [substC, countGvC]
  | nullC t => simp [substC, countGvC]
  | gv y =>
      by_cases hy : y = o <;> simp [substC, countGvC, hy, hs]
  | cast1 op t a ih => simpa [substC, countGvC] using ih
  | gepSlot st b i ih => simpa [substC, countGvC] using ih
  | binE op a b iha ihb =>
      simp only [substC, countGvC]
      omega
  | sizeOfC t => simp [substC, countGvC]

theorem substOpnd_mono (o s x : String) (hs : s ≠ x) (p : Opnd) :
    countGvOpnd x (substOpnd o s p) ≤ countGvOpnd x p := by
  cases p with
  | c k => simpa [substOpnd, countGvOpnd] using substC_mono o s x hs k
  | reg r => simp [substOpnd, countGvOpnd]

theorem substInstr_mono (o s x : String) (hs : s ≠ x) (i : Instr) :
    countGvInstr x (substInstr o s i) ≤ countGvInstr x i := by
  simp only [countGvInstr, substInstr, List.map_map]
  exact List.sum_le_sum (fun p _ => substOpnd_mono o s x hs p)

theorem substFunc_mono (o s x : String) (hs : s ≠ x) (f : Func) :
    countGvFunc x (substFunc o s f) ≤ countGvFunc x f := by
  simp only [countGvFunc, substFunc, List.map_map]
  refine List.sum_le_sum (fun b _ => ?_)
  simp only [Function.comp, List.map_map]
  exact List.sum_le_sum (fun i _ => substInstr_mono o s x hs i)

theorem substInit_mono (o s x : String) (hs : s ≠ x) (g : Init) :
    countGvInit x (substInit o s g) ≤ countGvInit x g := by
  cases g with
  | scalar c => simpa [substInit, countGvInit] using substC_mono o s x hs c
  | table cs =>
      simp only [substInit, countGvInit, List.map_map]
      exact List.sum_le_sum (fun c _ => substC_mono o s x hs c)
  | ctorTab es =>
      simp only [substInit, countGvInit, List.map_map]
      refine List.sum_le_sum (fun e _ => ?_)
      have h1 := substC_mono o s x hs e.2.1
      have h2 := substC_mono o s x hs e.2.2
      simp only [Function.comp]
      omega

theorem substModuleUses_mono (o s x : String) (hs : s ≠ x) (m : Module) :
    usesOf (substModuleUses o s m) x ≤ usesOf m x := by
  simp only [usesOf, substModuleUses, List.map_map, Function.comp_def]
  have h1 : ((m.funcs.map (fun f => countGvFunc x (substFunc o s f))).sum)
      ≤ (m.funcs.map (countGvFunc x)).sum :=
    List.sum_le_sum (fun f _ => substFunc_mono o s x hs f)
  have h2 : ((m.gvars.map (fun g => countGvInit x (substInit o s g.ginit))).sum)
      ≤ (m.gvars.map (fun g => countGvInit x g.ginit)).sum :=
    List.sum_le_sum (fun g _ => substInit_mono o s x hs g.ginit)
  exact Nat.add_le_add h1 h2

theorem substModuleUses_kill (o s : String) (hs : s ≠ o) (m : Module) :
    usesOf (substModuleUses o s m) o = 0 := by
  simp only [usesOf, substModuleUses, List.map_map, Function.comp_def]
  have h1 : (m.funcs.map (countGvFunc o ∘ substFunc o s)).sum = 0 := by
    refine List.sum_eq_zero (fun v hv => ?_)
    obtain ⟨f, _, rfl⟩ := List.mem_map.mp hv
    simp only [Function.comp, countGvFunc, substFunc, List.map_map]
    refine List.sum_eq_zero (fun w hw => ?_)
    obtain ⟨b, _, rfl⟩ := List.mem_map.mp hw
    simp only [Function.comp, List.map_map]
    refine List.sum_eq_zero (fun u hu => ?_)
    obtain ⟨i, _, rfl⟩ := List.mem_map.mp hu
    simp only [Function.comp, countGvInstr, substInstr, List.map_map]
    refine List.sum_eq_zero (fun z hz => ?_)
    obtain ⟨p, _, rfl⟩ := List.mem_map.mp hz
    cases p with
    | c k => simpa [substOpnd, countGvOpnd] using substC_kill o s hs k
    | reg r => simp [substOpnd, countGvOpnd]
  have h2 : (m.gvars.map (fun g => countGvInit o (substInit o s g.ginit))).sum = 0 := by
    refine List.sum_eq_zero (fun v hv => ?_)
    obtain ⟨g, _, rfl⟩ := List.mem_map.mp hv
    cases hg : g.ginit with
    | scalar c => simpa [substInit, countGvInit] using substC_kill o s hs c
    | table cs =>
        simp only [substInit, countGvInit, List.map_map]
        refine List.sum_eq_zero (fun w hw => ?_)
        obtain ⟨c, _, rfl⟩ := List.mem_map.mp hw
        simpa using substC_kill o s hs c
    | ctorTab es =>
        simp only [substInit, countGvInit, List.map_map]
        refine List.sum_eq_zero (fun w hw => ?_)
        obtain ⟨e, _, rfl⟩ := List.mem_map.mp hw
        simp [Function.comp, substC_kill o s hs e.2.1, substC_kill o s hs e.2.2]
  simp only [Function.comp_def] at h1 h2 ⊢
  omega

theorem substFunc_name (o s : String) (f : Func) : (substFunc o s f).name = f.name := rfl

theorem substFunc_shape (o s : String) (f : Func) :
    funcShape (substFunc o s f) = funcShape f := by
  have hb : ∀ b : BB, bbShape { b with instrs := b.instrs.map (substInstr o s) } = bbShape b := by
    intro b
    simp [bbShape, List.map_map, Function.comp, instrShape, substInstr]
  simp [funcShape, substFunc, List.map_map, Function.comp, hb]

theorem substFunc_decl (o s : String) (f : Func) (h : f.blocks = []) :
    substFunc o s f = f := by
  cases f
  simp only [substFunc] at *
  simp_all

/-! ## Heap randomization: closed form and claim C7 -/

/-- The runtime replacement name of an allocator. -/
def stabName (n : String) : String := "stabilizer_" ++ n

/-- The declaration `randomizeHeap` creates for allocator `n`. -/
def declOf (m : Module) (n : String) : Func :=
  match funcNamed m n with
  | some fn => ⟨stabName n, fn.ty, .external, false, [], none, []⟩
  | none => ⟨stabName n, .void, .external, false, [], none, []⟩

/-- The composite use-substitution applied by processing the allocator
names `ns` on a module whose present allocators are those of `m`. -/
def sigmaOf (ns : List String) (m : Module) (f : Func) : Func :=
  (ns.filter (fun n => (funcNamed m n).isSome)).foldl
    (fun g n => substFunc n (stabName n) g) f

theorem sigmaOf_name (ns : List String) (m : Module) (f : Func) :
    (sigmaOf ns m f).name = f.name := by
  unfold sigmaOf
  generalize ns.filter (fun n => (funcNamed m n).isSome) = l
  induction l generalizing f with
  | nil => rfl
  | cons a l ih => simpa [List.foldl_cons] using ih (substFunc a (stabName a) f)

theorem sigmaOf_decl (ns : List String) (m : Module) (f : Func) (h : f.blocks = []) :
    sigmaOf ns m f = f := by
  unfold sigmaOf
  generalize ns.filter (fun n => (funcNamed m n).isSome) = l
  induction l generalizing f with
  | nil => rfl
  | cons a l ih =>
      rw [List.foldl_cons, substFunc_decl _ _ _ h]
      exact ih f h

theorem sigmaOf_shape (ns : List String) (m : Module) (f : Func) :
    funcShape (sigmaOf ns m f) = funcShape f := by
  unfold sigmaOf
  generalize ns.filter (fun n => (funcNamed m n).isSome) = l
  induction l generalizing f with
  | nil => rfl
  | cons a l ih =>
      rw [List.foldl_cons]
      rw [ih (substFunc a (stabName a) f), substFunc_shape]

theorem funcNamed_mk (tr pb fs gs n) :
    funcNamed ⟨tr, pb, fs, gs⟩ n = fs.find? (fun f => f.name = n) := rfl

theorem find?_map_name (l : List Func) (σ : Func → Func)
    (hσ : ∀ f, (σ f).name = f.name) (n : String) :
    (l.map σ).find? (fun f => f.name = n) = (l.find? (fun f => f.name = n)).map σ := by
  rw [List.find?_map]
  have hp : ((fun f => decide (f.name = n)) ∘ σ) = (fun f : Func => decide (f.name = n)) := by
    funext f
    simp [Function.comp, hσ]
  rw [hp]

/-- One step of the heap fold, closed form. -/
theorem heapReplaceOne_closed (m : Module) (n : String) :
    (heapReplaceOne m n) =
      match funcNamed m n with
      | none => m
      | some fn =>
          { m with
            funcs := (m.funcs ++ [(⟨stabName n, fn.ty, .external, false, [], none, []⟩ : Func)]).map
                (substFunc n (stabName n)),
            gvars := m.gvars.map (fun g => { g with ginit := substInit n (stabName n) g.ginit }) } := by
  unfold heapReplaceOne
  cases h : funcNamed m n with
  | none => rfl
  | some fn => simp [substModuleUses, stabName]

/-- Closed form of the allocator-processing fold: the surviving
functions are the use-substituted originals followed by the created
declarations, and the globals' initializers are use-substituted. -/
theorem heapFold_closed (ns : List String) (m : Module)
    (h1 : ∀ x ∈ ns, strHasPfx "stabilizer_" x = false) :
    (ns.foldl heapReplaceOne m).funcs
        = m.funcs.map (sigmaOf ns m)
          ++ (ns.filter (fun n => (funcNamed m n).isSome)).map (declOf m) := by
  induction ns generalizing m with
  | nil =>
      rw [show sigmaOf [] m = id from funext (fun _ => rfl)]
      simp
  | cons n rest ih =>
      have hn := h1 n (List.mem_cons_self n rest)
      have hrest : ∀ x ∈ rest, strHasPfx "stabilizer_" x = false :=
        fun x hx => h1 x (List.mem_cons_of_mem n hx)
      rw [List.foldl_cons]
      cases hfn : funcNamed m n with
      | none =>
          have hid : heapReplaceOne m n = m := by
            rw [heapReplaceOne_closed, hfn]
          rw [hid, ih m hrest]
          have hfilter : (n :: rest).filter (fun x => (funcNamed m x).isSome)
              = rest.filter (fun x => (funcNamed m x).isSome) := by
            simp [List.filter_cons, hfn]
          have hsig : ∀ f, sigmaOf (n :: rest) m f = sigmaOf rest m f := by
            intro f
            unfold sigmaOf
            rw [List.filter_cons]
            simp [hfn]
          rw [hfilter]
          congr 1
          exact List.map_congr_left (fun f _ => (hsig f).symm)
      | some fn =>
          set d : Func := ⟨stabName n, fn.ty, .external, false, [], none, []⟩ with hd
          set σ := substFunc n (stabName n) with hσ
          have hm1 : heapReplaceOne m n =
              { m with
                funcs := (m.funcs ++ [d]).map σ,
                gvars := m.gvars.map (fun g => { g with ginit := substInit n (stabName n) g.ginit }) } := by
            rw [heapReplaceOne_closed, hfn]
          set m1 := heapReplaceOne m n with hm1d
          -- lookups in m1 agree with lookups in m, composed with σ
          have hlook : ∀ x ∈ rest, funcNamed m1 x = (funcNamed m x).map σ := by
            intro x hx
            have hdx : d.name ≠ x := by
              have := strHasPfx_ne "stabilizer_" x n (hrest x hx)
              simpa [hd, stabName] using this
            have hd0 : [d].find? (fun f => f.name = x) = none := by
              simp [List.find?, hdx]
            simp only [funcNamed, hm1]
            rw [find?_map_name _ _ (fun f => substFunc_name n (stabName n) f),
              List.find?_append, hd0, Option.or_none]
          have hpres : ∀ x ∈ rest, (funcNamed m1 x).isSome = (funcNamed m x).isSome := by
            intro x hx
            rw [hlook x hx]
            cases funcNamed m x <;> rfl
          have hfilter1 : rest.filter (fun x => (funcNamed m1 x).isSome)
              = rest.filter (fun x => (funcNamed m x).isSome) := by
            apply List.filter_congr
            intro x hx
            rw [hpres x hx]
          have hdecl1 : ∀ x ∈ rest, declOf m1 x = declOf m x := by
            intro x hx
            unfold declOf
            rw [hlook x hx]
            cases funcNamed m x with
            | none => rfl
            | some g => simp [hσ, substFunc]
          have hsig1 : ∀ f, sigmaOf rest m1 f = sigmaOf rest m f := by
            intro f
            unfold sigmaOf
            rw [hfilter1]
          rw [ih m1 hrest]
          have hfuncs1 : m1.funcs = m.funcs.map σ ++ [d] := by
            rw [hm1]
            simp only [List.map_append, List.map_cons, List.map_nil]
            congr 1
          rw [hfuncs1]
          have hfilter2 : (n :: rest).filter (fun x => (funcNamed m x).isSome)
              = n :: rest.filter (fun x => (funcNamed m x).isSome) := by
            simp [List.filter_cons, hfn]
          rw [hfilter2]
          simp only [List.map_append, List.map_map, List.map_cons]
          have hsd : sigmaOf rest m1 d = d := sigmaOf_decl rest m1 d rfl
          have hsig2 : ∀ f, sigmaOf rest m1 (σ f) = sigmaOf (n :: rest) m f := by
            intro f
            rw [hsig1]
            unfold sigmaOf
            rw [List.filter_cons]
            simp [hfn, hσ]
          have hdn : declOf m n = d := by
            unfold declOf
            rw [hfn]
          have hmap1 : m.funcs.map (sigmaOf rest m1 ∘ σ) = m.funcs.map (sigmaOf (n :: rest) m) :=
            List.map_congr_left (fun f _ => hsig2 f)
          have hmap2 : (rest.filter (fun x => (funcNamed m x).isSome)).map (declOf m1)
              = (rest.filter (fun x => (funcNamed m x).isSome)).map (declOf m) := by
            refine List.map_congr_left (fun x hx => ?_)
            exact hdecl1 x (List.mem_of_mem_filter hx)
          rw [hfilter1, hmap2, hmap1, hsd, hdn]
          simp

theorem stabName_pfx (n : String) : strHasPfx "stabilizer_" (stabName n) = true :=
  strHasPfx_append "stabilizer_" n

theorem stabName_ne (n x : String) (hx : strHasPfx "stabilizer_" x = false) :
    stabName n ≠ x := strHasPfx_ne "stabilizer_" x n hx

theorem usesOf_append_fn (m : Module) (d : Func) (x : String) :
    usesOf { m with funcs := m.funcs ++ [d] } x = usesOf m x + countGvFunc x d := by
  simp [usesOf, List.map_append]
  omega

theorem countGvFunc_decl (x : String) (d : Func) (h : d.blocks = []) :
    countGvFunc x d = 0 := by
  simp [countGvFunc, h]

theorem heapReplaceOne_kill (m : Module) (n : String)
    (hn : strHasPfx "stabilizer_" n = false) (hsome : (funcNamed m n).isSome) :
    usesOf (heapReplaceOne m n) n = 0 := by
  have hne : stabName n ≠ n := stabName_ne n n hn
  unfold heapReplaceOne
  cases h : funcNamed m n with
  | none => rw [h] at hsome; simp at hsome
  | some fn => exact substModuleUses_kill n (stabName n) hne _

theorem heapReplaceOne_pres0 (m : Module) (n x : String)
    (hx : usesOf m x = 0) (hsx : stabName n ≠ x) :
    usesOf (heapReplaceOne m n) x = 0 := by
  unfold heapReplaceOne
  cases h : funcNamed m n with
  | none => exact hx
  | some fn =>
      have h2 : usesOf { m with funcs := m.funcs ++
          [(⟨"stabilizer_" ++ n, fn.ty, .external, false, [], none, []⟩ : Func)] } x = 0 := by
        rw [usesOf_append_fn, countGvFunc_decl x _ rfl, hx]
      have hle := substModuleUses_mono n ("stabilizer_" ++ n) x
        (by simpa [stabName] using hsx)
        { m with funcs := m.funcs ++
          [(⟨"stabilizer_" ++ n, fn.ty, .external, false, [], none, []⟩ : Func)] }
      show usesOf (substModuleUses n ("stabilizer_" ++ n) { m with funcs := m.funcs ++
          [(⟨"stabilizer_" ++ n, fn.ty, .external, false, [], none, []⟩ : Func)] }) x = 0
      omega

theorem heapReplaceOne_presSome (m : Module) (n' x : String)
    (hx : strHasPfx "stabilizer_" x = false) :
    (funcNamed (heapReplaceOne m n') x).isSome = (funcNamed m x).isSome := by
  unfold heapReplaceOne
  cases h : funcNamed m n' with
  | none => rfl
  | some fn =>
      set d : Func := ⟨"stabilizer_" ++ n', fn.ty, .external, false, [], none, []⟩ with hd
      have hdx : d.name ≠ x := by
        have := stabName_ne n' x hx
        simpa [hd, stabName] using this
      have hd0 : [d].find? (fun f => f.name = x) = none := by
        simp [List.find?, hdx]
      simp only [substModuleUses, funcNamed]
      rw [show (({ m with funcs := m.funcs ++ [d] } : Module).funcs.map (substFunc n' ("stabilizer_" ++ n'))).find?
            (fun f => f.name = x)
          = ((m.funcs ++ [d]).find? (fun f => f.name = x)).map (substFunc n' ("stabilizer_" ++ n'))
        from find?_map_name _ _ (fun f => substFunc_name _ _ f) x]
      rw [List.find?_append, hd0, Option.or_none]
      cases m.funcs.find? (fun f => f.name = x) <;> rfl

theorem heapReplaceOne_presDecl (m : Module) (n' x : String)
    (hx : strHasPfx "stabilizer_" x = false)
    (h : ∃ f, funcNamed m x = some f ∧ f.blocks = []) :
    ∃ f, funcNamed (heapReplaceOne m n') x = some f ∧ f.blocks = [] := by
  obtain ⟨f, hf, hfb⟩ := h
  unfold heapReplaceOne
  cases hn : funcNamed m n' with
  | none => exact ⟨f, hf, hfb⟩
  | some fn =>
      set d : Func := ⟨"stabilizer_" ++ n', fn.ty, .external, false, [], none, []⟩ with hd
      have hdx : d.name ≠ x := by
        have := stabName_ne n' x hx
        simpa [hd, stabName] using this
      have hd0 : [d].find? (fun f => f.name = x) = none := by
        simp [List.find?, hdx]
      refine ⟨substFunc n' ("stabilizer_" ++ n') f, ?_, by simp [substFunc, hfb]⟩
      simp only [substModuleUses, funcNamed]
      rw [show (({ m with funcs := m.funcs ++ [d] } : Module).funcs.map (substFunc n' ("stabilizer_" ++ n'))).find?
            (fun f => f.name = x)
          = ((m.funcs ++ [d]).find? (fun f => f.name = x)).map (substFunc n' ("stabilizer_" ++ n'))
        from find?_map_name _ _ (fun f => substFunc_name _ _ f) x]
      rw [List.find?_append]
      unfold funcNamed at hf
      rw [hf, hd0]
      rfl

theorem heapFold_pres0 (ns : List String) (m : Module) (x : String)
    (hx : usesOf m x = 0) (hsx : ∀ n' ∈ ns, stabName n' ≠ x) :
    usesOf (ns.foldl heapReplaceOne m) x = 0 := by
  induction ns generalizing m with
  | nil => exact hx
  | cons a rest ih =>
      rw [List.foldl_cons]
      exact ih (heapReplaceOne m a)
        (heapReplaceOne_pres0 m a x hx (hsx a (List.mem_cons_self a rest)))
        (fun n' hn' => hsx n' (List.mem_cons_of_mem a hn'))

theorem heapFold_kill (ns : List String) (m : Module) (n : String)
    (h1 : ∀ x ∈ ns, strHasPfx "stabilizer_" x = false)
    (hn : n ∈ ns) (hsome : (funcNamed m n).isSome) :
    usesOf (ns.foldl heapReplaceOne m) n = 0 := by
  induction ns generalizing m with
  | nil => cases hn
  | cons a rest ih =>
      have hrest : ∀ x ∈ rest, strHasPfx "stabilizer_" x = false :=
        fun x hx => h1 x (List.mem_cons_of_mem a hx)
      rw [List.foldl_cons]
      rcases List.mem_cons.mp hn with heq | hmem
      · subst heq
        exact heapFold_pres0 rest (heapReplaceOne m n) n
          (heapReplaceOne_kill m n (h1 n (List.mem_cons_self n rest)) hsome)
          (fun n' hn' => stabName_ne n' n (h1 n (List.mem_cons_self n rest)))
      · refine ih (heapReplaceOne m a) hrest hmem ?_
        rw [heapReplaceOne_presSome m a n (hrest n hmem)]
        exact hsome

/-- Claim C7 (heap randomization): for every allocator name the module
declares as a function, `randomizeHeap` creates an external-linkage
declaration with the identical function type and the `stabilizer_`-
prefixed name, retargets every use of the original to it (so the
original has zero remaining uses), keeps the original in the module, and
changes no function's instruction structure (in particular no call
site's argument count): every surviving function is the pure
use-substitution `sigmaOf` of an original, which preserves `funcShape`,
or one of the created declarations. -/
theorem heap_allocators_rewired_C7 (m : Module)
    (_hpfx : ∀ f ∈ m.funcs, strHasPfx "stabilizer_" f.name = false) :
    ∀ n ∈ allocNames, ∀ fn, funcNamed m n = some fn →
      ((⟨stabName n, fn.ty, .external, false, [], none, []⟩ : Func) ∈ (randomizeHeap m).funcs)
      ∧ usesOf (randomizeHeap m) n = 0
      ∧ (∃ f' ∈ (randomizeHeap m).funcs, f'.name = n ∧ f'.ty = fn.ty
            ∧ f'.linkage = fn.linkage ∧ f'.intrinsic = fn.intrinsic)
      ∧ (∀ f' ∈ (randomizeHeap m).funcs,
            (∃ f ∈ m.funcs, f' = sigmaOf allocNames m f ∧ funcShape f' = funcShape f)
            ∨ ∃ x ∈ allocNames, f' = declOf m x) := by
  intro n hmem fn hfn
  have hns : ∀ x ∈ allocNames, strHasPfx "stabilizer_" x = false := by decide
  have hclosed := heapFold_closed allocNames m hns
  have hfuncs : (randomizeHeap m).funcs
      = m.funcs.map (sigmaOf allocNames m)
        ++ (allocNames.filter (fun x => (funcNamed m x).isSome)).map (declOf m) := hclosed
  refine ⟨?_, ?_, ?_, ?_⟩
  · rw [hfuncs]
    refine List.mem_append_right _ ?_
    have hx : n ∈ allocNames.filter (fun x => (funcNamed m x).isSome) := by
      refine List.mem_filter.mpr ⟨hmem, ?_⟩
      simp [hfn]
    have : declOf m n = ⟨stabName n, fn.ty, .external, false, [], none, []⟩ := by
      unfold declOf
      rw [hfn]
    exact this ▸ List.mem_map_of_mem (declOf m) hx
  · exact heapFold_kill allocNames m n hns hmem (by simp [hfn])
  · have hfn2 : m.funcs.find? (fun f => f.name = n) = some fn := hfn
    have hfm : fn ∈ m.funcs := List.mem_of_find?_eq_some hfn2
    have hfname : fn.name = n := by
      have := List.find?_some hfn2
      simpa using this
    refine ⟨sigmaOf allocNames m fn, ?_, ?_, ?_, ?_, ?_⟩
    · rw [hfuncs]
      exact List.mem_append_left _ (List.mem_map_of_mem _ hfm)
    · rw [sigmaOf_name, hfname]
    · have := sigmaOf_shape allocNames m fn
      simpa [funcShape] using congrArg (fun p => p.2.1) this
    · have := sigmaOf_shape allocNames m fn
      simpa [funcShape] using congrArg (fun p => p.2.2.1) this
    · have := sigmaOf_shape allocNames m fn
      simpa [funcShape] using congrArg (fun p => p.2.2.2.1) this
  · intro f' hf'
    rw [hfuncs] at hf'
    rcases List.mem_append.mp hf' with hl | hr
    · obtain ⟨f, hfm, rfl⟩ := List.mem_map.mp hl
      exact Or.inl ⟨f, hfm, rfl, sigmaOf_shape allocNames m f⟩
    · obtain ⟨x, hxm, rfl⟩ := List.mem_map.mp hr
      exact Or.inr ⟨x, List.mem_of_mem_filter hxm, rfl⟩

/-- Concrete module exercising C7: a declared `malloc` and a caller. -/
def heapExM : Module :=
  { triple := "x86_64-unknown-linux-gnu", ptrBytes := 8,
    funcs :=
      [ ⟨"malloc", .fn1 i8p (.int 64), .external, false, [], none, []⟩,
        ⟨"caller", .fn0 .void, .external, false, [], none,
          [⟨0, [⟨1, .call, [.c (.intC 64 8), .c (.gv "malloc")], some 5⟩,
                ⟨2, .ret, [], none⟩]⟩]⟩ ],
    gvars := [] }

theorem heap_allocators_rewired_C7_witness :
    (⟨stabName "malloc", .fn1 i8p (.int 64), .external, false, [], none, []⟩ : Func)
        ∈ (randomizeHeap heapExM).funcs
      ∧ usesOf (randomizeHeap heapExM) "malloc" = 0 := by
  have h := heap_allocators_rewired_C7 heapExM (by decide) "malloc" (by decide)
    ⟨"malloc", .fn1 i8p (.int 64), .external, false, [], none, []⟩ (by decide)
  exact ⟨h.1, h.2.1⟩

/-! ## Intrinsic lowering: closed form and claim C8 -/

/-- Simultaneous renaming of all global uses by a name map. -/
def substAllC (σ : String → String) : Const → Const
  | .gv x => .gv (σ x)
  | .cast1 op t a => .cast1 op t (substAllC σ a)
  | .gepSlot st b i => .gepSlot st (substAllC σ b) i
  | .binE op a b => .binE op (substAllC σ a) (substAllC σ b)
  | c => c

/-- Simultaneous renaming in an operand. -/
def substAllOpnd (σ : String → String) : Opnd → Opnd
  | .c k => .c (substAllC σ k)
  | x => x

/-- Simultaneous renaming in an instruction. -/
def substAllInstr (σ : String → String) (i : Instr) : Instr :=
  { i with operands := i.operands.map (substAllOpnd σ) }

/-- Simultaneous renaming in a function body. -/
def substAllF (σ : String → String) (f : Func) : Func :=
  { f with blocks := f.blocks.map (fun b => { b with instrs := b.instrs.map (substAllInstr σ) }) }

/-- Simultaneous renaming in a global initializer. -/
def substAllInit (σ : String → String) : Init → Init
  | .scalar c => .scalar (substAllC σ c)
  | .table cs => .table (cs.map (substAllC σ))
  | .ctorTab es => .ctorTab (es.map (fun e => (e.1, substAllC σ e.2.1, substAllC σ e.2.2)))

/-- Whether the scan lowers the function named `x` of `m`: it is an
intrinsic, not always-inlined, and has a non-empty libcall mapping. -/
def loweredName (gl : String → String) (ai : String → Bool) (m : Module) (x : String) : Bool :=
  match funcNamed m x with
  | some f => f.intrinsic && !ai x && decide (gl x ≠ "")
  | none => false

/-- The total use-renaming performed by the whole scan. -/
def lowSigma (gl : String → String) (ai : String → Bool) (m : Module) (x : String) : String :=
  if loweredName gl ai m x then gl x else x

/-- The use-renaming performed by the scan prefix `p`. -/
def sigmaPref (gl : String → String) (ai : String → Bool) (m : Module)
    (p : List String) (x : String) : String :=
  if loweredName gl ai m x && decide (x ∈ p) then gl x else x

/-- The type of the function named `x` in `m`. -/
def tyOfFn (m : Module) (x : String) : Ty :=
  match funcNamed m x with
  | some f => f.ty
  | none => .void

/-- The libcall declarations created while scanning the names `p`
(starting from the already-created list `acc`): a declaration is created
for a lowered intrinsic whose mapping names neither a module function
nor an already-created declaration. -/
def declsFor (gl : String → String) (ai : String → Bool) (m : Module) :
    List String → List Func → List Func
  | [], acc => acc
  | x :: rest, acc =>
      if loweredName gl ai m x && (funcNamed m (gl x)).isNone
          && ((acc.find? (fun f => f.name = gl x)).isNone) then
        declsFor gl ai m rest
          (acc ++ [⟨gl x, tyOfFn m x, .external, false, [], none, []⟩])
      else declsFor gl ai m rest acc

/-- The warnings emitted while scanning the names `p`. -/
def warnsFor (ai : String → Bool) (gl : String → String) (m : Module)
    (p : List String) : List String :=
  p.filterMap (fun x =>
    match funcNamed m x with
    | some f =>
        if f.intrinsic && !ai x && decide (gl x = "") then
          some ("warning: unable to handle intrinsic " ++ x)
        else none
    | none => none)

theorem substAllF_name (σ : String → String) (f : Func) : (substAllF σ f).name = f.name := rfl

theorem substAllF_decl (σ : String → String) (f : Func) (h : f.blocks = []) :
    substAllF σ f = f := by
  cases f
  simp only [substAllF] at *
  simp_all

theorem substAllF_shape (σ : String → String) (f : Func) :
    funcShape (substAllF σ f) = funcShape f := by
  have hb : ∀ b : BB, bbShape { b with instrs := b.instrs.map (substAllInstr σ) } = bbShape b := by
    intro b
    simp [bbShape, List.map_map, Function.comp, instrShape, substAllInstr]
  simp [funcShape, substAllF, List.map_map, Function.comp, hb]

/-- Substituting one name into an already renamed constant extends the
renaming, provided nothing else maps onto the substituted name. -/
theorem substAllC_step (σ : String → String) (x r : String)
    (h1 : ∀ y, y ≠ x → σ y ≠ x) (h2 : σ x = x) (c : Const) :
    substC x r (substAllC σ c) = substAllC (fun y => if y = x then r else σ y) c := by
  induction c with
  | intC b v => rfl
  | fpC t b => rfl
  | nullC t => rfl
  | gv y =>
      by_cases hy : y = x
      · subst hy
        simp [substAllC, substC, h2]
      · simp [substAllC, substC, h1 y hy, hy]
  | cast1 op t a ih => simp [substAllC, substC, ih]
  | gepSlot st b i ih => simp [substAllC, substC, ih]
  | binE op a b iha ihb => simp [substAllC, substC, iha, ihb]
  | sizeOfC t => rfl

theorem substAllOpnd_step (σ : String → String) (x r : String)
    (h1 : ∀ y, y ≠ x → σ y ≠ x) (h2 : σ x = x) (p : Opnd) :
    substOpnd x r (substAllOpnd σ p) = substAllOpnd (fun y => if y = x then r else σ y) p := by
  cases p with
  | c k => simp [substOpnd, substAllOpnd, substAllC_step σ x r h1 h2 k]
  | reg v => rfl

theorem substAllF_step (σ : String → String) (x r : String)
    (h1 : ∀ y, y ≠ x → σ y ≠ x) (h2 : σ x = x) (f : Func) :
    substFunc x r (substAllF σ f) = substAllF (fun y => if y = x then r else σ y) f := by
  cases f
  simp only [substFunc, substAllF, List.map_map]
  congr 1
  refine List.map_congr_left (fun b _ => ?_)
  simp only [Function.comp]
  congr 1
  rw [List.map_map]
  refine List.map_congr_left (fun i _ => ?_)
  simp only [Function.comp, substInstr, substAllInstr, List.map_map]
  congr 1
  exact List.map_congr_left (fun p _ => substAllOpnd_step σ x r h1 h2 p)

theorem substAllInit_step (σ : String → String) (x r : String)
    (h1 : ∀ y, y ≠ x → σ y ≠ x) (h2 : σ x = x) (g : Init) :
    substInit x r (substAllInit σ g) = substAllInit (fun y => if y = x then r else σ y) g := by
  cases g with
  | scalar c => simp [substInit, substAllInit, substAllC_step σ x r h1 h2 c]
  | table cs =>
      simp only [substInit, substAllInit, List.map_map]
      exact congrArg _ (List.map_congr_left (fun c _ => substAllC_step σ x r h1 h2 c))
  | ctorTab es =>
      simp only [substInit, substAllInit, List.map_map]
      refine congrArg _ (List.map_congr_left (fun e _ => ?_))
      simp [Function.comp, substAllC_step σ x r h1 h2 e.2.1, substAllC_step σ x r h1 h2 e.2.2]

/-- Unless some name maps onto `t`, a fully renamed constant has no
uses of `t`. -/
theorem substAllC_nouse (σ : String → String) (t : String)
    (h : ∀ y, σ y ≠ t) (c : Const) : countGvC t (substAllC σ c) = 0 := by
  induction c with
  | intC b v => rfl
  | fpC t2 b => rfl
  | nullC t2 => rfl
  | gv y => simp [substAllC, countGvC, h y]
  | cast1 op t2 a ih => simpa [substAllC, countGvC] using ih
  | gepSlot st b i ih => simpa [substAllC, countGvC] using ih
  | binE op a b iha ihb => simp [substAllC, countGvC, iha, ihb]
  | sizeOfC t2 => rfl

theorem substAllF_nouse (σ : String → String) (t : String)
    (h : ∀ y, σ y ≠ t) (f : Func) : countGvFunc t (substAllF σ f) = 0 := by
  simp only [countGvFunc, substAllF, List.map_map]
  refine List.sum_eq_zero (fun v hv => ?_)
  obtain ⟨b, _, rfl⟩ := List.mem_map.mp hv
  simp only [Function.comp, List.map_map]
  refine List.sum_eq_zero (fun w hw => ?_)
  obtain ⟨i, _, rfl⟩ := List.mem_map.mp hw
  simp only [Function.comp, countGvInstr, substAllInstr, List.map_map]
  refine List.sum_eq_zero (fun z hz => ?_)
  obtain ⟨p, _, rfl⟩ := List.mem_map.mp hz
  cases p with
  | c k => simpa [substAllOpnd, countGvOpnd] using substAllC_nouse σ t h k
  | reg v => simp [substAllOpnd, countGvOpnd]

theorem substAllInit_nouse (σ : String → String) (t : String)
    (h : ∀ y, σ y ≠ t) (g : Init) : countGvInit t (substAllInit σ g) = 0 := by
  cases g with
  | scalar c => simpa [substAllInit, countGvInit] using substAllC_nouse σ t h c
  | table cs =>
      simp only [substAllInit, countGvInit, List.map_map]
      refine List.sum_eq_zero (fun v hv => ?_)
      obtain ⟨c, _, rfl⟩ := List.mem_map.mp hv
      simpa using substAllC_nouse σ t h c
  | ctorTab es =>
      simp only [substAllInit, countGvInit, List.map_map]
      refine List.sum_eq_zero (fun v hv => ?_)
      obtain ⟨e, _, rfl⟩ := List.mem_map.mp hv
      simp [Function.comp, substAllC_nouse σ t h e.2.1, substAllC_nouse σ t h e.2.2]

theorem substAllC_id (c : Const) : substAllC (fun y => y) c = c := by
  induction c with
  | intC b v => rfl
  | fpC t b => rfl
  | nullC t => rfl
  | gv y => rfl
  | cast1 op t a ih => simp [substAllC, ih]
  | gepSlot st b i ih => simp [substAllC, ih]
  | binE op a b iha ihb => simp [substAllC, iha, ihb]
  | sizeOfC t => rfl

theorem substAllOpnd_id (p : Opnd) : substAllOpnd (fun y => y) p = p := by
  cases p <;> simp [substAllOpnd, substAllC_id]

theorem substAllInstr_id (i : Instr) : substAllInstr (fun y => y) i = i := by
  cases i
  simp only [substAllInstr]
  congr 1
  exact List.map_id'' substAllOpnd_id _

theorem substAllF_id (f : Func) : substAllF (fun y => y) f = f := by
  cases f
  simp only [substAllF]
  congr 1
  refine List.map_id'' (fun b => ?_) _
  cases b
  congr 1
  exact List.map_id'' substAllInstr_id _

theorem substAllInit_id (g : Init) : substAllInit (fun y => y) g = g := by
  cases g with
  | scalar c => simp [substAllInit, substAllC_id]
  | table cs =>
      simp only [substAllInit]
      exact congrArg _ (List.map_id'' substAllC_id _)
  | ctorTab es =>
      simp only [substAllInit]
      exact congrArg _ (List.map_id'' (fun e => by simp [substAllC_id]) _)

/-- The scan state after processing the name prefix `p`. -/
def lowState (gl : String → String) (ai : String → Bool) (m : Module)
    (p : List String) : Module × List String × List String :=
  ({ m with
      funcs := m.funcs.map (substAllF (sigmaPref gl ai m p)) ++ declsFor gl ai m p [],
      gvars := m.gvars.map (fun g => { g with ginit := substAllInit (sigmaPref gl ai m p) g.ginit }) },
   p.filter (loweredName gl ai m),
   warnsFor ai gl m p)

theorem declsFor_append (gl : String → String) (ai : String → Bool) (m : Module)
    (p : List String) (x : String) (acc : List Func) :
    declsFor gl ai m (p ++ [x]) acc =
      (if loweredName gl ai m x && (funcNamed m (gl x)).isNone
          && (((declsFor gl ai m p acc).find? (fun f => f.name = gl x)).isNone) then
        declsFor gl ai m p acc ++ [⟨gl x, tyOfFn m x, .external, false, [], none, []⟩]
      else declsFor gl ai m p acc) := by
  induction p generalizing acc with
  | nil => simp [declsFor]
  | cons a rest ih =>
      simp only [List.cons_append, declsFor]
      by_cases h : (loweredName gl ai m a && (funcNamed m (gl a)).isNone
          && ((acc.find? (fun f => f.name = gl a)).isNone)) = true
      · simp only [if_pos h]
        exact ih _
      · simp only [if_neg h]
        exact ih _

theorem declsFor_blocks (gl : String → String) (ai : String → Bool) (m : Module)
    (p : List String) (acc : List Func) (hacc : ∀ g ∈ acc, g.blocks = []) :
    ∀ g ∈ declsFor gl ai m p acc, g.blocks = [] := by
  induction p generalizing acc with
  | nil => exact hacc
  | cons a rest ih =>
      simp only [declsFor]
      by_cases h : (loweredName gl ai m a && (funcNamed m (gl a)).isNone
          && ((acc.find? (fun f => f.name = gl a)).isNone)) = true
      · rw [if_pos h]
        refine ih _ (fun g hg => ?_)
        rcases List.mem_append.mp hg with h1 | h2
        · exact hacc g h1
        · simp at h2
          rw [h2]
      · rw [if_neg h]
        exact ih acc hacc

theorem sigmaPref_notmem (gl : String → String) (ai : String → Bool) (m : Module)
    (p : List String) (x : String) (hx : x ∈ p → False) :
    sigmaPref gl ai m p x = x := by
  unfold sigmaPref
  rw [if_neg]
  intro h
  exact hx (of_decide_eq_true (Bool.and_elim_right h))

theorem sigmaPref_extend_neg (gl : String → String) (ai : String → Bool) (m : Module)
    (p : List String) (x : String) (hx : loweredName gl ai m x = false) :
    sigmaPref gl ai m (p ++ [x]) = sigmaPref gl ai m p := by
  funext y
  unfold sigmaPref
  by_cases hy : y = x
  · subst hy
    simp [hx]
  · simp [List.mem_append, hy]

theorem sigmaPref_extend_pos (gl : String → String) (ai : String → Bool) (m : Module)
    (p : List String) (x : String) (hx : loweredName gl ai m x = true) :
    sigmaPref gl ai m (p ++ [x]) = fun y => if y = x then gl x else sigmaPref gl ai m p y := by
  funext y
  unfold sigmaPref
  by_cases hy : y = x
  · subst hy
    simp [hx]
  · simp [List.mem_append, hy]

theorem warnsFor_append (gl : String → String) (ai : String → Bool) (m : Module)
    (p q : List String) :
    warnsFor ai gl m (p ++ q) = warnsFor ai gl m p ++ warnsFor ai gl m q := by
  simp [warnsFor, List.filterMap_append]

theorem lowState_lookup (gl : String → String) (ai : String → Bool) (m : Module)
    (p : List String) (y : String) :
    funcNamed (lowState gl ai m p).1 y
      = ((funcNamed m y).map (substAllF (sigmaPref gl ai m p))).or
          ((declsFor gl ai m p []).find? (fun f => f.name = y)) := by
  show ((m.funcs.map (substAllF (sigmaPref gl ai m p)) ++ declsFor gl ai m p []).find?
      (fun f => f.name = y)) = _
  rw [List.find?_append, find?_map_name _ _ (fun f => substAllF_name _ f)]
  rfl

theorem lowState_nil (gl : String → String) (ai : String → Bool) (m : Module) :
    lowState gl ai m [] = (m, [], []) := by
  unfold lowState
  have hσ : sigmaPref gl ai m [] = fun y => y := by
    funext y
    simp [sigmaPref]
  rw [hσ]
  refine Prod.ext ?_ rfl
  show ({ m with
      funcs := m.funcs.map (substAllF fun y => y) ++ [],
      gvars := m.gvars.map (fun g => { g with ginit := substAllInit (fun y => y) g.ginit }) } : Module) = m
  have h1 : m.funcs.map (substAllF fun y => y) = m.funcs := List.map_id'' substAllF_id _
  have h2 : m.gvars.map (fun g => { g with ginit := substAllInit (fun y => y) g.ginit }) = m.gvars :=
    List.map_id'' (fun g => by simp [substAllInit_id]) _
  rw [h1, h2]
  simp

/-- Substituting a lowered name into a scan-state module advances the
renaming by one name; created declarations are untouched. -/
theorem substModule_state (gl : String → String) (ai : String → Bool) (m : Module)
    (p : List String) (x : String)
    (hstep1 : ∀ y, y ≠ x → sigmaPref gl ai m p y ≠ x)
    (hs : sigmaPref gl ai m p x = x)
    (hext : sigmaPref gl ai m (p ++ [x])
        = fun y => if y = x then gl x else sigmaPref gl ai m p y)
    (decls2 : List Func) (hdecls2 : ∀ g ∈ decls2, g.blocks = []) :
    substModuleUses x (gl x)
      { m with
        funcs := m.funcs.map (substAllF (sigmaPref gl ai m p)) ++ decls2,
        gvars := m.gvars.map (fun g =>
          { g with ginit := substAllInit (sigmaPref gl ai m p) g.ginit }) }
    = { m with
        funcs := m.funcs.map (substAllF (sigmaPref gl ai m (p ++ [x]))) ++ decls2,
        gvars := m.gvars.map (fun g =>
          { g with ginit := substAllInit (sigmaPref gl ai m (p ++ [x])) g.ginit }) } := by
  unfold substModuleUses
  have hdmap : decls2.map (substFunc x (gl x)) = decls2 := by
    conv_rhs => rw [← List.map_id decls2]
    exact List.map_congr_left (fun g hg => by rw [substFunc_decl _ _ g (hdecls2 g hg)]; rfl)
  congr 1
  · simp only [List.map_append, List.map_map]
    rw [hdmap]
    congr 1
    refine List.map_congr_left (fun f _ => ?_)
    simp only [Function.comp]
    rw [substAllF_step (sigmaPref gl ai m p) x (gl x) hstep1 hs f, hext]
  · simp only [List.map_map]
    refine List.map_congr_left (fun g _ => ?_)
    simp only [Function.comp]
    congr 1
    rw [substAllInit_step (sigmaPref gl ai m p) x (gl x) hstep1 hs g.ginit, hext]

/-- One scan step advances the state by one processed name. -/
theorem lowerStep_adv (gl : String → String) (ai : String → Bool) (m : Module)
    (hsafe : ∀ g ∈ m.funcs, g.intrinsic = true → ∀ x, gl x ≠ g.name)
    (p : List String) (x : String)
    (hxn : x ∈ m.funcs.map (·.name)) (hxp : x ∉ p) :
    lowerStep gl ai (lowState gl ai m p) x = lowState gl ai m (p ++ [x]) := by
  have hfx : (funcNamed m x).isSome := by
    obtain ⟨f1, hf1m, hf1n⟩ := List.mem_map.mp hxn
    exact List.find?_isSome.mpr ⟨f1, hf1m, by simp [hf1n]⟩
  obtain ⟨f0, hf0⟩ := Option.isSome_iff_exists.mp hfx
  have hf0mem : f0 ∈ m.funcs := List.mem_of_find?_eq_some hf0
  have hf0name : f0.name = x := by simpa using List.find?_some hf0
  set σp := sigmaPref gl ai m p with hσp
  have hspx : σp x = x := sigmaPref_notmem gl ai m p x hxp
  have hlk : funcNamed (lowState gl ai m p).1 x = some (substAllF σp f0) := by
    rw [lowState_lookup, hf0]
    rfl
  have hname2 : (substAllF σp f0).name = f0.name := substAllF_name _ _
  have hint2 : (substAllF σp f0).intrinsic = f0.intrinsic := rfl
  have hty2 : (substAllF σp f0).ty = f0.ty := rfl
  unfold lowerStep
  rw [hlk]
  simp only [hname2, hint2, hf0name]
  by_cases hint : (f0.intrinsic && !ai x) = true
  · rw [if_pos hint]
    have hglne : ∀ y, gl y ≠ x := by
      intro y
      have h := hsafe f0 hf0mem (Bool.and_elim_left hint) y
      rw [hf0name] at h
      exact h
    have hstep1 : ∀ y, y ≠ x → σp y ≠ x := by
      intro y hy
      rw [hσp]
      unfold sigmaPref
      by_cases hc : (loweredName gl ai m y && decide (y ∈ p)) = true
      · rw [if_pos hc]
        exact hglne y
      · rw [if_neg hc]
        exact hy
    by_cases hr : gl x = ""
    · rw [if_neg (by simpa using hr)]
      have hlow : loweredName gl ai m x = false := by
        unfold loweredName
        rw [hf0]
        simp [hr]
      unfold lowState
      refine Prod.ext ?_ (Prod.ext ?_ ?_)
      · rw [sigmaPref_extend_neg gl ai m p x hlow]
        have hdecls : declsFor gl ai m (p ++ [x]) [] = declsFor gl ai m p [] := by
          rw [declsFor_append]
          simp [hlow]
        rw [hdecls]
      · show p.filter (loweredName gl ai m) = (p ++ [x]).filter (loweredName gl ai m)
        simp [List.filter_append, hlow]
      · show warnsFor ai gl m p ++ _ = warnsFor ai gl m (p ++ [x])
        rw [warnsFor_append]
        congr 1
        unfold warnsFor
        simp only [List.filterMap]
        rw [hf0]
        have hde : decide (gl x = "") = true := by simpa using hr
        simp [hint, hde]
    · rw [if_pos (by simpa using hr)]
      have hlow : loweredName gl ai m x = true := by
        unfold loweredName
        rw [hf0]
        simp [Bool.and_elim_left hint, Bool.and_elim_right hint, hr]
      have hext : sigmaPref gl ai m (p ++ [x]) = fun y => if y = x then gl x else σp y :=
        sigmaPref_extend_pos gl ai m p x hlow
      have hdels : (p ++ [x]).filter (loweredName gl ai m)
          = p.filter (loweredName gl ai m) ++ [x] := by
        simp [List.filter_append, hlow]
      have hwarns : warnsFor ai gl m (p ++ [x]) = warnsFor ai gl m p := by
        rw [warnsFor_append]
        have h0 : warnsFor ai gl m [x] = [] := by
          unfold warnsFor
          simp only [List.filterMap]
          rw [hf0]
          have : decide (gl x = "") = false := by simpa using hr
          simp [this]
        rw [h0, List.append_nil]
      have hblocks0 : ∀ g ∈ declsFor gl ai m p [], g.blocks = [] :=
        declsFor_blocks gl ai m p [] (by intro g hg; cases hg)
      cases hlr : funcNamed m (gl x) with
      | some g0 =>
          have hlkr : funcNamed (lowState gl ai m p).1 (gl x) = some (substAllF σp g0) := by
            rw [lowState_lookup, hlr]
            rfl
          rw [hlkr]
          have hdecls : declsFor gl ai m (p ++ [x]) [] = declsFor gl ai m p [] := by
            rw [declsFor_append]
            have h1 : (funcNamed m (gl x)).isNone = false := by simp [hlr]
            simp [h1]
          refine Prod.ext ?_ (Prod.ext ?_ ?_)
          · show substModuleUses x (gl x) (lowState gl ai m p).1 = (lowState gl ai m (p ++ [x])).1
            unfold lowState
            rw [substModule_state gl ai m p x hstep1 hspx hext (declsFor gl ai m p []) hblocks0]
            rw [hdecls]
          · show p.filter (loweredName gl ai m) ++ [x] = (p ++ [x]).filter (loweredName gl ai m)
            rw [hdels]
          · show warnsFor ai gl m p = warnsFor ai gl m (p ++ [x])
            rw [hwarns]
      | none =>
          have hlkr : funcNamed (lowState gl ai m p).1 (gl x)
              = (declsFor gl ai m p []).find? (fun f => f.name = gl x) := by
            rw [lowState_lookup, hlr]
            rfl
          rw [hlkr]
          cases hfind : (declsFor gl ai m p []).find? (fun f => f.name = gl x) with
          | some d =>
              have hdecls : declsFor gl ai m (p ++ [x]) [] = declsFor gl ai m p [] := by
                rw [declsFor_append]
                have h1 : ((declsFor gl ai m p []).find? (fun f => f.name = gl x)).isNone
                    = false := by
                  simp [hfind]
                simp [h1]
              refine Prod.ext ?_ (Prod.ext ?_ ?_)
              · show substModuleUses x (gl x) (lowState gl ai m p).1
                    = (lowState gl ai m (p ++ [x])).1
                unfold lowState
                rw [substModule_state gl ai m p x hstep1 hspx hext (declsFor gl ai m p []) hblocks0]
                rw [hdecls]
              · show p.filter (loweredName gl ai m) ++ [x] = (p ++ [x]).filter (loweredName gl ai m)
                rw [hdels]
              · show warnsFor ai gl m p = warnsFor ai gl m (p ++ [x])
                rw [hwarns]
          | none =>
              have hdecls : declsFor gl ai m (p ++ [x]) []
                  = declsFor gl ai m p []
                    ++ [⟨gl x, tyOfFn m x, .external, false, [], none, []⟩] := by
                rw [declsFor_append]
                have h1 : (funcNamed m (gl x)).isNone = true := by simp [hlr]
                have h2 : ((declsFor gl ai m p []).find? (fun f => f.name = gl x)).isNone
                    = true := by
                  simp [hfind]
                simp [hlow, h1, h2]
              have htyx : tyOfFn m x = f0.ty := by
                unfold tyOfFn
                rw [hf0]
              have hblocks1 : ∀ g ∈ declsFor gl ai m p []
                  ++ [(⟨gl x, f0.ty, .external, false, [], none, []⟩ : Func)], g.blocks = [] := by
                intro g hg
                rcases List.mem_append.mp hg with h1 | h2
                · exact hblocks0 g h1
                · simp at h2
                  rw [h2]
              refine Prod.ext ?_ (Prod.ext ?_ ?_)
              · show substModuleUses x (gl x)
                    { (lowState gl ai m p).1 with
                      funcs := (lowState gl ai m p).1.funcs
                        ++ [⟨gl x, (substAllF σp f0).ty, .external, false, [], none, []⟩] }
                    = (lowState gl ai m (p ++ [x])).1
                rw [hty2]
                have hre : ({ (lowState gl ai m p).1 with
                      funcs := (lowState gl ai m p).1.funcs
                        ++ [(⟨gl x, f0.ty, .external, false, [], none, []⟩ : Func)] } : Module)
                    = { m with
                        funcs := m.funcs.map (substAllF σp)
                          ++ (declsFor gl ai m p []
                              ++ [(⟨gl x, f0.ty, .external, false, [], none, []⟩ : Func)]),
                        gvars := m.gvars.map (fun g =>
                          { g with ginit := substAllInit σp g.ginit }) } := by
                  unfold lowState
                  simp [List.append_assoc]
                rw [hre]
                rw [substModule_state gl ai m p x hstep1 hspx hext _ hblocks1]
                show _ = (lowState gl ai m (p ++ [x])).1
                unfold lowState
                rw [hdecls, htyx]
              · show p.filter (loweredName gl ai m) ++ [x] = (p ++ [x]).filter (loweredName gl ai m)
                rw [hdels]
              · show warnsFor ai gl m p = warnsFor ai gl m (p ++ [x])
                rw [hwarns]
  · rw [if_neg hint]
    have hlow : loweredName gl ai m x = false := by
      unfold loweredName
      rw [hf0]
      simp only [Bool.and_eq_true] at hint
      by_cases h1 : f0.intrinsic = true
      · have h2 : (!ai x) = false := by
          by_cases h3 : (!ai x) = true
          · exact absurd (And.intro h1 h3) hint
          · simpa using h3
        simp [h2]
      · have : f0.intrinsic = false := by simpa using h1
        simp [this]
    unfold lowState
    refine Prod.ext ?_ (Prod.ext ?_ ?_)
    · rw [sigmaPref_extend_neg gl ai m p x hlow]
      have hdecls : declsFor gl ai m (p ++ [x]) [] = declsFor gl ai m p [] := by
        rw [declsFor_append]
        simp [hlow]
      rw [hdecls]
    · show p.filter (loweredName gl ai m) = (p ++ [x]).filter (loweredName gl ai m)
      simp [List.filter_append, hlow]
    · show warnsFor ai gl m p = warnsFor ai gl m (p ++ [x])
      rw [warnsFor_append]
      have h0 : warnsFor ai gl m [x] = [] := by
        unfold warnsFor
        simp only [List.filterMap]
        rw [hf0]
        have hb : (f0.intrinsic && !ai x && decide (gl x = "")) = false := by
          have : (f0.intrinsic && !ai x) = false := by simpa using hint
          simp [this]
        simp [hb]
      rw [h0, List.append_nil]


theorem lowerFold_inv (gl : String → String) (ai : String → Bool) (m : Module)
    (hsafe : ∀ g ∈ m.funcs, g.intrinsic = true → ∀ x, gl x ≠ g.name)
    (todo p : List String)
    (hnames : m.funcs.map (·.name) = p ++ todo)
    (hnodup : (p ++ todo).Nodup) :
    todo.foldl (lowerStep gl ai) (lowState gl ai m p) = lowState gl ai m (p ++ todo) := by
  induction todo generalizing p with
  | nil => simp
  | cons x rest ih =>
      have hxn : x ∈ m.funcs.map (·.name) := by
        rw [hnames]
        exact List.mem_append_right _ (List.mem_cons_self x rest)
      have hxp : x ∉ p := by
        intro hmem
        have hd := (List.nodup_append.mp hnodup).2.2
        exact hd hmem (List.mem_cons_self x rest)
      rw [List.foldl_cons, lowerStep_adv gl ai m hsafe p x hxn hxp]
      have hres := ih (p ++ [x]) (by rw [hnames]; simp) (by simpa using hnodup)
      simpa using hres

theorem sigmaPref_full (gl : String → String) (ai : String → Bool) (m : Module) :
    sigmaPref gl ai m (m.funcs.map (·.name)) = lowSigma gl ai m := by
  funext y
  unfold sigmaPref lowSigma
  by_cases hl : loweredName gl ai m y = true
  · have hy : y ∈ m.funcs.map (·.name) := by
      unfold loweredName at hl
      cases hf : funcNamed m y with
      | none => rw [hf] at hl; simp at hl
      | some f =>
          have hfm : f ∈ m.funcs := List.mem_of_find?_eq_some hf
          have hfn : f.name = y := by simpa using List.find?_some hf
          exact hfn ▸ List.mem_map_of_mem (·.name) hfm
    simp [hl, hy]
  · have hl2 : loweredName gl ai m y = false := by simpa using hl
    simp [hl2]

/-- Closed form of the intrinsic-lowering pass. -/
theorem lowerPass_closed (gl : String → String) (ai : String → Bool) (m : Module)
    (hsafe : ∀ g ∈ m.funcs, g.intrinsic = true → ∀ x, gl x ≠ g.name)
    (hnodup : (m.funcs.map (·.name)).Nodup) :
    lowerIntrinsicsPass gl ai m
      = ({ m with
            funcs := (m.funcs.map (substAllF (lowSigma gl ai m))
                ++ declsFor gl ai m (m.funcs.map (·.name)) []).filter
                (fun f => !(((m.funcs.map (·.name)).filter (loweredName gl ai m)).contains f.name)),
            gvars := m.gvars.map (fun g =>
              { g with ginit := substAllInit (lowSigma gl ai m) g.ginit }) },
         warnsFor ai gl m (m.funcs.map (·.name))) := by
  unfold lowerIntrinsicsPass
  have h0 : (m, ([] : List String), ([] : List String)) = lowState gl ai m [] :=
    (lowState_nil gl ai m).symm
  rw [h0]
  rw [lowerFold_inv gl ai m hsafe (m.funcs.map (·.name)) [] (by simp) (by simpa using hnodup)]
  rw [show ([] : List String) ++ m.funcs.map (·.name) = m.funcs.map (·.name) from rfl]
  unfold lowState
  rw [sigmaPref_full]

theorem declsFor_mono (gl : String → String) (ai : String → Bool) (m : Module)
    (p : List String) (acc : List Func) : ∀ g ∈ acc, g ∈ declsFor gl ai m p acc := by
  induction p generalizing acc with
  | nil => exact fun g h => h
  | cons a rest ih =>
      intro g hg
      simp only [declsFor]
      by_cases h : (loweredName gl ai m a && (funcNamed m (gl a)).isNone
          && ((acc.find? (fun f => f.name = gl a)).isNone)) = true
      · rw [if_pos h]
        exact ih _ g (List.mem_append_left _ hg)
      · rw [if_neg h]
        exact ih acc g hg

theorem declsFor_shape (gl : String → String) (ai : String → Bool) (m : Module)
    (p : List String) (acc : List Func)
    (hacc : ∀ g ∈ acc, g.linkage = .external ∧ g.intrinsic = false ∧ g.blocks = []) :
    ∀ g ∈ declsFor gl ai m p acc,
      g.linkage = .external ∧ g.intrinsic = false ∧ g.blocks = [] := by
  induction p generalizing acc with
  | nil => exact hacc
  | cons a rest ih =>
      simp only [declsFor]
      by_cases h : (loweredName gl ai m a && (funcNamed m (gl a)).isNone
          && ((acc.find? (fun f => f.name = gl a)).isNone)) = true
      · rw [if_pos h]
        refine ih _ (fun g hg => ?_)
        rcases List.mem_append.mp hg with h1 | h2
        · exact hacc g h1
        · simp at h2
          rw [h2]
          exact ⟨rfl, rfl, rfl⟩
      · rw [if_neg h]
        exact ih acc hacc

theorem declsFor_covers (gl : String → String) (ai : String → Bool) (m : Module)
    (p : List String) (x : String)
    (hx : x ∈ p) (hlow : loweredName gl ai m x = true)
    (habs : funcNamed m (gl x) = none) :
    ∀ acc, ∃ g ∈ declsFor gl ai m p acc, g.name = gl x := by
  induction p with
  | nil => cases hx
  | cons a rest ih =>
      intro acc
      simp only [declsFor]
      rcases List.mem_cons.mp hx with heq | hmem
      · subst heq
        by_cases hf : ((acc.find? (fun f => f.name = gl x)).isNone) = true
        · have hc : (loweredName gl ai m x && (funcNamed m (gl x)).isNone
              && ((acc.find? (fun f => f.name = gl x)).isNone)) = true := by
            simp [hlow, habs, hf]
          rw [if_pos hc]
          refine ⟨⟨gl x, tyOfFn m x, .external, false, [], none, []⟩, ?_, rfl⟩
          exact declsFor_mono gl ai m rest _ _ (List.mem_append_right _ (by simp))
        · obtain ⟨d, hd⟩ : ∃ d, acc.find? (fun f => f.name = gl x) = some d := by
            cases hfd : acc.find? (fun f => f.name = gl x) with
            | none => rw [hfd] at hf; simp at hf
            | some d => exact ⟨d, rfl⟩
          have hdn : d.name = gl x := by simpa using List.find?_some hd
          have hdm : d ∈ acc := List.mem_of_find?_eq_some hd
          by_cases hc : (loweredName gl ai m x && (funcNamed m (gl x)).isNone
              && ((acc.find? (fun f => f.name = gl x)).isNone)) = true
          · rw [if_pos hc]
            exact ⟨d, declsFor_mono gl ai m rest _ _ (List.mem_append_left _ hdm), hdn⟩
          · rw [if_neg hc]
            exact ⟨d, declsFor_mono gl ai m rest _ _ hdm, hdn⟩
      · by_cases hc : (loweredName gl ai m a && (funcNamed m (gl a)).isNone
            && ((acc.find? (fun f => f.name = gl a)).isNone)) = true
        · rw [if_pos hc]
          exact ih hmem _
        · rw [if_neg hc]
          exact ih hmem acc

theorem find?_nodup_self (l : List Func) (f : Func)
    (hnodup : (l.map (·.name)).Nodup) (hf : f ∈ l) :
    l.find? (fun g => g.name = f.name) = some f := by
  induction l with
  | nil => cases hf
  | cons a rest ih =>
      rcases List.mem_cons.mp hf with heq | hmem
      · subst heq
        simp [List.find?]
      · have hanodup := (List.nodup_cons.mp hnodup).1
        have hna : a.name ≠ f.name := by
          intro he
          refine hanodup ?_
          show a.name ∈ List.map (fun x => x.name) rest
          rw [he]
          exact List.mem_map_of_mem (·.name) hmem
        have : (fun g => decide (g.name = f.name)) a = false := by simp [hna]
        rw [List.find?_cons_of_neg _ (by simp [hna])]
        exact ih (List.nodup_cons.mp hnodup).2 hmem

/-- Claim C8 (intrinsic lowering): for every module function marked
intrinsic and not always-inlined, if the libcall table maps its name to
a non-empty name then after the pass the intrinsic is deleted, it has no
remaining uses, its former uses have been redirected by the pure
renaming `lowSigma` (which sends the intrinsic's name to the mapped
name), and the module holds a function with the mapped name — the
pre-existing one if present (unchanged in shape), otherwise a freshly
created external declaration; if the mapping is empty, a warning naming
the intrinsic is emitted and the intrinsic remains in the module
unchanged.  The table is process-wide state outside this repository's
sources, so the pass is verified for an arbitrary table whose libcall
names do not collide with intrinsic names. -/
theorem lower_intrinsics_C8 (gl : String → String) (ai : String → Bool) (m : Module)
    (hsafe : ∀ g ∈ m.funcs, g.intrinsic = true → ∀ x, gl x ≠ g.name)
    (hnodup : (m.funcs.map (·.name)).Nodup) :
    ∀ f ∈ m.funcs, f.intrinsic = true → ai f.name = false → f.blocks = [] →
      ((gl f.name ≠ "" →
          (∀ g ∈ (lowerIntrinsicsPass gl ai m).1.funcs, g.name ≠ f.name)
          ∧ usesOf (lowerIntrinsicsPass gl ai m).1 f.name = 0
          ∧ lowSigma gl ai m f.name = gl f.name
          ∧ (∀ f' ∈ (lowerIntrinsicsPass gl ai m).1.funcs,
              (∃ f0 ∈ m.funcs, f' = substAllF (lowSigma gl ai m) f0) ∨ f'.blocks = [])
          ∧ (∃ g ∈ (lowerIntrinsicsPass gl ai m).1.funcs, g.name = gl f.name
              ∧ (funcNamed m (gl f.name) = none →
                  g.linkage = .external ∧ g.intrinsic = false ∧ g.blocks = [])
              ∧ (∀ g0, funcNamed m (gl f.name) = some g0 → funcShape g = funcShape g0)))
      ∧ (gl f.name = "" →
          f ∈ (lowerIntrinsicsPass gl ai m).1.funcs
          ∧ ("warning: unable to handle intrinsic " ++ f.name)
              ∈ (lowerIntrinsicsPass gl ai m).2)) := by
  intro f hf hfi hfa hfb
  have hfind : funcNamed m f.name = some f := find?_nodup_self m.funcs f hnodup hf
  have hclosed := lowerPass_closed gl ai m hsafe hnodup
  set names := m.funcs.map (·.name) with hnamesd
  set dels := names.filter (loweredName gl ai m) with hdelsd
  set σ := lowSigma gl ai m with hσd
  set decls := declsFor gl ai m names [] with hdeclsd
  have hfn : f.name ∈ names := List.mem_map_of_mem (·.name) hf
  have hfuncs : (lowerIntrinsicsPass gl ai m).1.funcs
      = (m.funcs.map (substAllF σ) ++ decls).filter (fun g => !(dels.contains g.name)) := by
    rw [hclosed]
  have hgvars : (lowerIntrinsicsPass gl ai m).1.gvars
      = m.gvars.map (fun g => { g with ginit := substAllInit σ g.ginit }) := by
    rw [hclosed]
  have hwarn : (lowerIntrinsicsPass gl ai m).2 = warnsFor ai gl m names := by
    rw [hclosed]
  constructor
  · intro hgl
    have hlowf : loweredName gl ai m f.name = true := by
      unfold loweredName
      rw [hfind]
      simp [hfi, hfa, hgl]
    have hfdels : f.name ∈ dels := by
      rw [hdelsd]
      exact List.mem_filter.mpr ⟨hfn, hlowf⟩
    have hσnm : ∀ y, σ y ≠ f.name := by
      intro y
      rw [hσd]
      unfold lowSigma
      by_cases hly : loweredName gl ai m y = true
      · rw [if_pos hly]
        exact hsafe f hf hfi y
      · rw [if_neg hly]
        intro he
        rw [he] at hly
        exact hly hlowf
    refine ⟨?_, ?_, ?_, ?_, ?_⟩
    · intro g hg he
      rw [hfuncs] at hg
      have := (List.mem_filter.mp hg).2
      rw [he] at this
      have h9 : ¬ (dels.contains f.name = true) := by simpa using this
      exact h9 (List.elem_eq_true_of_mem hfdels)
    · show usesOf (lowerIntrinsicsPass gl ai m).1 f.name = 0
      unfold usesOf
      rw [hfuncs, hgvars]
      have h1 : ((((m.funcs.map (substAllF σ) ++ decls).filter
            (fun g => !(dels.contains g.name)))).map (countGvFunc f.name)).sum = 0 := by
        refine List.sum_eq_zero (fun v hv => ?_)
        obtain ⟨g, hgmem, rfl⟩ := List.mem_map.mp hv
        have hg2 := List.mem_of_mem_filter hgmem
        rcases List.mem_append.mp hg2 with hl | hr
        · obtain ⟨f0, _, rfl⟩ := List.mem_map.mp hl
          exact substAllF_nouse σ f.name hσnm f0
        · have := declsFor_blocks gl ai m names [] (by intro g hg; cases hg) g hr
          exact countGvFunc_decl f.name g this
      have h2 : ((m.gvars.map (fun g => { g with ginit := substAllInit σ g.ginit })).map
            (fun g => countGvInit f.name g.ginit)).sum = 0 := by
        refine List.sum_eq_zero (fun v hv => ?_)
        obtain ⟨g, hgm, rfl⟩ := List.mem_map.mp hv
        obtain ⟨g0, _, rfl⟩ := List.mem_map.mp hgm
        exact substAllInit_nouse σ f.name hσnm g0.ginit
      rw [h1, h2]
    · rw [hσd]
      unfold lowSigma
      rw [if_pos hlowf]
    · intro f' hf'
      rw [hfuncs] at hf'
      have hf2 := List.mem_of_mem_filter hf'
      rcases List.mem_append.mp hf2 with hl | hr
      · obtain ⟨f0, hf0m, rfl⟩ := List.mem_map.mp hl
        exact Or.inl ⟨f0, hf0m, rfl⟩
      · exact Or.inr (declsFor_blocks gl ai m names [] (by intro g hg; cases hg) f' hr)
    · cases hlr : funcNamed m (gl f.name) with
      | some g0 =>
          have hg0m : g0 ∈ m.funcs := List.mem_of_find?_eq_some hlr
          have hg0n : g0.name = gl f.name := by simpa using List.find?_some hlr
          have hg0i : g0.intrinsic = false := by
            by_cases hgi : g0.intrinsic = true
            · exact absurd hg0n.symm (hsafe g0 hg0m hgi f.name)
            · simpa using hgi
          have hlowr : loweredName gl ai m (gl f.name) = false := by
            unfold loweredName
            rw [hlr]
            simp [hg0i]
          refine ⟨substAllF σ g0, ?_, ?_, ?_, ?_⟩
          · rw [hfuncs]
            refine List.mem_filter.mpr ⟨List.mem_append_left _ (List.mem_map_of_mem _ hg0m), ?_⟩
            have : gl f.name ∉ dels := by
              rw [hdelsd]
              intro hmem
              have := (List.mem_filter.mp hmem).2
              rw [hlowr] at this
              cases this
            have h2 : (substAllF σ g0).name = gl f.name := by
              rw [substAllF_name, hg0n]
            simp [h2]
            intro hmem
            exact absurd hmem this
          · rw [substAllF_name, hg0n]
          · intro hnone
            exact Option.noConfusion hnone
          · intro g1 hg1
            obtain rfl : g0 = g1 := Option.some.inj hg1
            exact substAllF_shape σ g0
      | none =>
          obtain ⟨d, hdm, hdn⟩ := declsFor_covers gl ai m names f.name hfn hlowf hlr []
          have hdshape := declsFor_shape gl ai m names []
            (by intro g hg; cases hg) d hdm
          have hlowr : loweredName gl ai m (gl f.name) = false := by
            unfold loweredName
            rw [hlr]
          refine ⟨d, ?_, hdn, fun _ => hdshape, ?_⟩
          · rw [hfuncs]
            refine List.mem_filter.mpr ⟨List.mem_append_right _ hdm, ?_⟩
            have : gl f.name ∉ dels := by
              rw [hdelsd]
              intro hmem
              have := (List.mem_filter.mp hmem).2
              rw [hlowr] at this
              cases this
            simp [hdn]
            intro hmem
            exact absurd hmem this
          · intro g1 hg1
            exact Option.noConfusion hg1
  · intro hgl
    have hlowf : loweredName gl ai m f.name = false := by
      unfold loweredName
      rw [hfind]
      simp [hgl]
    constructor
    · rw [hfuncs]
      refine List.mem_filter.mpr ⟨?_, ?_⟩
      · refine List.mem_append_left _ ?_
        have : substAllF σ f = f := substAllF_decl σ f hfb
        rw [← this]
        exact List.mem_map_of_mem _ hf
      · have : f.name ∉ dels := by
          rw [hdelsd]
          intro hmem
          have := (List.mem_filter.mp hmem).2
          rw [hlowf] at this
          cases this
        simp
        intro hmem
        exact absurd hmem this
    · rw [hwarn]
      unfold warnsFor
      refine List.mem_filterMap.mpr ⟨f.name, hfn, ?_⟩
      rw [hfind]
      have hde : decide (gl f.name = "") = true := by simpa using hgl
      simp [hfi, hfa, hde]

/-- Concrete module exercising C8: one mapped intrinsic with a use, one
unmapped intrinsic. -/
def lowExM : Module :=
  { triple := "", ptrBytes := 8,
    funcs :=
      [ ⟨"llvm.memcpy.p0", .fn2 .void i8p i8p, .external, true, [], none, []⟩,
        ⟨"llvm.frob", .fn0 .void, .external, true, [], none, []⟩,
        ⟨"f", .fn0 .void, .external, false, [], none,
          [⟨0, [⟨1, .call, [.reg 0, .reg 1, .c (.gv "llvm.memcpy.p0")], none⟩,
                ⟨2, .ret, [], none⟩]⟩]⟩ ],
    gvars := [] }

/-- The concrete libcall table used by the witness. -/
def lowExGl : String → String := fun n => if n = "llvm.memcpy.p0" then "memcpy" else ""

theorem lower_intrinsics_C8_witness :
    usesOf (lowerIntrinsicsPass lowExGl (fun _ => false) lowExM).1 "llvm.memcpy.p0" = 0
      ∧ ("warning: unable to handle intrinsic " ++ "llvm.frob")
          ∈ (lowerIntrinsicsPass lowExGl (fun _ => false) lowExM).2 := by
  have hsafe : ∀ g ∈ lowExM.funcs, g.intrinsic = true → ∀ x, lowExGl x ≠ g.name := by
    intro g hg hgi x
    unfold lowExGl
    fin_cases hg <;> simp_all <;> by_cases h : x = "llvm.memcpy.p0" <;> simp [h]
  have h1 := lower_intrinsics_C8 lowExGl (fun _ => false) lowExM hsafe (by decide)
    ⟨"llvm.memcpy.p0", .fn2 .void i8p i8p, .external, true, [], none, []⟩
    (by decide) rfl rfl rfl
  have h2 := lower_intrinsics_C8 lowExGl (fun _ => false) lowExM hsafe (by decide)
    ⟨"llvm.frob", .fn0 .void, .external, true, [], none, []⟩
    (by decide) rfl rfl rfl
  refine ⟨(h1.1 (by decide)).2.1, (h2.2 (by decide)).2⟩

/-! ## Module-evolution lemmas for float extraction, and claim C4 -/

theorem find?_updateFuncs (l : List Func) (n : String) (g : Func → Func)
    (hg : ∀ f, (g f).name = f.name) (x : String) :
    (updateFuncs l n g).find? (fun f => f.name = x)
      = (l.find? (fun f => f.name = x)).map (fun f => if f.name = n then g f else f) := by
  unfold updateFuncs
  rw [List.find?_map]
  have hp : ((fun f => decide (f.name = x)) ∘ (fun f => if f.name = n then g f else f))
      = (fun f : Func => decide (f.name = x)) := by
    funext f
    by_cases h : f.name = n <;> simp [h, hg]
  rw [hp]

theorem find?_updateFuncs_isSome (l : List Func) (n : String) (g : Func → Func) (x : String)
    (hg : ∀ f, (g f).name = f.name) :
    ((updateFuncs l n g).find? (fun f => f.name = x)).isSome
      = (l.find? (fun f => f.name = x)).isSome := by
  rw [find?_updateFuncs l n g hg x]
  cases l.find? (fun f => f.name = x) <;> rfl

theorem getFloatConversion_mod (m : Module) (c : ConvOp) (tin tout : Ty) :
    ∃ ext : List Func, (getFloatConversion m c tin tout).1.funcs = m.funcs ++ ext
      ∧ (getFloatConversion m c tin tout).1.triple = m.triple
      ∧ (getFloatConversion m c tin tout).1.ptrBytes = m.ptrBytes
      ∧ (getFloatConversion m c tin tout).1.gvars = m.gvars := by
  unfold getFloatConversion
  cases h : funcNamed m (convName c tin tout) with
  | some f => exact ⟨[], by simp, rfl, rfl, rfl⟩
  | none => exact ⟨[converterFunc c tin tout], rfl, rfl, rfl, rfl⟩

theorem efoInstr_mod (s : EfoState) (i : Instr) :
    ∃ extF extG, (efoInstr s i).1.m.funcs = s.m.funcs ++ extF
      ∧ (efoInstr s i).1.m.gvars = s.m.gvars ++ extG
      ∧ (efoInstr s i).1.m.triple = s.m.triple
      ∧ (efoInstr s i).1.m.ptrBytes = s.m.ptrBytes := by
  unfold efoInstr
  split
  · split
    · obtain ⟨ext, h1, h2, h3, h4⟩ := getFloatConversion_mod s.m _ _ _
      exact ⟨ext, [], h1, by simp [h4], h2, h3⟩
    · exact ⟨[], _, by simp, rfl, rfl, rfl⟩
  · exact ⟨[], _, by simp, rfl, rfl, rfl⟩
  · exact ⟨[], _, by simp, rfl, rfl, rfl⟩

theorem efoStepI_eq (s : EfoState) (acc : List Instr) (i : Instr) :
    efoStepI (s, acc) i = ((efoInstr s i).1, acc ++ (efoInstr s i).2) := rfl

theorem efoStepB_eq (s : EfoState) (accb : List BB) (b : BB) :
    efoStepB (s, accb) b
      = ((b.instrs.foldl efoStepI (s, [])).1,
         accb ++ [{ b with instrs := (b.instrs.foldl efoStepI (s, [])).2 }]) := rfl

theorem efoFoldInstrs_mod (instrs : List Instr) :
    ∀ (s : EfoState) (acc : List Instr),
      ∃ extF extG,
        (instrs.foldl efoStepI (s, acc)).1.m.funcs = s.m.funcs ++ extF
        ∧ (instrs.foldl efoStepI (s, acc)).1.m.gvars = s.m.gvars ++ extG
        ∧ (instrs.foldl efoStepI (s, acc)).1.m.triple = s.m.triple
        ∧ (instrs.foldl efoStepI (s, acc)).1.m.ptrBytes = s.m.ptrBytes := by
  induction instrs with
  | nil => exact fun s acc => ⟨[], [], by simp, by simp, rfl, rfl⟩
  | cons i rest ih =>
      intro s acc
      rw [List.foldl_cons, efoStepI_eq]
      obtain ⟨e1, g1, h1, h2, h3, h4⟩ := efoInstr_mod s i
      obtain ⟨e2, g2, h5, h6, h7, h8⟩ := ih (efoInstr s i).1 (acc ++ (efoInstr s i).2)
      exact ⟨e1 ++ e2, g1 ++ g2,
        by rw [h5, h1, List.append_assoc],
        by rw [h6, h2, List.append_assoc],
        by rw [h7, h3],
        by rw [h8, h4]⟩

theorem efoFoldBlocks_mod (blocks : List BB) :
    ∀ (s : EfoState) (accb : List BB),
      ∃ extF extG,
        (blocks.foldl efoStepB (s, accb)).1.m.funcs = s.m.funcs ++ extF
        ∧ (blocks.foldl efoStepB (s, accb)).1.m.gvars = s.m.gvars ++ extG
        ∧ (blocks.foldl efoStepB (s, accb)).1.m.triple = s.m.triple
        ∧ (blocks.foldl efoStepB (s, accb)).1.m.ptrBytes = s.m.ptrBytes := by
  induction blocks with
  | nil => exact fun s accb => ⟨[], [], by simp, by simp, rfl, rfl⟩
  | cons b rest ih =>
      intro s accb
      rw [List.foldl_cons, efoStepB_eq]
      obtain ⟨e1, g1, h1, h2, h3, h4⟩ := efoFoldInstrs_mod b.instrs s []
      obtain ⟨e2, g2, h5, h6, h7, h8⟩ := ih _ _
      refine ⟨e1 ++ e2, g1 ++ g2, ?_, ?_, ?_, ?_⟩
      · rw [h5, h1, List.append_assoc]
      · rw [h6, h2, List.append_assoc]
      · rw [h7, h3]
      · rw [h8, h4]

theorem extractFloat_mod (m : Module) (fname : String) (k : Nat) :
    (extractFloatOperations m fname k).1.triple = m.triple
    ∧ (extractFloatOperations m fname k).1.ptrBytes = m.ptrBytes
    ∧ ((funcNamed m fname).isSome →
        (funcNamed (extractFloatOperations m fname k).1 fname).isSome) := by
  unfold extractFloatOperations
  cases hf : funcNamed m fname with
  | none => exact ⟨rfl, rfl, fun h => by simp at h⟩
  | some f =>
      obtain ⟨extF, extG, h1, h2, h3, h4⟩ := efoFoldBlocks_mod f.blocks ⟨m, k, []⟩ []
      refine ⟨by simpa using h3, by simpa using h4, fun _ => ?_⟩
      show ((updateFuncs _ fname _).find? (fun g => g.name = fname)).isSome = true
      rw [find?_updateFuncs_isSome]
      · rw [show (⟨m, k, []⟩ : EfoState).m.funcs = m.funcs from rfl] at h1
        show ((efoScan m k f.blocks).1.m.funcs.find? (fun g => g.name = fname)).isSome = true
        rw [show (efoScan m k f.blocks).1.m.funcs
            = (f.blocks.foldl efoStepB (⟨m, k, []⟩, [])).1.m.funcs from rfl]
        rw [h1, List.find?_append]
        have hx : m.funcs.find? (fun g => g.name = fname) = some f := hf
        rw [hx]
        rfl
      · exact fun f => rfl

theorem isDataPCRelative_congr (m1 m2 : Module) (h : m1.triple = m2.triple) :
    isDataPCRelative m1 = isDataPCRelative m2 := by
  unfold isDataPCRelative getPlatform
  rw [h]

theorem find?_insertFnAfter_mono (l : List Func) (n : String) (d : Func) (x : String)
    (hl : (l.find? (fun g => g.name = x)).isSome = true) :
    ((insertFnAfter l n d).find? (fun g => g.name = x)).isSome = true := by
  induction l with
  | nil => simp at hl
  | cons a rest ih =>
      unfold insertFnAfter
      by_cases ha : a.name = n
      · rw [if_pos (by simpa using ha)]
        by_cases hax : a.name = x
        · simp [List.find?, hax]
        · rw [List.find?_cons_of_neg _ (by simpa using hax)]
          rw [List.find?_cons_of_neg _ (by simpa using hax)] at hl
          by_cases hdx : d.name = x
          · simp [List.find?, hdx]
          · rw [List.find?_cons_of_neg _ (by simpa using hdx)]
            exact hl
      · rw [if_neg (by simpa using ha)]
        by_cases hax : a.name = x
        · simp [List.find?, hax]
        · rw [List.find?_cons_of_neg _ (by simpa using hax)]
          rw [List.find?_cons_of_neg _ (by simpa using hax)] at hl
          exact ih hl

theorem rcPrep_presSome (m : Module) (fname : String)
    (h : (funcNamed m fname).isSome) :
    (funcNamed (rcPrep m fname) fname).isSome := by
  unfold rcPrep
  rw [funcNamed_mk, find?_updateFuncs_isSome]
  · exact find?_insertFnAfter_mono m.funcs fname (dummyFuncOf fname) fname h
  · exact fun f => rfl

theorem rcPrep_triple (m : Module) (fname : String) :
    (rcPrep m fname).triple = m.triple := rfl

theorem rcPrep_ptrBytes (m : Module) (fname : String) :
    (rcPrep m fname).ptrBytes = m.ptrBytes := rfl

theorem rcBuild_some (addr : Const → Nat) (m3 : Module) (fname : String) (k1 : Nat)
    (f3 : Func) (hf3 : funcNamed m3 fname = some f3) :
    rcBuild addr m3 fname k1
      = if (findPCRelativeUsesIn addr m3 f3).isEmpty then
          ⟨m3,
           [ .cast1 "ptrcast" i8p (.gv fname),
             .cast1 "ptrcast" i8p (.gv (dummyName fname)),
             .nullC i8p,
             .intC 32 0,
             .intC 1 0 ],
           k1, findPCRelativeUsesIn addr m3 f3⟩
        else
          ⟨rcM4 m3 fname f3 (findPCRelativeUsesIn addr m3 f3) k1,
           [ .cast1 "ptrcast" i8p (.gv fname),
             .cast1 "ptrcast" i8p (.gv (dummyName fname)),
             .cast1 "ptrcast" i8p (.gv (rcTableName fname)),
             .cast1 "intcast" (.int 32) (.sizeOfC (rcTableTy fname)),
             .intC 1 (if isDataPCRelative m3 then 1 else 0) ],
           k1 + (recordsOf (findPCRelativeUsesIn addr m3 f3)).length,
           findPCRelativeUsesIn addr m3 f3⟩ := by
  unfold rcBuild
  rw [hf3]

/-- Claim C4 (registration tuple): `randomizeCode` returns the tuple
(function cast to `i8*`, sentinel cast to `i8*`, table pointer, table
byte size, adjacent flag); the flag is the 1-bit constant 1 exactly when
the target uses PC-relative data addressing and the reference collection
is non-empty, and an empty collection yields a null table pointer, size
0 and flag 0. -/
theorem randomizeCode_tuple_C4 (addr : Const → Nat) (m : Module) (fname : String) (k : Nat)
    (h : (funcNamed m fname).isSome) :
    ((randomizeCode addr m fname k).args.length = 5)
    ∧ ((randomizeCode addr m fname k).args.get? 0
        = some (.cast1 "ptrcast" i8p (.gv fname)))
    ∧ ((randomizeCode addr m fname k).args.get? 1
        = some (.cast1 "ptrcast" i8p (.gv (dummyName fname))))
    ∧ ((randomizeCode addr m fname k).args.get? 4 = some (.intC 1 1)
        ↔ (isDataPCRelative m = true ∧ (randomizeCode addr m fname k).refs ≠ []))
    ∧ ((randomizeCode addr m fname k).refs = [] →
        (randomizeCode addr m fname k).args.get? 2 = some (.nullC i8p)
        ∧ (randomizeCode addr m fname k).args.get? 3 = some (.intC 32 0)
        ∧ (randomizeCode addr m fname k).args.get? 4 = some (.intC 1 0))
    ∧ ((randomizeCode addr m fname k).refs ≠ [] →
        (randomizeCode addr m fname k).args.get? 2
          = some (.cast1 "ptrcast" i8p (.gv (fname ++ ".relocation_table")))
        ∧ (randomizeCode addr m fname k).args.get? 3
          = some (.cast1 "intcast" (.int 32)
              (.sizeOfC (.strukt (fname ++ ".relocation_table_t"))))) := by
  obtain ⟨f, hf⟩ := Option.isSome_iff_exists.mp h
  have hext := extractFloat_mod (rcPrep m fname) fname k
  have hm3some := hext.2.2 (rcPrep_presSome m fname h)
  obtain ⟨f3, hf3⟩ := Option.isSome_iff_exists.mp hm3some
  have htriple : (extractFloatOperations (rcPrep m fname) fname k).1.triple = m.triple := by
    rw [hext.1, rcPrep_triple]
  have hpc : isDataPCRelative (extractFloatOperations (rcPrep m fname) fname k).1
      = isDataPCRelative m :=
    isDataPCRelative_congr _ _ htriple
  have hrc : randomizeCode addr m fname k
      = rcBuild addr (extractFloatOperations (rcPrep m fname) fname k).1 fname
          (extractFloatOperations (rcPrep m fname) fname k).2 := by
    unfold randomizeCode
    rw [hf]
  rw [hrc, rcBuild_some addr _ fname _ f3 hf3]
  set refs := findPCRelativeUsesIn addr (extractFloatOperations (rcPrep m fname) fname k).1 f3
    with hrefsd
  by_cases hre : refs.isEmpty = true
  · have hre2 : refs = [] := by
      cases hq : refs with
      | nil => rfl
      | cons a l => rw [hq] at hre; simp [List.isEmpty] at hre
    rw [if_pos hre]
    refine ⟨rfl, rfl, rfl, ?_, fun _ => ⟨rfl, rfl, rfl⟩, fun hne => absurd hre2 hne⟩
    constructor
    · intro hcontra
      simp at hcontra
    · rintro ⟨_, hne⟩
      exact absurd hre2 hne
  · have hre2 : refs ≠ [] := by
      intro hc
      rw [hc] at hre
      exact hre rfl
    rw [if_neg hre]
    refine ⟨rfl, rfl, rfl, ?_, fun heq => absurd heq hre2, fun _ => ⟨rfl, rfl⟩⟩
    constructor
    · intro hflag
      refine ⟨?_, hre2⟩
      rw [← hpc]
      by_cases hb : isDataPCRelative (extractFloatOperations (rcPrep m fname) fname k).1 = true
      · exact hb
      · have hb2 : isDataPCRelative (extractFloatOperations (rcPrep m fname) fname k).1
            = false := by
          simpa using hb
        rw [show ((⟨_, _, _, _⟩ : RCResult)).args = _ from rfl] at hflag
        simp only [hb2] at hflag
        simp at hflag
    · rintro ⟨hb, _⟩
      rw [← hpc] at hb
      simp only [hb]
      rfl

/-- Concrete module exercising C4. -/
def rcExM : Module :=
  { triple := "x86_64-unknown-linux-gnu", ptrBytes := 8,
    funcs := [⟨"h", .fn0 (.int 32), .external, false, [], none,
      [⟨0, [⟨1, .load (.int 32), [.c (.gv "g")], some 10⟩,
            ⟨2, .ret, [.reg 10], none⟩]⟩]⟩],
    gvars := [⟨"g", .int 32, false, .external, .scalar (.intC 32 7)⟩] }

theorem randomizeCode_tuple_C4_witness :
    (randomizeCode (fun _ => 0) rcExM "h" 100).args.get? 4 = some (.intC 1 1)
      ∧ (randomizeCode (fun _ => 0) rcExM "h" 100).args.get? 0
          = some (.cast1 "ptrcast" i8p (.gv "h")) := by
  have h := randomizeCode_tuple_C4 (fun _ => 0) rcExM "h" 100 (by decide)
  refine ⟨h.2.2.2.1.mpr ⟨by decide, by decide⟩, h.2.1⟩

/-! ## Decimal rendering: correctness of `natStr`, and injectivity of
converter names on scalar types -/

/-- Numeric value of a digit character. -/
def digitVal (ch : Char) : Nat := ch.toNat - 48

/-- Value of a most-significant-first digit string. -/
def valD (l : List Char) : Nat := l.foldl (fun a ch => 10 * a + digitVal ch) 0

theorem valD_append (l1 l2 : List Char) :
    valD (l1 ++ l2) = l2.foldl (fun a ch => 10 * a + digitVal ch) (valD l1) := by
  unfold valD
  rw [List.foldl_append]

theorem digitVal_digitChar (r : Nat) (h : r < 10) : digitVal (Nat.digitChar r) = r := by
  interval_cases r <;> decide

theorem digitChar_digit (r : Nat) (h : r < 10) : (Nat.digitChar r).isDigit = true := by
  interval_cases r <;> decide

theorem digitsAux_val : ∀ (fuel n : Nat), n ≤ fuel → valD (digitsAux fuel n) = n := by
  intro fuel
  induction fuel with
  | zero =>
      intro n h
      interval_cases n
      rfl
  | succ fu ih =>
      intro n h
      unfold digitsAux
      by_cases h0 : n = 0
      · rw [if_pos h0, h0]
        rfl
      · rw [if_neg h0, valD_append]
        have hd : n / 10 ≤ fu := by
          have : n / 10 < n := Nat.div_lt_self (Nat.pos_of_ne_zero h0) (by omega)
          omega
        rw [show ∀ a, [Nat.digitChar (n % 10)].foldl (fun a ch => 10 * a + digitVal ch) a
            = 10 * a + digitVal (Nat.digitChar (n % 10)) from fun a => rfl]
        rw [ih (n / 10) hd, digitVal_digitChar _ (Nat.mod_lt n (by omega))]
        omega

theorem natStr_val (n : Nat) : valD (natStr n).data = n := by
  unfold natStr
  by_cases h0 : n = 0
  · rw [if_pos h0, h0]
    decide
  · rw [if_neg h0]
    show valD (digitsAux n n) = n
    exact digitsAux_val n n le_rfl

theorem natStr_inj (a b : Nat) (h : natStr a = natStr b) : a = b := by
  have hv := congrArg (fun s => valD s.data) h
  simp only at hv
  rw [natStr_val a, natStr_val b] at hv
  exact hv

theorem digitsAux_digit : ∀ (fuel n : Nat), ∀ c ∈ digitsAux fuel n, c.isDigit = true := by
  intro fuel
  induction fuel with
  | zero =>
      intro n c hc
      simp [digitsAux] at hc
  | succ fu ih =>
      intro n c hc
      unfold digitsAux at hc
      by_cases h0 : n = 0
      · rw [if_pos h0] at hc
        cases hc
      · rw [if_neg h0] at hc
        rcases List.mem_append.mp hc with h1 | h2
        · exact ih _ c h1
        · have he : c = Nat.digitChar (n % 10) := by simpa using h2
          rw [he]
          exact digitChar_digit _ (Nat.mod_lt n (by omega))

theorem natStr_noDot (n : Nat) : ∀ c ∈ (natStr n).data, c ≠ '.' := by
  unfold natStr
  by_cases h0 : n = 0
  · rw [if_pos h0]
    intro c hc
    have he : c = '0' := by simpa using hc
    rw [he]
    decide
  · rw [if_neg h0]
    intro c hc
    have hd := digitsAux_digit n n c hc
    intro he
    rw [he] at hd
    exact absurd hd (by decide)

theorem string_data_inj {s t : String} (h : s.data = t.data) : s = t := by
  cases s
  cases t
  exact congrArg String.mk h

theorem splitDot : ∀ (a1 a2 r1 r2 : List Char),
    (∀ c ∈ a1, c ≠ '.') → (∀ c ∈ a2, c ≠ '.') →
    a1 ++ '.' :: r1 = a2 ++ '.' :: r2 → a1 = a2 ∧ r1 = r2 := by
  intro a1
  induction a1 with
  | nil =>
      intro a2 r1 r2 h1 h2 he
      cases a2 with
      | nil =>
          simp at he
          exact ⟨rfl, he⟩
      | cons y ys =>
          simp at he
          exact absurd he.1.symm (h2 y (by simp))
  | cons x xs ih =>
      intro a2 r1 r2 h1 h2 he
      cases a2 with
      | nil =>
          simp at he
          exact absurd he.1 (h1 x (by simp))
      | cons y ys =>
          simp only [List.cons_append, List.cons.injEq] at he
          obtain ⟨hxy, he2⟩ := he
          obtain ⟨ha, hr⟩ := ih ys r1 r2 (fun c hc => h1 c (by simp [hc]))
            (fun c hc => h2 c (by simp [hc])) he2
          exact ⟨by rw [hxy, ha], hr⟩

theorem convOpStr_noDot (c : ConvOp) : ∀ ch ∈ (convOpStr c).data, ch ≠ '.' := by
  cases c <;> decide

theorem convOpStr_inj (c c' : ConvOp) (h : convOpStr c = convOpStr c') : c = c' := by
  cases c <;> cases c' <;> first | rfl | exact absurd h (by decide)

theorem tyName_noDot (t : Ty) (h : scalarTy t = true) : ∀ ch ∈ (tyName t).data, ch ≠ '.' := by
  cases t
  case int b =>
    intro ch hc
    rw [show tyName (Ty.int b) = "i" ++ natStr b from rfl, strdata_append] at hc
    rcases List.mem_append.mp hc with h1 | h2
    · have he : ch = 'i' := by simpa using h1
      rw [he]
      decide
    · exact natStr_noDot b ch h2
  case half => decide
  case flt => decide
  case dbl => decide
  all_goals simp [scalarTy] at h

theorem tyName_inj (t t' : Ty) (h : scalarTy t = true) (h' : scalarTy t' = true)
    (he : tyName t = tyName t') : t = t' := by
  cases t <;> simp [scalarTy] at h
  all_goals cases t' <;> simp [scalarTy] at h'
  case int.int b b' =>
    have hd := congrArg String.data he
    rw [show tyName (Ty.int b) = "i" ++ natStr b from rfl,
        show tyName (Ty.int b') = "i" ++ natStr b' from rfl,
        strdata_append, strdata_append,
        show ("i").data = ['i'] from rfl] at hd
    simp only [List.singleton_append, List.cons.injEq, true_and] at hd
    rw [natStr_inj b b' (string_data_inj hd)]
  case half.half => rfl
  case flt.flt => rfl
  case dbl.dbl => rfl
  all_goals (
    exfalso
    have hd := congrArg String.data he
    first
      | exact absurd he (by decide)
      | (rw [show tyName (Ty.int _) = "i" ++ natStr _ from rfl, strdata_append,
            show ("i").data = ['i'] from rfl] at hd
         simp only [List.singleton_append] at hd
         first
           | (rw [show (tyName Ty.half).data = ['h', 'a', 'l', 'f'] from rfl] at hd
              simp at hd)
           | (rw [show (tyName Ty.flt).data = ['f', 'l', 'o', 'a', 't'] from rfl] at hd
              simp at hd)
           | (rw [show (tyName Ty.dbl).data = ['d', 'o', 'u', 'b', 'l', 'e'] from rfl] at hd
              simp at hd)))

theorem convName_inj (c c' : ConvOp) (tin tout tin' tout' : Ty)
    (h1 : scalarTy tin = true) (h2 : scalarTy tout = true)
    (h1' : scalarTy tin' = true) (h2' : scalarTy tout' = true)
    (he : convName c tin tout = convName c' tin' tout') :
    c = c' ∧ tin = tin' ∧ tout = tout' := by
  have hd := congrArg String.data he
  unfold convName at hd
  simp only [strdata_append] at hd
  have hd2 : (convOpStr c).data ++ '.' :: ((tyName tin).data ++ '.' :: (tyName tout).data)
      = (convOpStr c').data ++ '.' :: ((tyName tin').data ++ '.' :: (tyName tout').data) := by
    simpa [List.append_assoc] using hd
  obtain ⟨hop, hrest⟩ := splitDot _ _ _ _ (convOpStr_noDot c) (convOpStr_noDot c') hd2
  obtain ⟨ht1, ht2⟩ := splitDot _ _ _ _ (tyName_noDot tin h1) (tyName_noDot tin' h1') hrest
  exact ⟨convOpStr_inj c c' (string_data_inj hop),
    tyName_inj tin tin' h1 h1' (string_data_inj ht1),
    tyName_inj tout tout' h2 h2' (string_data_inj ht2)⟩

/-! ## The float-extraction scan: step equations and invariants -/

/-- Opcodes other than conversions and PHIs (the default arm of
`efoInstr`). -/
def notCP : Op → Bool
  | .conv _ _ _ => false
  | .phi _ _ => false
  | _ => true

/-- Whether an instruction's conversion types (if any) are first-class
scalars. -/
def scalarConvB (i : Instr) : Bool :=
  match i.op with
  | .conv _ tin tout => scalarTy tin && scalarTy tout
  | _ => true

/-- All instructions of a function, in block order. -/
def instrsOfF (f : Func) : List Instr := (f.blocks.map (·.instrs)).flatten

/-- The functions added to the module so far are all synthesized
converters for scalar shapes. -/
abbrev NewInv (m0 mm : Module) : Prop :=
  ∃ ext, mm.funcs = m0.funcs ++ ext
    ∧ ∀ g ∈ ext, ∃ c tin tout, scalarTy tin = true ∧ scalarTy tout = true
        ∧ g = converterFunc c tin tout

/-- Every PHI-recorded pending instruction is a load. -/
abbrev PhiInv (s : EfoState) : Prop := ∀ p ∈ s.phiRecs, ∃ t, p.2.op = Op.load t

/-- Scan-state invariant: triple unchanged, only scalar converters
added, and name-uniqueness preserved. -/
abbrev EfoGood (m0 : Module) (s : EfoState) : Prop :=
  s.m.triple = m0.triple ∧ NewInv m0 s.m
    ∧ ((m0.funcs.map (·.name)).Nodup → (s.m.funcs.map (·.name)).Nodup)

/-- No remaining extractable conversion: any conversion left is an
`fptrunc` off PowerPC. -/
abbrev POpc (pl : Platform) (j : Instr) : Prop :=
  ∀ c tin tout, j.op = Op.conv c tin tout → c = ConvOp.fptrunc ∧ pl ≠ Platform.PowerPC

theorem getPlatform_congr (m1 m2 : Module) (h : m1.triple = m2.triple) :
    getPlatform m1 = getPlatform m2 := by
  unfold getPlatform
  rw [h]

theorem gFC_snd (m : Module) (c : ConvOp) (tin tout : Ty) :
    (getFloatConversion m c tin tout).2 = convName c tin tout := by
  unfold getFloatConversion
  cases h : funcNamed m (convName c tin tout) <;> rfl

theorem gFC_triple (m : Module) (c : ConvOp) (tin tout : Ty) :
    (getFloatConversion m c tin tout).1.triple = m.triple := by
  unfold getFloatConversion
  cases h : funcNamed m (convName c tin tout) <;> rfl

theorem gFC_new (m0 mm : Module) (c : ConvOp) (tin tout : Ty)
    (h1 : scalarTy tin = true) (h2 : scalarTy tout = true)
    (hnew : NewInv m0 mm) : NewInv m0 (getFloatConversion mm c tin tout).1 := by
  obtain ⟨ext, he, hext⟩ := hnew
  unfold getFloatConversion
  cases hl : funcNamed mm (convName c tin tout) with
  | some g0 => exact ⟨ext, he, hext⟩
  | none =>
      refine ⟨ext ++ [converterFunc c tin tout], ?_, ?_⟩
      · show mm.funcs ++ [converterFunc c tin tout] = m0.funcs ++ (ext ++ [converterFunc c tin tout])
        rw [he, List.append_assoc]
      · intro g hg
        rcases List.mem_append.mp hg with h | h
        · exact hext g h
        · have he2 : g = converterFunc c tin tout := by simpa using h
          exact ⟨c, tin, tout, h1, h2, he2⟩

theorem gFC_nodup (mm : Module) (c : ConvOp) (tin tout : Ty)
    (h : (mm.funcs.map (·.name)).Nodup) :
    (((getFloatConversion mm c tin tout).1.funcs).map (·.name)).Nodup := by
  unfold getFloatConversion
  cases hl : funcNamed mm (convName c tin tout) with
  | some g0 => exact h
  | none =>
      show ((mm.funcs ++ [converterFunc c tin tout]).map (·.name)).Nodup
      rw [List.map_append]
      rw [List.nodup_append]
      refine ⟨h, by simp, ?_⟩
      intro a ha hb
      have hb2 : a = convName c tin tout := by simpa using hb
      obtain ⟨g, hg, hgn⟩ := List.mem_map.mp ha
      have := List.find?_eq_none.mp hl g hg
      rw [hgn] at this
      rw [hb2] at this
      simp at this

theorem gFC_found (m0 mm : Module) (c : ConvOp) (tin tout : Ty)
    (hnew : NewInv m0 mm)
    (h1 : scalarTy tin = true) (h2 : scalarTy tout = true) :
    ∃ g ∈ (getFloatConversion mm c tin tout).1.funcs, g.name = convName c tin tout
      ∧ (funcNamed m0 (convName c tin tout) = none → g = converterFunc c tin tout) := by
  obtain ⟨ext, he, hext⟩ := hnew
  unfold getFloatConversion
  cases hl : funcNamed mm (convName c tin tout) with
  | none =>
      refine ⟨converterFunc c tin tout, ?_, rfl, fun _ => rfl⟩
      show converterFunc c tin tout ∈ mm.funcs ++ [converterFunc c tin tout]
      exact List.mem_append_right _ (by simp)
  | some g0 =>
      have hg0m : g0 ∈ mm.funcs := List.mem_of_find?_eq_some hl
      have hg0n : g0.name = convName c tin tout := by simpa using List.find?_some hl
      refine ⟨g0, hg0m, hg0n, ?_⟩
      intro hnone
      rw [he] at hg0m
      rcases List.mem_append.mp hg0m with hin | hin
      · exfalso
        have := List.find?_eq_none.mp hnone g0 hin
        rw [hg0n] at this
        simp at this
      · obtain ⟨c', tin', tout', hs1, hs2, hgc⟩ := hext g0 hin
        have hname : convName c' tin' tout' = convName c tin tout := by
          rw [← hg0n, hgc]
          rfl
        obtain ⟨hc, hti, hto⟩ := convName_inj c' c tin' tout' tin tout hs1 hs2 h1 h2 hname
        rw [hgc, hc, hti, hto]

theorem mem_updateFuncs_ne (l : List Func) (n : String) (upd : Func → Func) (g : Func)
    (hm : g ∈ l) (hne : g.name ≠ n) : g ∈ updateFuncs l n upd := by
  unfold updateFuncs
  have he : (fun f => if f.name = n then upd f else f) g = g := if_neg hne
  rw [← he]
  exact List.mem_map_of_mem _ hm

theorem updateFuncs_names (l : List Func) (n : String) (upd : Func → Func)
    (h : ∀ f, (upd f).name = f.name) :
    (updateFuncs l n upd).map (·.name) = l.map (·.name) := by
  unfold updateFuncs
  rw [List.map_map]
  have he : ((fun f : Func => f.name) ∘ (fun f => if f.name = n then upd f else f))
      = fun f : Func => f.name := by
    funext f
    by_cases hf : f.name = n <;> simp [hf, h]
  rw [he]

theorem efoOperands_nil (isPhi : Bool) (ib : List Nat) (j k : Nat) :
    efoOperands isPhi ib [] j k = ([], [], [], [], k) := rfl

theorem efoOperands_cons_float_phi (ib : List Nat) (cst : Const) (rest : List Opnd)
    (j k : Nat) (hf : containsConstantFloat cst = true) :
    efoOperands true ib (.c cst :: rest) j k
      = (Opnd.reg k :: (efoOperands true ib rest (j+1) (k+1)).1,
         (efoOperands true ib rest (j+1) (k+1)).2.1,
         (ib.getD j 0,
           (⟨k, .load (constTy cst), [.c (.gv ("fconst." ++ natStr k))], some k⟩ : Instr))
           :: (efoOperands true ib rest (j+1) (k+1)).2.2.1,
         (⟨"fconst." ++ natStr k, constTy cst, true, .internal, .scalar cst⟩ : GlobalVar)
           :: (efoOperands true ib rest (j+1) (k+1)).2.2.2.1,
         (efoOperands true ib rest (j+1) (k+1)).2.2.2.2) := by
  simp only [efoOperands]
  rw [if_pos hf]
  simp

theorem efoOperands_cons_float_np (ib : List Nat) (cst : Const) (rest : List Opnd)
    (j k : Nat) (hf : containsConstantFloat cst = true) :
    efoOperands false ib (.c cst :: rest) j k
      = (Opnd.reg k :: (efoOperands false ib rest (j+1) (k+1)).1,
         (⟨k, .load (constTy cst), [.c (.gv ("fconst." ++ natStr k))], some k⟩ : Instr)
           :: (efoOperands false ib rest (j+1) (k+1)).2.1,
         (efoOperands false ib rest (j+1) (k+1)).2.2.1,
         (⟨"fconst." ++ natStr k, constTy cst, true, .internal, .scalar cst⟩ : GlobalVar)
           :: (efoOperands false ib rest (j+1) (k+1)).2.2.2.1,
         (efoOperands false ib rest (j+1) (k+1)).2.2.2.2) := by
  simp only [efoOperands]
  rw [if_pos hf]
  simp

theorem efoOperands_cons_nofloat (isPhi : Bool) (ib : List Nat) (cst : Const)
    (rest : List Opnd) (j k : Nat) (hf : containsConstantFloat cst = false) :
    efoOperands isPhi ib (.c cst :: rest) j k
      = (Opnd.c cst :: (efoOperands isPhi ib rest (j+1) k).1,
         (efoOperands isPhi ib rest (j+1) k).2.1,
         (efoOperands isPhi ib rest (j+1) k).2.2.1,
         (efoOperands isPhi ib rest (j+1) k).2.2.2.1,
         (efoOperands isPhi ib rest (j+1) k).2.2.2.2) := by
  simp only [efoOperands]
  rw [if_neg (by simp [hf])]

theorem efoOperands_cons_reg (isPhi : Bool) (ib : List Nat) (x : Nat)
    (rest : List Opnd) (j k : Nat) :
    efoOperands isPhi ib (.reg x :: rest) j k
      = (Opnd.reg x :: (efoOperands isPhi ib rest (j+1) k).1,
         (efoOperands isPhi ib rest (j+1) k).2.1,
         (efoOperands isPhi ib rest (j+1) k).2.2.1,
         (efoOperands isPhi ib rest (j+1) k).2.2.2.1,
         (efoOperands isPhi ib rest (j+1) k).2.2.2.2) := by
  simp only [efoOperands]

theorem efoOperands_loads (isPhi : Bool) (ib : List Nat) :
    ∀ (ops : List Opnd) (j k : Nat),
      (∀ ld ∈ (efoOperands isPhi ib ops j k).2.1, ∃ t, ld.op = Op.load t)
      ∧ (∀ p ∈ (efoOperands isPhi ib ops j k).2.2.1, ∃ t, p.2.op = Op.load t) := by
  intro ops
  induction ops with
  | nil =>
      intro j k
      constructor <;> intro x hx <;> rw [efoOperands_nil] at hx <;> cases hx
  | cons o rest ih =>
      intro j k
      cases o with
      | c cst =>
          by_cases hf : containsConstantFloat cst = true
          · cases isPhi with
            | true =>
                rw [efoOperands_cons_float_phi ib cst rest j k hf]
                constructor
                · exact fun ld hld => (ih (j+1) (k+1)).1 ld hld
                · intro p hp
                  rcases List.mem_cons.mp hp with he | hm
                  · rw [he]
                    exact ⟨constTy cst, rfl⟩
                  · exact (ih (j+1) (k+1)).2 p hm
            | false =>
                rw [efoOperands_cons_float_np ib cst rest j k hf]
                constructor
                · intro ld hld
                  rcases List.mem_cons.mp hld with he | hm
                  · rw [he]
                    exact ⟨constTy cst, rfl⟩
                  · exact (ih (j+1) (k+1)).1 ld hm
                · exact fun p hp => (ih (j+1) (k+1)).2 p hp
          · have hf2 : containsConstantFloat cst = false := by simpa using hf
            rw [efoOperands_cons_nofloat isPhi ib cst rest j k hf2]
            exact ⟨fun ld hld => (ih (j+1) k).1 ld hld, fun p hp => (ih (j+1) k).2 p hp⟩
      | reg x =>
          rw [efoOperands_cons_reg isPhi ib x rest j k]
          exact ⟨fun ld hld => (ih (j+1) k).1 ld hld, fun p hp => (ih (j+1) k).2 p hp⟩

theorem efoInstr_conv_target (s : EfoState) (i : Instr) (c : ConvOp) (tin tout : Ty)
    (hop : i.op = Op.conv c tin tout)
    (hc : (c ≠ ConvOp.fptrunc || getPlatform s.m = Platform.PowerPC) = true) :
    efoInstr s i
      = ({ s with m := (getFloatConversion s.m c tin tout).1 },
         [⟨i.iid, Op.call,
           [i.operands.getD 0 (Opnd.reg 0),
            Opnd.c (Const.gv (getFloatConversion s.m c tin tout).2)], i.res⟩]) := by
  unfold efoInstr
  rw [hop]
  exact if_pos hc

theorem efoInstr_conv_skip (s : EfoState) (i : Instr) (c : ConvOp) (tin tout : Ty)
    (hop : i.op = Op.conv c tin tout)
    (hc : (c ≠ ConvOp.fptrunc || getPlatform s.m = Platform.PowerPC) = false) :
    efoInstr s i
      = (⟨{ s.m with gvars := s.m.gvars ++ (efoOperands false [] i.operands 0 s.k).2.2.2.1 },
          (efoOperands false [] i.operands 0 s.k).2.2.2.2,
          s.phiRecs ++ (efoOperands false [] i.operands 0 s.k).2.2.1⟩,
         (efoOperands false [] i.operands 0 s.k).2.1
           ++ [{ i with operands := (efoOperands false [] i.operands 0 s.k).1 }]) := by
  unfold efoInstr
  rw [hop]
  refine if_neg ?_
  simp at hc ⊢
  exact hc

theorem efoInstr_phi (s : EfoState) (i : Instr) (t : Ty) (ib : List Nat)
    (hop : i.op = Op.phi t ib) :
    efoInstr s i
      = (⟨{ s.m with gvars := s.m.gvars ++ (efoOperands true ib i.operands 0 s.k).2.2.2.1 },
          (efoOperands true ib i.operands 0 s.k).2.2.2.2,
          s.phiRecs ++ (efoOperands true ib i.operands 0 s.k).2.2.1⟩,
         (efoOperands true ib i.operands 0 s.k).2.1
           ++ [{ i with operands := (efoOperands true ib i.operands 0 s.k).1 }]) := by
  unfold efoInstr
  rw [hop]

theorem efoInstr_other (s : EfoState) (i : Instr) (h : notCP i.op = true) :
    efoInstr s i
      = (⟨{ s.m with gvars := s.m.gvars ++ (efoOperands false [] i.operands 0 s.k).2.2.2.1 },
          (efoOperands false [] i.operands 0 s.k).2.2.2.2,
          s.phiRecs ++ (efoOperands false [] i.operands 0 s.k).2.2.1⟩,
         (efoOperands false [] i.operands 0 s.k).2.1
           ++ [{ i with operands := (efoOperands false [] i.operands 0 s.k).1 }]) := by
  unfold efoInstr
  cases hop : i.op <;> first | rfl | simp [notCP, hop] at h

theorem efoInstr_good (m0 : Module) (s : EfoState) (i : Instr)
    (hg : EfoGood m0 s) (hp : PhiInv s) (hsc : scalarConvB i = true) :
    EfoGood m0 (efoInstr s i).1 ∧ PhiInv (efoInstr s i).1
    ∧ (∀ j ∈ (efoInstr s i).2, POpc (getPlatform m0) j)
    ∧ (∀ c tin tout, i.op = Op.conv c tin tout →
        (¬c = ConvOp.fptrunc ∨ getPlatform m0 = Platform.PowerPC) →
        ((⟨i.iid, Op.call, [i.operands.getD 0 (Opnd.reg 0),
            Opnd.c (Const.gv (convName c tin tout))], i.res⟩ : Instr)
            ∈ (efoInstr s i).2
         ∧ ∃ g ∈ (efoInstr s i).1.m.funcs, g.name = convName c tin tout
            ∧ (funcNamed m0 (convName c tin tout) = none →
                g = converterFunc c tin tout))) := by
  obtain ⟨ht, hnew, hnd⟩ := hg
  have hplat : getPlatform s.m = getPlatform m0 := getPlatform_congr _ _ ht
  have keep : ∀ (isPhi : Bool) (ib : List Nat),
      efoInstr s i
        = (⟨{ s.m with gvars := s.m.gvars ++ (efoOperands isPhi ib i.operands 0 s.k).2.2.2.1 },
            (efoOperands isPhi ib i.operands 0 s.k).2.2.2.2,
            s.phiRecs ++ (efoOperands isPhi ib i.operands 0 s.k).2.2.1⟩,
           (efoOperands isPhi ib i.operands 0 s.k).2.1
             ++ [{ i with operands := (efoOperands isPhi ib i.operands 0 s.k).1 }]) →
      POpc (getPlatform m0) i →
      EfoGood m0 (efoInstr s i).1 ∧ PhiInv (efoInstr s i).1
        ∧ (∀ j ∈ (efoInstr s i).2, POpc (getPlatform m0) j) := by
    intro isPhi ib heq hPi
    rw [heq]
    refine ⟨⟨ht, hnew, hnd⟩, ?_, ?_⟩
    · intro p hp2
      rcases List.mem_append.mp hp2 with h | h
      · exact hp p h
      · exact (efoOperands_loads isPhi ib i.operands 0 s.k).2 p h
    · intro j hj
      rcases List.mem_append.mp hj with h | h
      · obtain ⟨t, hld⟩ := (efoOperands_loads isPhi ib i.operands 0 s.k).1 j h
        intro c tin tout hje
        rw [hld] at hje
        cases hje
      · have hje : j = { i with operands := (efoOperands isPhi ib i.operands 0 s.k).1 } := by
          simpa using h
        intro c tin tout hjop
        rw [hje] at hjop
        exact hPi c tin tout hjop
  by_cases hcp : notCP i.op = true
  · have heq := efoInstr_other s i hcp
    have hPi : POpc (getPlatform m0) i := by
      intro c tin tout hie
      rw [hie] at hcp
      simp [notCP] at hcp
    obtain ⟨hA, hB, hC⟩ := keep false [] heq hPi
    refine ⟨hA, hB, hC, ?_⟩
    intro c tin tout hie
    rw [hie] at hcp
    simp [notCP] at hcp
  · have hshape : (∃ c tin tout, i.op = Op.conv c tin tout)
        ∨ (∃ t ib, i.op = Op.phi t ib) := by
      cases hco : i.op <;> first
        | exact Or.inl ⟨_, _, _, rfl⟩
        | exact Or.inr ⟨_, _, rfl⟩
        | (simp [notCP, hco] at hcp)
    rcases hshape with ⟨c0, tin0, tout0, hco⟩ | ⟨t, ib, hco⟩
    · have hs : scalarTy tin0 = true ∧ scalarTy tout0 = true := by
        unfold scalarConvB at hsc
        rw [hco] at hsc
        simpa using hsc
      by_cases hcc : (c0 ≠ ConvOp.fptrunc || getPlatform s.m = Platform.PowerPC) = true
      · have heq := efoInstr_conv_target s i c0 tin0 tout0 hco hcc
        refine ⟨⟨?_, ?_, ?_⟩, ?_, ?_, ?_⟩
        · rw [heq]
          show (getFloatConversion s.m c0 tin0 tout0).1.triple = m0.triple
          rw [gFC_triple, ht]
        · rw [heq]
          exact gFC_new m0 s.m c0 tin0 tout0 hs.1 hs.2 hnew
        · rw [heq]
          intro h0
          exact gFC_nodup s.m c0 tin0 tout0 (hnd h0)
        · rw [heq]
          exact hp
        · rw [heq]
          intro j hj
          have hje : j = (⟨i.iid, Op.call,
              [i.operands.getD 0 (Opnd.reg 0),
               Opnd.c (Const.gv (getFloatConversion s.m c0 tin0 tout0).2)], i.res⟩ : Instr) := by
            simpa using hj
          intro c tin tout hjop
          rw [hje] at hjop
          cases hjop
        · intro c tin tout hie hcond
          rw [hco] at hie
          injection hie with h1 h2 h3
          subst h1
          subst h2
          subst h3
          constructor
          · rw [heq, gFC_snd]
            simp
          · rw [heq]
            show ∃ g ∈ (getFloatConversion s.m c0 tin0 tout0).1.funcs, _
            exact gFC_found m0 s.m c0 tin0 tout0 hnew hs.1 hs.2
      · have hcc2 : (c0 ≠ ConvOp.fptrunc || getPlatform s.m = Platform.PowerPC) = false := by
          simpa using hcc
        have heq := efoInstr_conv_skip s i c0 tin0 tout0 hco hcc2
        simp only [Bool.or_eq_false_iff, decide_eq_false_iff_not, not_not,
          decide_eq_true_eq] at hcc2
        have hPi : POpc (getPlatform m0) i := by
          intro c tin tout hie
          rw [hco] at hie
          injection hie with h1 h2 h3
          subst h1
          exact ⟨hcc2.1, by rw [← hplat]; exact hcc2.2⟩
        obtain ⟨hA, hB, hC⟩ := keep false [] heq hPi
        refine ⟨hA, hB, hC, ?_⟩
        intro c tin tout hie hcond
        rw [hco] at hie
        injection hie with h1 h2 h3
        subst h1
        exfalso
        rcases hcond with hx | hx
        · exact hx hcc2.1
        · rw [hplat] at hcc2
          exact hcc2.2 hx
    · have heq := efoInstr_phi s i t ib hco
      have hPi : POpc (getPlatform m0) i := by
        intro c tin tout hie
        rw [hco] at hie
        cases hie
      obtain ⟨hA, hB, hC⟩ := keep true ib heq hPi
      refine ⟨hA, hB, hC, ?_⟩
      intro c tin tout hie
      rw [hco] at hie
      cases hie

theorem efoFoldInstrs_acc (instrs : List Instr) :
    ∀ (s : EfoState) (acc : List Instr) (j : Instr), j ∈ acc →
      j ∈ (instrs.foldl efoStepI (s, acc)).2 := by
  induction instrs with
  | nil => exact fun s acc j hj => hj
  | cons i rest ih =>
      intro s acc j hj
      rw [List.foldl_cons, efoStepI_eq]
      exact ih _ _ j (List.mem_append_left _ hj)

theorem efoFoldInstrs_good (m0 : Module) (instrs : List Instr) :
    ∀ (s : EfoState) (acc : List Instr),
      EfoGood m0 s → PhiInv s → (∀ i ∈ instrs, scalarConvB i = true) →
      EfoGood m0 (instrs.foldl efoStepI (s, acc)).1
      ∧ PhiInv (instrs.foldl efoStepI (s, acc)).1
      ∧ (∀ j ∈ (instrs.foldl efoStepI (s, acc)).2, j ∈ acc ∨ POpc (getPlatform m0) j)
      ∧ (∀ i ∈ instrs, ∀ c tin tout, i.op = Op.conv c tin tout →
          (¬c = ConvOp.fptrunc ∨ getPlatform m0 = Platform.PowerPC) →
          ((⟨i.iid, Op.call, [i.operands.getD 0 (Opnd.reg 0),
              Opnd.c (Const.gv (convName c tin tout))], i.res⟩ : Instr)
              ∈ (instrs.foldl efoStepI (s, acc)).2
           ∧ ∃ g ∈ (instrs.foldl efoStepI (s, acc)).1.m.funcs,
               g.name = convName c tin tout
               ∧ (funcNamed m0 (convName c tin tout) = none →
                   g = converterFunc c tin tout))) := by
  induction instrs with
  | nil =>
      intro s acc hg hp _
      exact ⟨hg, hp, fun j hj => Or.inl hj, fun i hi => absurd hi (by simp)⟩
  | cons i rest ih =>
      intro s acc hg hp hsc
      rw [List.foldl_cons, efoStepI_eq]
      obtain ⟨hg1, hp1, hout1, hcall1⟩ := efoInstr_good m0 s i hg hp (hsc i (by simp))
      obtain ⟨hg2, hp2, hout2, hcall2⟩ := ih (efoInstr s i).1 (acc ++ (efoInstr s i).2) hg1 hp1
        (fun x hx => hsc x (by simp [hx]))
      refine ⟨hg2, hp2, ?_, ?_⟩
      · intro j hj
        rcases hout2 j hj with hin | hPj
        · rcases List.mem_append.mp hin with h | h
          · exact Or.inl h
          · exact Or.inr (hout1 j h)
        · exact Or.inr hPj
      · intro x hx c tin tout hxe hcond
        rcases List.mem_cons.mp hx with he | hm
        · subst he
          obtain ⟨hmem, hgex⟩ := hcall1 c tin tout hxe hcond
          constructor
          · exact efoFoldInstrs_acc rest _ _ _ (List.mem_append_right _ hmem)
          · obtain ⟨g, hgm, hgn, hgc⟩ := hgex
            obtain ⟨extF, extG, hF, _, _, _⟩ :=
              efoFoldInstrs_mod rest (efoInstr s x).1 (acc ++ (efoInstr s x).2)
            exact ⟨g, by rw [hF]; exact List.mem_append_left _ hgm, hgn, hgc⟩
        · exact hcall2 x hm c tin tout hxe hcond

theorem efoFoldBlocks_acc (blocks : List BB) :
    ∀ (s : EfoState) (accb : List BB) (b' : BB), b' ∈ accb →
      b' ∈ (blocks.foldl efoStepB (s, accb)).2 := by
  induction blocks with
  | nil => exact fun s accb b' hb => hb
  | cons b rest ih =>
      intro s accb b' hb
      rw [List.foldl_cons, efoStepB_eq]
      exact ih _ _ b' (List.mem_append_left _ hb)

theorem efoFoldBlocks_good (m0 : Module) (blocks : List BB) :
    ∀ (s : EfoState) (accb : List BB),
      EfoGood m0 s → PhiInv s →
      (∀ b ∈ blocks, ∀ i ∈ b.instrs, scalarConvB i = true) →
      EfoGood m0 (blocks.foldl efoStepB (s, accb)).1
      ∧ PhiInv (blocks.foldl efoStepB (s, accb)).1
      ∧ (∀ b' ∈ (blocks.foldl efoStepB (s, accb)).2,
          b' ∈ accb ∨ ∀ j ∈ b'.instrs, POpc (getPlatform m0) j)
      ∧ (∀ b ∈ blocks, ∀ i ∈ b.instrs, ∀ c tin tout, i.op = Op.conv c tin tout →
          (¬c = ConvOp.fptrunc ∨ getPlatform m0 = Platform.PowerPC) →
          ((∃ b' ∈ (blocks.foldl efoStepB (s, accb)).2,
              (⟨i.iid, Op.call, [i.operands.getD 0 (Opnd.reg 0),
                Opnd.c (Const.gv (convName c tin tout))], i.res⟩ : Instr) ∈ b'.instrs)
           ∧ ∃ g ∈ (blocks.foldl efoStepB (s, accb)).1.m.funcs,
               g.name = convName c tin tout
               ∧ (funcNamed m0 (convName c tin tout) = none →
                   g = converterFunc c tin tout))) := by
  induction blocks with
  | nil =>
      intro s accb hg hp _
      exact ⟨hg, hp, fun b hb => Or.inl hb, fun b hb => absurd hb (by simp)⟩
  | cons b rest ih =>
      intro s accb hg hp hsc
      rw [List.foldl_cons, efoStepB_eq]
      obtain ⟨hg1, hp1, hout1, hcall1⟩ :=
        efoFoldInstrs_good m0 b.instrs s [] hg hp (hsc b (by simp))
      obtain ⟨hg2, hp2, hout2, hcall2⟩ := ih (b.instrs.foldl efoStepI (s, [])).1
        (accb ++ [{ b with instrs := (b.instrs.foldl efoStepI (s, [])).2 }]) hg1 hp1
        (fun x hx => hsc x (by simp [hx]))
      refine ⟨hg2, hp2, ?_, ?_⟩
      · intro b' hb'
        rcases hout2 b' hb' with hin | hP
        · rcases List.mem_append.mp hin with h | h
          · exact Or.inl h
          · have hbe : b' = { b with instrs := (b.instrs.foldl efoStepI (s, [])).2 } := by
              simpa using h
            refine Or.inr ?_
            rw [hbe]
            intro j hj
            rcases hout1 j hj with h0 | hP0
            · cases h0
            · exact hP0
        · exact Or.inr hP
      · intro bb hbb i hi c tin tout hie hcond
        rcases List.mem_cons.mp hbb with he | hm
        · subst he
          obtain ⟨hmem, hgex⟩ := hcall1 i hi c tin tout hie hcond
          constructor
          · refine ⟨{ bb with instrs := (bb.instrs.foldl efoStepI (s, [])).2 }, ?_, hmem⟩
            exact efoFoldBlocks_acc rest _ _ _ (List.mem_append_right _ (by simp))
          · obtain ⟨g, hgm, hgn, hgc⟩ := hgex
            obtain ⟨extF, extG, hF, _, _, _⟩ := efoFoldBlocks_mod rest _ _
            exact ⟨g, by rw [hF]; exact List.mem_append_left _ hgm, hgn, hgc⟩
        · exact hcall2 bb hm i hi c tin tout hie hcond

theorem mem_insertBeforeLast_left (news l : List Instr) (j : Instr) (hj : j ∈ l) :
    j ∈ insertBeforeLast news l := by
  unfold insertBeforeLast
  have hj2 : j ∈ l.take (l.length - 1) ++ l.drop (l.length - 1) := by
    rw [List.take_append_drop]
    exact hj
  rcases List.mem_append.mp hj2 with h | h
  · exact List.mem_append_left _ (List.mem_append_left _ h)
  · exact List.mem_append_right _ h

theorem mem_insertBeforeLast_news (news l : List Instr) (j : Instr) (hj : j ∈ news) :
    j ∈ insertBeforeLast news l := by
  unfold insertBeforeLast
  exact List.mem_append_left _ (List.mem_append_right _ hj)

theorem mem_insertBeforeLast (news l : List Instr) (j : Instr)
    (hj : j ∈ insertBeforeLast news l) : j ∈ l ∨ j ∈ news := by
  unfold insertBeforeLast at hj
  rcases List.mem_append.mp hj with h | h
  · rcases List.mem_append.mp h with h1 | h2
    · exact Or.inl (List.mem_of_mem_take h1)
    · exact Or.inr h2
  · exact Or.inl (List.mem_of_mem_drop h)

theorem efoScan_eq (m : Module) (k : Nat) (blocks : List BB) :
    efoScan m k blocks = blocks.foldl efoStepB (⟨m, k, []⟩, []) := rfl

theorem extractFloat_eq (m : Module) (fname : String) (k : Nat) (f : Func)
    (hf : funcNamed m fname = some f) :
    extractFloatOperations m fname k
      = ({ (efoScan m k f.blocks).1.m with
            funcs := (updateFuncs (efoScan m k f.blocks).1.m.funcs fname
              (fun g => { g with blocks := efoBlocks2 (efoScan m k f.blocks) })) },
         (efoScan m k f.blocks).1.k) := by
  unfold extractFloatOperations
  rw [hf]

/-- Claim C9 (float-conversion extraction): in the function scanned by
`extractFloatOperations`, every int-float conversion (and `fptrunc` on
PowerPC) is removed — no such conversion instruction remains — and for
each one a call on the same operand to the converter named
opcode.inTy.outTy appears in its block; the module then holds a
function of that name which, when no function of that name pre-existed,
is exactly the synthesized converter whose body is the single
conversion followed by a return; converters are memoized, so
name-uniqueness of the module's functions is preserved (a converter is
created at most once).  Conversion types are assumed first-class
scalars, on which converter names are injective. -/
theorem float_conversions_extracted_C9 (m : Module) (fname : String) (k : Nat) (f : Func)
    (hf : funcNamed m fname = some f)
    (hsc : ∀ b ∈ f.blocks, ∀ i ∈ b.instrs, scalarConvB i = true) :
    ((m.funcs.map (·.name)).Nodup →
        (((extractFloatOperations m fname k).1.funcs).map (·.name)).Nodup)
    ∧ ∀ f', funcNamed (extractFloatOperations m fname k).1 fname = some f' →
        (∀ j ∈ instrsOfF f', ∀ c tin tout, j.op = Op.conv c tin tout →
            c = ConvOp.fptrunc ∧ getPlatform m ≠ Platform.PowerPC)
        ∧ (∀ b ∈ f.blocks, ∀ i ∈ b.instrs, ∀ c tin tout, i.op = Op.conv c tin tout →
            (¬c = ConvOp.fptrunc ∨ getPlatform m = Platform.PowerPC) →
            ((⟨i.iid, Op.call, [i.operands.getD 0 (Opnd.reg 0),
                Opnd.c (Const.gv (convName c tin tout))], i.res⟩ : Instr) ∈ instrsOfF f'
             ∧ (fname ≠ convName c tin tout →
                 ∃ g ∈ (extractFloatOperations m fname k).1.funcs,
                   g.name = convName c tin tout
                   ∧ (funcNamed m (convName c tin tout) = none →
                       g = converterFunc c tin tout)))) := by
  have heq := extractFloat_eq m fname k f hf
  have hg0 : EfoGood m ⟨m, k, []⟩ := ⟨rfl, ⟨[], by simp, by simp⟩, id⟩
  have hp0 : PhiInv (⟨m, k, []⟩ : EfoState) := by
    intro p hp
    cases hp
  obtain ⟨hgF, hpF, houtF, hcallF⟩ := efoFoldBlocks_good m f.blocks ⟨m, k, []⟩ [] hg0 hp0 hsc
  rw [← efoScan_eq m k f.blocks] at hgF hpF houtF hcallF
  obtain ⟨htF, hnewF, hndF⟩ := hgF
  obtain ⟨ext, hfuncsF, hextF⟩ := hnewF
  have hfind : (efoScan m k f.blocks).1.m.funcs.find? (fun g => g.name = fname) = some f := by
    rw [show (efoScan m k f.blocks).1.m.funcs = m.funcs ++ ext from hfuncsF]
    rw [List.find?_append]
    have hx : m.funcs.find? (fun g => g.name = fname) = some f := hf
    rw [hx]
    rfl
  have hfname : f.name = fname := by
    simpa using List.find?_some (show m.funcs.find? (fun g => g.name = fname) = some f from hf)
  have hM : funcNamed (extractFloatOperations m fname k).1 fname
      = some { f with blocks := efoBlocks2 (efoScan m k f.blocks) } := by
    rw [heq]
    show (updateFuncs (efoScan m k f.blocks).1.m.funcs fname
        (fun g => { g with blocks := efoBlocks2 (efoScan m k f.blocks) })).find?
        (fun g => g.name = fname) = _
    rw [find?_updateFuncs ((efoScan m k f.blocks).1.m.funcs) fname
        (fun g => { g with blocks := efoBlocks2 (efoScan m k f.blocks) })
        (fun g => rfl) fname, hfind]
    simp [hfname]
  constructor
  · intro hnodup
    rw [heq]
    show ((updateFuncs (efoScan m k f.blocks).1.m.funcs fname _).map (·.name)).Nodup
    rw [updateFuncs_names ((efoScan m k f.blocks).1.m.funcs) fname
        (fun g => { g with blocks := efoBlocks2 (efoScan m k f.blocks) }) (fun g => rfl)]
    exact hndF hnodup
  · intro f' hf'
    rw [hM] at hf'
    have hfe := Option.some.inj hf'
    subst hfe
    constructor
    · intro j hj c tin tout hje
      unfold instrsOfF at hj
      obtain ⟨li, hli, hjli⟩ := List.mem_flatten.mp hj
      obtain ⟨b2, hb2, hb2e⟩ := List.mem_map.mp hli
      have hb2' : b2 ∈ efoBlocks2 (efoScan m k f.blocks) := hb2
      unfold efoBlocks2 at hb2'
      obtain ⟨b', hb', hbe⟩ := List.mem_map.mp hb2'
      rw [← hbe] at hb2e
      rw [← hb2e] at hjli
      rcases mem_insertBeforeLast _ _ j hjli with hjb | hjnews
      · rcases houtF b' hb' with h0 | hP
        · cases h0
        · exact hP j hjb c tin tout hje
      · obtain ⟨p, hpmem, hpe⟩ := List.mem_map.mp hjnews
        obtain ⟨t, hpt⟩ := hpF p (List.mem_of_mem_filter hpmem)
        rw [hpe] at hpt
        rw [hje] at hpt
        cases hpt
    · intro b hb i hi c tin tout hie hcond
      obtain ⟨⟨b', hb', hcallmem⟩, hgex⟩ := hcallF b hb i hi c tin tout hie hcond
      constructor
      · unfold instrsOfF
        refine List.mem_flatten.mpr ⟨insertBeforeLast
            (((efoScan m k f.blocks).1.phiRecs.filter (fun p => p.1 = b'.bbid)).map (·.2))
            b'.instrs, ?_, mem_insertBeforeLast_left _ _ _ hcallmem⟩
        show _ ∈ (efoBlocks2 (efoScan m k f.blocks)).map (·.instrs)
        unfold efoBlocks2
        rw [List.map_map]
        exact List.mem_map.mpr ⟨b', hb', rfl⟩
      · intro hnefn
        obtain ⟨g, hgm, hgn, hgc⟩ := hgex
        refine ⟨g, ?_, hgn, hgc⟩
        rw [heq]
        show g ∈ updateFuncs (efoScan m k f.blocks).1.m.funcs fname _
        refine mem_updateFuncs_ne _ _ _ g hgm ?_
        rw [hgn]
        exact fun hx => hnefn hx.symm

/-- Concrete function exercising C9: one `sitofp i32 → double`. -/
def rcC9F : Func :=
  ⟨"q", .fn1 .dbl (.int 32), .external, false, [], none,
   [⟨0, [⟨1, .conv .sitofp (.int 32) .dbl, [.reg 0], some 2⟩,
         ⟨2, .ret, [.reg 2], none⟩]⟩]⟩

/-- Concrete module exercising C9. -/
def rcC9M : Module :=
  { triple := "x86_64-unknown-linux-gnu", ptrBytes := 8, funcs := [rcC9F], gvars := [] }

theorem float_conversions_extracted_C9_witness :
    ((⟨1, Op.call, [Opnd.reg 0, Opnd.c (Const.gv (convName ConvOp.sitofp (Ty.int 32) Ty.dbl))],
        some 2⟩ : Instr)
      ∈ instrsOfF (⟨"q", .fn1 .dbl (.int 32), .external, false, [], none,
          [⟨0, [⟨1, Op.call, [Opnd.reg 0, Opnd.c (Const.gv "sitofp.i32.double")], some 2⟩,
                ⟨2, Op.ret, [Opnd.reg 2], none⟩]⟩]⟩ : Func))
    ∧ ∃ g ∈ (extractFloatOperations rcC9M "q" 7).1.funcs,
        g.name = convName ConvOp.sitofp (Ty.int 32) Ty.dbl
        ∧ (funcNamed rcC9M (convName ConvOp.sitofp (Ty.int 32) Ty.dbl) = none →
            g = converterFunc ConvOp.sitofp (Ty.int 32) Ty.dbl) := by
  have h := float_conversions_extracted_C9 rcC9M "q" 7 rcC9F (by decide) (by decide)
  have h2 := h.2 (⟨"q", .fn1 .dbl (.int 32), .external, false, [], none,
      [⟨0, [⟨1, Op.call, [Opnd.reg 0, Opnd.c (Const.gv "sitofp.i32.double")], some 2⟩,
            ⟨2, Op.ret, [Opnd.reg 2], none⟩]⟩]⟩ : Func) (by decide)
  have h3 := h2.2 ⟨0, [⟨1, .conv .sitofp (.int 32) .dbl, [.reg 0], some 2⟩,
      ⟨2, .ret, [.reg 2], none⟩]⟩ (by decide)
    ⟨1, .conv .sitofp (.int 32) .dbl, [.reg 0], some 2⟩ (by decide)
    ConvOp.sitofp (Ty.int 32) Ty.dbl rfl (Or.inl (by decide))
  exact ⟨h3.1, h3.2 (by decide)⟩

/-! ## Stack randomization: `padLoop` equals the structural
characterization `expandCalls` -/

theorem insertBeforeIid_hit (tgt : Nat) (news : List Instr) (i : Instr) (l : List Instr)
    (h : i.iid = tgt) : insertBeforeIid tgt news (i :: l) = news ++ i :: l := by
  show (if i.iid = tgt then news ++ i :: l else i :: insertBeforeIid tgt news l) = _
  rw [if_pos h]

theorem insertBeforeIid_cons_skip (tgt : Nat) (news : List Instr) (i : Instr) (l : List Instr)
    (h : i.iid ≠ tgt) :
    insertBeforeIid tgt news (i :: l) = i :: insertBeforeIid tgt news l := by
  show (if i.iid = tgt then news ++ i :: l else i :: insertBeforeIid tgt news l) = _
  rw [if_neg h]

theorem insertBeforeIid_append_skip (tgt : Nat) (news : List Instr) :
    ∀ (pre l : List Instr), (∀ x ∈ pre, x.iid ≠ tgt) →
      insertBeforeIid tgt news (pre ++ l) = pre ++ insertBeforeIid tgt news l := by
  intro pre
  induction pre with
  | nil => intro l _; rfl
  | cons x xs ih =>
      intro l h
      show insertBeforeIid tgt news (x :: (xs ++ l)) = x :: (xs ++ insertBeforeIid tgt news l)
      rw [insertBeforeIid_cons_skip tgt news x (xs ++ l) (h x (by simp))]
      rw [ih l (fun y hy => h y (by simp [hy]))]

theorem padCallsite_append_skip (m2 : Module) (pad : String) (pre l : List Instr)
    (cn : Nat × Nat) (k : Nat)
    (h1 : ∀ x ∈ pre, x.iid ≠ cn.1) (h2 : ∀ x ∈ pre, x.iid ≠ cn.2) :
    padCallsite m2 pad (pre ++ l) cn k = pre ++ padCallsite m2 pad l cn k := by
  unfold padCallsite
  rw [insertBeforeIid_append_skip cn.1 (preSeq m2 pad k) pre l h1]
  rw [insertBeforeIid_append_skip cn.2 [postRestore k] pre _ h2]

theorem padLoop_append_skip (m2 : Module) (pad : String) :
    ∀ (pairs : List (Nat × Nat)) (pre l : List Instr) (k : Nat),
      (∀ x ∈ pre, ∀ cn ∈ pairs, x.iid ≠ cn.1 ∧ x.iid ≠ cn.2) →
      padLoop m2 pad pairs (pre ++ l) k
        = (pre ++ (padLoop m2 pad pairs l k).1, (padLoop m2 pad pairs l k).2) := by
  intro pairs
  induction pairs with
  | nil => intro pre l k _; rfl
  | cons cn rest ih =>
      intro pre l k h
      show padLoop m2 pad rest (padCallsite m2 pad (pre ++ l) cn k) (k + 9) = _
      rw [padCallsite_append_skip m2 pad pre l cn k
          (fun x hx => (h x hx cn (by simp)).1) (fun x hx => (h x hx cn (by simp)).2)]
      rw [ih pre _ (k + 9) (fun x hx cn' hcn' => h x hx cn' (by simp [hcn']))]
      rfl

theorem callsWithNext_mem : ∀ (l : List Instr) (cn : Nat × Nat), cn ∈ callsWithNext l →
    cn.1 ∈ l.map (·.iid) ∧ cn.2 ∈ l.map (·.iid) := by
  intro l
  induction l with
  | nil => intro cn hcn; cases hcn
  | cons i rest ih =>
      intro cn hcn
      cases rest with
      | nil => cases hcn
      | cons j rest2 =>
          have hcn2 : cn ∈ (if i.op = Op.call then [(i.iid, j.iid)] else [])
              ++ callsWithNext (j :: rest2) := hcn
          rcases List.mem_append.mp hcn2 with h | h
          · by_cases hic : i.op = Op.call
            · rw [if_pos hic] at h
              have he : cn = (i.iid, j.iid) := by simpa using h
              rw [he]
              exact ⟨by simp, by simp⟩
            · rw [if_neg hic] at h
              cases h
          · obtain ⟨h1, h2⟩ := ih cn h
            exact ⟨List.mem_cons_of_mem _ h1, List.mem_cons_of_mem _ h2⟩

theorem preSeq_iid_ge (m2 : Module) (pad : String) (k : Nat) :
    ∀ x ∈ preSeq m2 pad k, k ≤ x.iid := by
  intro x hx
  unfold preSeq at hx
  fin_cases hx <;> simp

theorem expandCalls_cons_call (m2 : Module) (pad : String) (i : Instr) (rest : List Instr)
    (k : Nat) (hc : i.op = Op.call) :
    expandCalls m2 pad (i :: rest) k
      = (preSeq m2 pad k ++ i :: postRestore k :: (expandCalls m2 pad rest (k + 9)).1,
         (expandCalls m2 pad rest (k + 9)).2) := by
  simp only [expandCalls]
  rw [if_pos hc]

theorem expandCalls_cons_other (m2 : Module) (pad : String) (i : Instr) (rest : List Instr)
    (k : Nat) (hc : ¬ i.op = Op.call) :
    expandCalls m2 pad (i :: rest) k
      = (i :: (expandCalls m2 pad rest k).1, (expandCalls m2 pad rest k).2) := by
  simp only [expandCalls]
  rw [if_neg hc]

theorem expandCalls_k_le (m2 : Module) (pad : String) :
    ∀ (l : List Instr) (k : Nat), k ≤ (expandCalls m2 pad l k).2 := by
  intro l
  induction l with
  | nil => intro k; exact le_rfl
  | cons i rest ih =>
      intro k
      by_cases hc : i.op = Op.call
      · rw [expandCalls_cons_call m2 pad i rest k hc]
        exact le_trans (by omega) (ih (k + 9))
      · rw [expandCalls_cons_other m2 pad i rest k hc]
        exact ih k

theorem padLoop_expand (m2 : Module) (pad : String) :
    ∀ (l : List Instr) (k : Nat),
      ((l.map (·.iid)).Nodup) →
      (∀ x ∈ l, x.iid < k) →
      (∀ i, l.getLast? = some i → i.op ≠ Op.call) →
      padLoop m2 pad (callsWithNext l) l k = expandCalls m2 pad l k := by
  intro l
  induction l with
  | nil => intro k _ _ _; rfl
  | cons i rest ih =>
      intro k hnd hb hlast
      cases rest with
      | nil =>
          have hic : ¬ i.op = Op.call := hlast i rfl
          rw [show callsWithNext [i] = [] from rfl]
          rw [expandCalls_cons_other m2 pad i [] k hic]
          rfl
      | cons j rest2 =>
          have hnd' := List.nodup_cons.mp
            (show (i.iid :: (j :: rest2).map (·.iid)).Nodup from hnd)
          have hbt : ∀ x ∈ j :: rest2, x.iid < k := fun x hx => hb x (by simp [hx])
          have hlt : ∀ i', (j :: rest2).getLast? = some i' → i'.op ≠ Op.call := by
            intro i' hi'
            exact hlast i' (by rw [List.getLast?_cons_cons]; exact hi')
          have hcomp : ∀ cn ∈ callsWithNext (j :: rest2),
              cn.1 < k ∧ cn.2 < k ∧ cn.1 ≠ i.iid ∧ cn.2 ≠ i.iid := by
            intro cn hcn
            obtain ⟨h1, h2⟩ := callsWithNext_mem (j :: rest2) cn hcn
            obtain ⟨y1, hy1, hy1e⟩ := List.mem_map.mp h1
            obtain ⟨y2, hy2, hy2e⟩ := List.mem_map.mp h2
            refine ⟨hy1e ▸ hbt y1 hy1, hy2e ▸ hbt y2 hy2, ?_, ?_⟩
            · intro he
              exact hnd'.1 (he ▸ h1)
            · intro he
              exact hnd'.1 (he ▸ h2)
          by_cases hic : i.op = Op.call
          · have hcwn : callsWithNext (i :: j :: rest2)
                = (i.iid, j.iid) :: callsWithNext (j :: rest2) := by
              show ((if i.op = Op.call then [(i.iid, j.iid)] else [])
                  ++ callsWithNext (j :: rest2)) = _
              rw [if_pos hic]
              rfl
            rw [hcwn]
            rw [show padLoop m2 pad ((i.iid, j.iid) :: callsWithNext (j :: rest2))
                  (i :: j :: rest2) k
                = padLoop m2 pad (callsWithNext (j :: rest2))
                    (padCallsite m2 pad (i :: j :: rest2) (i.iid, j.iid) k) (k + 9) from rfl]
            have hij : i.iid ≠ j.iid := by
              intro he
              exact hnd'.1 (he ▸ (by simp : j.iid ∈ (j :: rest2).map (·.iid)))
            have hpads : padCallsite m2 pad (i :: j :: rest2) (i.iid, j.iid) k
                = preSeq m2 pad k ++ i :: postRestore k :: j :: rest2 := by
              unfold padCallsite
              rw [insertBeforeIid_hit i.iid (preSeq m2 pad k) i (j :: rest2) rfl]
              rw [insertBeforeIid_append_skip j.iid [postRestore k] (preSeq m2 pad k)
                  (i :: j :: rest2) (fun x hx => by
                    have := preSeq_iid_ge m2 pad k x hx
                    have := hb j (by simp)
                    omega)]
              rw [insertBeforeIid_cons_skip j.iid [postRestore k] i (j :: rest2) hij]
              rw [insertBeforeIid_hit j.iid [postRestore k] j rest2 rfl]
              rfl
            rw [hpads]
            rw [show preSeq m2 pad k ++ i :: postRestore k :: j :: rest2
                = (preSeq m2 pad k ++ [i, postRestore k]) ++ (j :: rest2) by simp]
            rw [padLoop_append_skip m2 pad (callsWithNext (j :: rest2))
                (preSeq m2 pad k ++ [i, postRestore k]) (j :: rest2) (k + 9)
                (fun x hx cn hcn => by
                  obtain ⟨hc1, hc2, hc3, hc4⟩ := hcomp cn hcn
                  rcases List.mem_append.mp hx with hxa | hxb
                  · have := preSeq_iid_ge m2 pad k x hxa
                    constructor <;> omega
                  · have hxe : x = i ∨ x = postRestore k := by simpa using hxb
                    rcases hxe with he | he
                    · rw [he]
                      exact ⟨fun hh => hc3 hh.symm, fun hh => hc4 hh.symm⟩
                    · rw [he]
                      exact ⟨by show k + 8 ≠ cn.1; omega, by show k + 8 ≠ cn.2; omega⟩)]
            rw [ih (k + 9) hnd'.2 (fun x hx => by have := hbt x hx; omega) hlt]
            rw [expandCalls_cons_call m2 pad i (j :: rest2) k hic]
            simp [List.append_assoc]
          · have hcwn : callsWithNext (i :: j :: rest2) = callsWithNext (j :: rest2) := by
              show ((if i.op = Op.call then [(i.iid, j.iid)] else [])
                  ++ callsWithNext (j :: rest2)) = _
              rw [if_neg hic]
              rfl
            rw [hcwn]
            have hskip : padLoop m2 pad (callsWithNext (j :: rest2)) (i :: j :: rest2) k
                = (i :: (padLoop m2 pad (callsWithNext (j :: rest2)) (j :: rest2) k).1,
                   (padLoop m2 pad (callsWithNext (j :: rest2)) (j :: rest2) k).2) := by
              have hs := padLoop_append_skip m2 pad (callsWithNext (j :: rest2)) [i]
                (j :: rest2) k
                (fun x hx cn hcn => by
                  obtain ⟨hc1, hc2, hc3, hc4⟩ := hcomp cn hcn
                  have he : x = i := by simpa using hx
                  rw [he]
                  exact ⟨fun hh => hc3 hh.symm, fun hh => hc4 hh.symm⟩)
              simpa using hs
            rw [hskip]
            rw [ih k hnd'.2 hbt hlt]
            rw [expandCalls_cons_other m2 pad i (j :: rest2) k hic]

theorem rsFold_expand (m2 : Module) (pad : String) (blocks : List BB) :
    ∀ (accb : List BB) (k : Nat),
      (∀ b ∈ blocks, ((b.instrs.map (·.iid)).Nodup)) →
      (∀ b ∈ blocks, ∀ x ∈ b.instrs, x.iid < k) →
      (∀ b ∈ blocks, ∀ i, b.instrs.getLast? = some i → i.op ≠ Op.call) →
      blocks.foldl (rsStepB m2 pad) (accb, k)
        = (accb ++ (expandBlocks m2 pad blocks k).1, (expandBlocks m2 pad blocks k).2) := by
  induction blocks with
  | nil =>
      intro accb k _ _ _
      simp [expandBlocks]
  | cons b rest ih =>
      intro accb k h1 h2 h3
      rw [List.foldl_cons]
      rw [show rsStepB m2 pad (accb, k) b
          = (accb ++ [{ b with
              instrs := (padLoop m2 pad (callsWithNext b.instrs) b.instrs k).1 }],
             (padLoop m2 pad (callsWithNext b.instrs) b.instrs k).2) from rfl]
      rw [padLoop_expand m2 pad b.instrs k (h1 b (by simp)) (h2 b (by simp)) (h3 b (by simp))]
      refine (ih (accb ++ [{ b with instrs := (expandCalls m2 pad b.instrs k).1 }])
          (expandCalls m2 pad b.instrs k).2
          (fun b' hb' => h1 b' (by simp [hb']))
          (fun b' hb' x hx =>
            lt_of_lt_of_le (h2 b' (by simp [hb']) x hx) (expandCalls_k_le m2 pad b.instrs k))
          (fun b' hb' => h3 b' (by simp [hb']))).trans ?_
      simp only [expandBlocks]
      simp

theorem randomizeStack_some (m : Module) (fname padName : String) (k : Nat) (f : Func)
    (hf2 : funcNamed (rsM2 m) fname = some f) :
    randomizeStack m fname padName k
      = ({ rsM2 m with funcs := (updateFuncs (rsM2 m).funcs fname
            (fun g => { g with
              blocks := (f.blocks.foldl (rsStepB (rsM2 m) padName) ([], k)).1 })) },
         (f.blocks.foldl (rsStepB (rsM2 m) padName) ([], k)).2) := by
  unfold randomizeStack
  rw [hf2]

/-- Claim C5 (call-site stack padding): every block of the
stack-randomized function equals its `expandCalls` expansion, in which
each call is immediately preceded by exactly the eight-instruction
sequence — one load of the pad byte, its zero-extension to pointer
width, one multiplication by 16, one `llvm.stacksave` call, the
pointer-to-integer cast, the subtraction of the scaled pad, the cast
back, and one `llvm.stackrestore` of the adjusted pointer — and
immediately followed by exactly one `llvm.stackrestore` of the
originally saved pointer; instruction identities are assumed distinct
and below the fresh counter, and a block never ends in a call (calls
are not terminators), so every call has a next instruction. -/
theorem stack_pad_callsites_C5 (m : Module) (fname padName : String) (k : Nat) (f : Func)
    (hf : funcNamed (rsM2 m) fname = some f)
    (hnd : ∀ b ∈ f.blocks, ((b.instrs.map (·.iid)).Nodup))
    (hb : ∀ b ∈ f.blocks, ∀ x ∈ b.instrs, x.iid < k)
    (hterm : ∀ b ∈ f.blocks, ∀ i, b.instrs.getLast? = some i → i.op ≠ Op.call) :
    funcNamed (randomizeStack m fname padName k).1 fname
      = some { f with blocks := (expandBlocks (rsM2 m) padName f.blocks k).1 }
    ∧ (randomizeStack m fname padName k).2
      = (expandBlocks (rsM2 m) padName f.blocks k).2 := by
  have heq := randomizeStack_some m fname padName k f hf
  have hfold := rsFold_expand (rsM2 m) padName f.blocks [] k hnd hb hterm
  have hfname : f.name = fname := by
    simpa using List.find?_some
      (show (rsM2 m).funcs.find? (fun g => g.name = fname) = some f from hf)
  constructor
  · rw [heq]
    show (updateFuncs (rsM2 m).funcs fname
        (fun g => { g with
          blocks := (f.blocks.foldl (rsStepB (rsM2 m) padName) ([], k)).1 })).find?
        (fun g => g.name = fname) = _
    rw [find?_updateFuncs ((rsM2 m).funcs) fname
        (fun g => { g with
          blocks := (f.blocks.foldl (rsStepB (rsM2 m) padName) ([], k)).1 })
        (fun g => rfl) fname]
    rw [show (rsM2 m).funcs.find? (fun g => g.name = fname) = some f from hf]
    rw [hfold]
    simp [hfname]
  · rw [heq]
    show (f.blocks.foldl (rsStepB (rsM2 m) padName) ([], k)).2 = _
    rw [hfold]

/-- Concrete function exercising C5: one call site followed by a
return. -/
def rsC5F : Func :=
  ⟨"w", .fn0 .void, .external, false, [], none,
   [⟨0, [⟨1, .call, [.c (.gv "h")], none⟩,
         ⟨2, .ret, [], none⟩]⟩]⟩

/-- Concrete module exercising C5. -/
def rsC5M : Module :=
  { triple := "x86_64-unknown-linux-gnu", ptrBytes := 8,
    funcs := [rsC5F, ⟨"h", .fn0 .void, .external, false, [], none, []⟩], gvars := [] }

theorem stack_pad_callsites_C5_witness :
    funcNamed (randomizeStack rsC5M "w" "w.stack_pad" 50).1 "w"
      = some { rsC5F with blocks := (expandBlocks (rsM2 rsC5M) "w.stack_pad" rsC5F.blocks 50).1 } := by
  exact (stack_pad_callsites_C5 rsC5M "w" "w.stack_pad" 50 rsC5F (by decide) (by decide)
    (by decide) (by decide)).1

/-! ## The reference map: order and contents -/

/-- First-occurrence deduplication keeping discovery order — the order
the specification ascribes to the relocation table. -/
def firstDedup (l : List Const) : List Const :=
  l.foldl (fun acc c => if acc.contains c then acc else acc ++ [c]) []

theorem firstDedup_aux_mem (l : List Const) :
    ∀ (acc : List Const) (x : Const),
      x ∈ l.foldl (fun acc c => if acc.contains c then acc else acc ++ [c]) acc
        ↔ x ∈ acc ∨ x ∈ l := by
  induction l with
  | nil => intro acc x; simp
  | cons c rest ih =>
      intro acc x
      rw [List.foldl_cons]
      by_cases hc : acc.contains c = true
      · rw [if_pos hc]
        rw [ih acc x]
        constructor
        · rintro (h | h)
          · exact Or.inl h
          · exact Or.inr (by simp [h])
        · rintro (h | h)
          · exact Or.inl h
          · rcases List.mem_cons.mp h with he | hm
            · exact Or.inl (he ▸ (by simpa using hc))
            · exact Or.inr hm
      · rw [if_neg hc]
        rw [ih (acc ++ [c]) x]
        constructor
        · rintro (h | h)
          · rcases List.mem_append.mp h with h1 | h2
            · exact Or.inl h1
            · exact Or.inr (by simpa using Or.inl (by simpa using h2))
          · exact Or.inr (by simp [h])
        · rintro (h | h)
          · exact Or.inl (List.mem_append_left _ h)
          · rcases List.mem_cons.mp h with he | hm
            · exact Or.inl (List.mem_append_right _ (by simp [he]))
            · exact Or.inr hm

theorem mem_firstDedup (l : List Const) (x : Const) : x ∈ firstDedup l ↔ x ∈ l := by
  unfold firstDedup
  rw [firstDedup_aux_mem l [] x]
  simp

theorem mapInsert_all (addr : Const → Nat) :
    ∀ (acc : RefMap) (c : Const) (u : Nat × Nat),
      (∀ e ∈ acc, addr c = addr e.1 → c = e.1) →
      List.Pairwise (fun x y : Const × List (Nat × Nat) => addr x.1 < addr y.1) acc →
      (List.Pairwise (fun x y : Const × List (Nat × Nat) => addr x.1 < addr y.1)
          (mapInsert addr acc c u)
       ∧ (∀ x, x ∈ (mapInsert addr acc c u).map (·.1) ↔ x = c ∨ x ∈ acc.map (·.1))
       ∧ (∀ c' u', (∃ us, (c', us) ∈ mapInsert addr acc c u ∧ u' ∈ us)
           ↔ ((c' = c ∧ u' = u) ∨ ∃ us, (c', us) ∈ acc ∧ u' ∈ us))) := by
  intro acc
  induction acc with
  | nil =>
      intro c u _ _
      refine ⟨by simp [mapInsert], by simp [mapInsert], ?_⟩
      intro c' u'
      simp only [mapInsert, List.mem_singleton, Prod.mk.injEq, List.not_mem_nil,
        false_and, exists_const, or_false]
      constructor
      · rintro ⟨us, ⟨h1, h2⟩, hu⟩
        subst h2
        exact ⟨h1, by simpa using hu⟩
      · rintro ⟨h1, h2⟩
        exact ⟨[u], ⟨h1, rfl⟩, by simp [h2]⟩
  | cons e rest ih =>
      intro c u hcc hsort
      obtain ⟨hhead, htail⟩ := List.pairwise_cons.mp hsort
      rcases lt_trichotomy (addr c) (addr e.1) with hlt | heq | hgt
      · have hne : ¬ addr c = addr e.1 := by omega
        have hstep : mapInsert addr (e :: rest) c u = (c, [u]) :: e :: rest := by
          show (if addr c = addr e.1 then _ else if addr c < addr e.1 then _ else _) = _
          rw [if_neg hne, if_pos hlt]
        rw [hstep]
        refine ⟨?_, ?_, ?_⟩
        · refine List.pairwise_cons.mpr ⟨?_, hsort⟩
          intro e' he'
          rcases List.mem_cons.mp he' with h | h
          · rw [h]
            exact hlt
          · exact lt_trans hlt (hhead e' h)
        · intro x
          simp
        · intro c' u'
          constructor
          · rintro ⟨us, hm, hu⟩
            rcases List.mem_cons.mp hm with h | h
            · have h1 : c' = c := congrArg Prod.fst h
              have h2 : us = [u] := congrArg Prod.snd h
              rw [h2] at hu
              exact Or.inl ⟨h1, by simpa using hu⟩
            · exact Or.inr ⟨us, h, hu⟩
          · rintro (⟨he1, he2⟩ | ⟨us, hm, hu⟩)
            · exact ⟨[u], by rw [he1]; simp, by rw [he2]; simp⟩
            · exact ⟨us, List.mem_cons_of_mem _ hm, hu⟩
      · have hce : c = e.1 := hcc e (by simp) heq
        have hstep : mapInsert addr (e :: rest) c u = (e.1, e.2 ++ [u]) :: rest := by
          show (if addr c = addr e.1 then _ else _) = _
          rw [if_pos heq]
        rw [hstep]
        refine ⟨?_, ?_, ?_⟩
        · refine List.pairwise_cons.mpr ⟨?_, htail⟩
          intro e' he'
          exact hhead e' he'
        · intro x
          constructor
          · intro hx
            rcases (by simpa using hx : x = e.1 ∨ x ∈ rest.map (·.1)) with h | h
            · exact Or.inr (by simp [h])
            · exact Or.inr (by
                simp only [List.map_cons, List.mem_cons]
                exact Or.inr h)
          · rintro (h | h)
            · rw [h, hce]
              simp
            · rcases (by simpa using h : x = e.1 ∨ x ∈ rest.map (·.1)) with h2 | h2
              · simp [h2]
              · simp only [List.map_cons, List.mem_cons]
                exact Or.inr h2
        · intro c' u'
          constructor
          · rintro ⟨us, hm, hu⟩
            rcases List.mem_cons.mp hm with h | h
            · have h1 : c' = e.1 := congrArg Prod.fst h
              have h2 : us = e.2 ++ [u] := congrArg Prod.snd h
              rw [h2] at hu
              rcases List.mem_append.mp hu with h3 | h3
              · refine Or.inr ⟨e.2, ?_, h3⟩
                rw [h1]
                exact List.mem_cons_self _ _
              · exact Or.inl ⟨by rw [h1, hce], by simpa using h3⟩
            · exact Or.inr ⟨us, List.mem_cons_of_mem _ h, hu⟩
          · rintro (⟨he1, he2⟩ | ⟨us, hm, hu⟩)
            · refine ⟨e.2 ++ [u], ?_, by rw [he2]; simp⟩
              rw [he1, hce]
              exact List.mem_cons_self _ _
            · rcases List.mem_cons.mp hm with h | h
              · have h1 : c' = e.1 := congrArg Prod.fst h
                have h2 : us = e.2 := congrArg Prod.snd h
                refine ⟨e.2 ++ [u], ?_, ?_⟩
                · rw [h1]
                  exact List.mem_cons_self _ _
                · rw [h2] at hu
                  exact List.mem_append_left _ hu
              · exact ⟨us, List.mem_cons_of_mem _ h, hu⟩
      · have hne : ¬ addr c = addr e.1 := by omega
        have hnlt : ¬ addr c < addr e.1 := by omega
        have hstep : mapInsert addr (e :: rest) c u = e :: mapInsert addr rest c u := by
          show (if addr c = addr e.1 then _ else if addr c < addr e.1 then _ else _) = _
          rw [if_neg hne, if_neg hnlt]
        rw [hstep]
        obtain ⟨ihs, ihk, ihu⟩ := ih c u (fun e' he' => hcc e' (List.mem_cons_of_mem _ he')) htail
        refine ⟨?_, ?_, ?_⟩
        · refine List.pairwise_cons.mpr ⟨?_, ihs⟩
          intro e' he'
          have hk := (ihk e'.1).mp (List.mem_map_of_mem (·.1) he')
          rcases hk with h | h
          · rw [h]
            exact hgt
          · obtain ⟨er, her, here⟩ := List.mem_map.mp h
            rw [← here]
            exact hhead er her
        · intro x
          constructor
          · intro hx
            rcases (by simpa using hx : x = e.1 ∨ x ∈ (mapInsert addr rest c u).map (·.1))
                with h | h
            · exact Or.inr (by simp [h])
            · rcases (ihk x).mp h with h2 | h2
              · exact Or.inl h2
              · refine Or.inr ?_
                simp only [List.map_cons, List.mem_cons]
                exact Or.inr h2
          · rintro (h | h)
            · refine (by
                simp only [List.map_cons, List.mem_cons]
                exact Or.inr ((ihk x).mpr (Or.inl h)))
            · rcases (by simpa using h : x = e.1 ∨ x ∈ rest.map (·.1)) with h2 | h2
              · simp [h2]
              · simp only [List.map_cons, List.mem_cons]
                exact Or.inr ((ihk x).mpr (Or.inr h2))
        · intro c' u'
          constructor
          · rintro ⟨us, hm, hu⟩
            rcases List.mem_cons.mp hm with h | h
            · have h1 : c' = e.1 := congrArg Prod.fst h
              have h2 : us = e.2 := congrArg Prod.snd h
              refine Or.inr ⟨e.2, ?_, by rw [← h2]; exact hu⟩
              rw [h1]
              exact List.mem_cons_self _ _
            · rcases (ihu c' u').mp ⟨us, h, hu⟩ with h2 | ⟨us2, hm2, hu2⟩
              · exact Or.inl h2
              · exact Or.inr ⟨us2, List.mem_cons_of_mem _ hm2, hu2⟩
          · rintro (⟨he1, he2⟩ | ⟨us, hm, hu⟩)
            · obtain ⟨us2, hm2, hu2⟩ := (ihu c' u').mpr (Or.inl ⟨he1, he2⟩)
              exact ⟨us2, List.mem_cons_of_mem _ hm2, hu2⟩
            · rcases List.mem_cons.mp hm with h | h
              · exact ⟨us, by rw [h]; exact List.mem_cons_self _ _, hu⟩
              · obtain ⟨us2, hm2, hu2⟩ := (ihu c' u').mpr (Or.inr ⟨us, h, hu⟩)
                exact ⟨us2, List.mem_cons_of_mem _ hm2, hu2⟩

theorem mapFold_all (addr : Const → Nat) (K : List Const)
    (hinj : ∀ c ∈ K, ∀ c' ∈ K, addr c = addr c' → c = c') :
    ∀ (ps : List (Const × Nat × Nat)) (acc : RefMap),
      (∀ p ∈ ps, p.1 ∈ K) →
      (∀ e ∈ acc, e.1 ∈ K) →
      List.Pairwise (fun x y : Const × List (Nat × Nat) => addr x.1 < addr y.1) acc →
      (List.Pairwise (fun x y : Const × List (Nat × Nat) => addr x.1 < addr y.1)
          (ps.foldl (fun acc p => mapInsert addr acc p.1 p.2) acc)
       ∧ (∀ e ∈ ps.foldl (fun acc p => mapInsert addr acc p.1 p.2) acc, e.1 ∈ K)
       ∧ (∀ x, x ∈ (ps.foldl (fun acc p => mapInsert addr acc p.1 p.2) acc).map (·.1)
           ↔ x ∈ ps.map (·.1) ∨ x ∈ acc.map (·.1))
       ∧ (∀ c u,
           (∃ us, (c, us) ∈ ps.foldl (fun acc p => mapInsert addr acc p.1 p.2) acc ∧ u ∈ us)
           ↔ ((c, u) ∈ ps ∨ ∃ us, (c, us) ∈ acc ∧ u ∈ us))) := by
  intro ps
  induction ps with
  | nil =>
      intro acc _ hacc hsort
      exact ⟨hsort, hacc, by simp, by simp⟩
  | cons p rest ih =>
      intro acc hps hacc hsort
      rw [List.foldl_cons]
      obtain ⟨ms, mk, mu⟩ := mapInsert_all addr acc p.1 p.2
        (fun e he => hinj p.1 (hps p (by simp)) e.1 (hacc e he)) hsort
      have hacc2 : ∀ e ∈ mapInsert addr acc p.1 p.2, e.1 ∈ K := by
        intro e he
        rcases (mk e.1).mp (List.mem_map_of_mem (·.1) he) with h | h
        · rw [h]
          exact hps p (by simp)
        · obtain ⟨e2, he2, he2e⟩ := List.mem_map.mp h
          rw [← he2e]
          exact hacc e2 he2
      obtain ⟨fs, fK, fk, fu⟩ := ih (mapInsert addr acc p.1 p.2)
        (fun q hq => hps q (by simp [hq])) hacc2 ms
      refine ⟨fs, fK, ?_, ?_⟩
      · intro x
        rw [fk x]
        constructor
        · rintro (h | h)
          · exact Or.inl (List.mem_cons_of_mem _ h)
          · rcases (mk x).mp h with h2 | h2
            · exact Or.inl (by simp [h2])
            · exact Or.inr h2
        · rintro (h | h)
          · rcases (by simpa using h : x = p.1 ∨ x ∈ rest.map (·.1)) with h2 | h2
            · exact Or.inr ((mk x).mpr (Or.inl h2))
            · exact Or.inl h2
          · exact Or.inr ((mk x).mpr (Or.inr h))
      · intro c u
        rw [fu c u]
        constructor
        · rintro (h | h)
          · exact Or.inl (List.mem_cons_of_mem _ h)
          · rcases (mu c u).mp h with ⟨h1, h2⟩ | ⟨us, hm, hu⟩
            · refine Or.inl ?_
              rw [h1, h2]
              exact List.mem_cons_self _ _
            · exact Or.inr ⟨us, hm, hu⟩
        · rintro (h | h)
          · rcases List.mem_cons.mp h with h2 | h2
            · refine Or.inr ((mu c u).mpr (Or.inl ?_))
              exact ⟨congrArg Prod.fst h2, congrArg Prod.snd h2⟩
            · exact Or.inl h2
          · exact Or.inr ((mu c u).mpr (Or.inr h))

theorem recordsOf_of_get (refs : RefMap) (idx : Nat) (c : Const) (us : List (Nat × Nat))
    (h : refs.get? idx = some (c, us)) :
    ∀ u ∈ us, (idx, u.1, u.2) ∈ recordsOf refs := by
  intro u hu
  unfold recordsOf
  refine List.mem_flatMap.mpr ⟨(idx, (c, us)), ?_, ?_⟩
  · refine List.mk_mem_enum_iff_getElem?.mpr ?_
    rw [← List.get?_eq_getElem?]
    exact h
  · exact List.mem_map.mpr ⟨u, hu, rfl⟩

theorem recordsOf_mem (refs : RefMap) : ∀ r ∈ recordsOf refs,
    ∃ c us, refs.get? r.1 = some (c, us) ∧ (r.2.1, r.2.2) ∈ us := by
  intro r hr
  unfold recordsOf at hr
  obtain ⟨p, hp, hr2⟩ := List.mem_flatMap.mp hr
  obtain ⟨u, hu, hue⟩ := List.mem_map.mp hr2
  have hpe := List.mk_mem_enum_iff_getElem?.mp (show (p.1, p.2) ∈ refs.enum from hp)
  have h1 : r.1 = p.1 := by rw [← hue]
  have h2 : r.2.1 = u.1 := by rw [← hue]
  have h3 : r.2.2 = u.2 := by rw [← hue]
  refine ⟨p.2.1, p.2.2, ?_, ?_⟩
  · rw [h1, List.get?_eq_getElem?]
    rw [show refs[p.1]? = some p.2 from hpe]
  · rw [h2, h3]
    exact hu

/-- Claim C2, corrected (relocation-table order): the table's key list
is NOT the discovery-order deduplication the specification states — the
scan accumulates a `std::map` keyed on `Constant*`, which iterates in
increasing pointer order.  Corrected statement: the table's entries are
strictly sorted by the key's address, their key set is exactly the
deduplicated set of discovered constants (keys are distinct), each
discovered use is recorded under its constant, and every use is
rewritten through the slot index that is its constant's position in the
table.  The address map is assumed injective on the discovered
constants, mirroring pointer identity of uniqued `llvm::Constant`s. -/
theorem reloc_table_order_C2 (addr : Const → Nat) (m : Module) (f : Func)
    (haddr : ∀ c ∈ (collectPairs m f).map (·.1), ∀ c' ∈ (collectPairs m f).map (·.1),
        addr c = addr c' → c = c') :
    List.Pairwise (fun x y => addr x < addr y)
        ((findPCRelativeUsesIn addr m f).map (·.1))
    ∧ ((findPCRelativeUsesIn addr m f).map (·.1)).Nodup
    ∧ (∀ c, c ∈ (findPCRelativeUsesIn addr m f).map (·.1)
        ↔ c ∈ firstDedup ((collectPairs m f).map (·.1)))
    ∧ (∀ c u, (∃ us, (c, us) ∈ findPCRelativeUsesIn addr m f ∧ u ∈ us)
        ↔ (c, u) ∈ collectPairs m f)
    ∧ (∀ idx c us, (findPCRelativeUsesIn addr m f).get? idx = some (c, us) →
        ∀ u ∈ us, (idx, u.1, u.2) ∈ recordsOf (findPCRelativeUsesIn addr m f))
    ∧ (∀ r ∈ recordsOf (findPCRelativeUsesIn addr m f),
        ∃ c us, (findPCRelativeUsesIn addr m f).get? r.1 = some (c, us)
          ∧ (r.2.1, r.2.2) ∈ us) := by
  obtain ⟨fs, fK, fk, fu⟩ := mapFold_all addr ((collectPairs m f).map (·.1)) haddr
    (collectPairs m f) []
    (fun p hp => List.mem_map_of_mem (·.1) hp) (fun e he => by cases he) (by simp)
  have hpair : List.Pairwise (fun x y => addr x < addr y)
      ((findPCRelativeUsesIn addr m f).map (·.1)) := by
    unfold findPCRelativeUsesIn
    exact List.Pairwise.map (fun e : Const × List (Nat × Nat) => e.1) (fun a b h => h) fs
  refine ⟨hpair, ?_, ?_, ?_, ?_, ?_⟩
  · exact List.Pairwise.imp (fun {a b} h => fun he => by rw [he] at h; omega) hpair
  · intro c
    rw [mem_firstDedup]
    unfold findPCRelativeUsesIn
    rw [fk c]
    simp
  · intro c u
    unfold findPCRelativeUsesIn
    rw [fu c u]
    simp
  · exact fun idx c us h => recordsOf_of_get _ idx c us h
  · exact recordsOf_mem _

/-- Concrete function exercising C2: `a` is discovered before `b`. -/
def c2F : Func :=
  ⟨"F", .fn0 .void, .external, false, [], none,
   [⟨0, [⟨1, .opaqueOp "use", [.c (.gv "a"), .c (.gv "b")], none⟩,
         ⟨2, .ret, [], none⟩]⟩]⟩

/-- Concrete module exercising C2. -/
def c2M : Module :=
  { triple := "", ptrBytes := 8, funcs := [c2F],
    gvars := [⟨"a", .int 32, false, .external, .scalar (.intC 32 0)⟩,
              ⟨"b", .int 32, false, .external, .scalar (.intC 32 0)⟩] }

/-- An address map giving `b` a lower address than `a`. -/
def c2addr : Const → Nat :=
  fun c => if c = .gv "a" then 10 else if c = .gv "b" then 5 else 0

/-- The specification's sentence is false of the code: with discovery
order `a, b` but `addr b < addr a`, the table's key list is `[b, a]`,
not the discovery-order deduplication `[a, b]`. -/
theorem reloc_table_order_C2_counterexample :
    (findPCRelativeUsesIn c2addr c2M c2F).map (·.1)
      ≠ firstDedup ((collectPairs c2M c2F).map (·.1)) := by
  decide

theorem reloc_table_order_C2_witness :
    List.Pairwise (fun x y => c2addr x < c2addr y)
        ((findPCRelativeUsesIn c2addr c2M c2F).map (·.1))
      ∧ ((findPCRelativeUsesIn c2addr c2M c2F).map (·.1)).Nodup := by
  have h := reloc_table_order_C2 c2addr c2M c2F (by decide)
  exact ⟨h.1, h.2.1⟩

/-! ## Remaining global references after code randomization -/

theorem containsGlobal_congr (m1 m2 : Module)
    (h : ∀ n, (funcNamed m1 n).map (·.intrinsic) = (funcNamed m2 n).map (·.intrinsic)) :
    ∀ c, containsGlobal m1 c = containsGlobal m2 c := by
  intro c
  induction c with
  | gv n =>
      have hn := h n
      unfold containsGlobal
      cases h1 : funcNamed m1 n with
      | none =>
          cases h2 : funcNamed m2 n with
          | none => rfl
          | some g =>
              rw [h1, h2] at hn
              cases hn
      | some g =>
          cases h2 : funcNamed m2 n with
          | none =>
              rw [h1, h2] at hn
              cases hn
          | some g2 =>
              rw [h1, h2] at hn
              have hgi : g.intrinsic = g2.intrinsic := by simpa using hn
              show (!(g.intrinsic || n == "__gxx_personality_v0"))
                  = (!(g2.intrinsic || n == "__gxx_personality_v0"))
              rw [hgi]
  | cast1 _ _ a iha => simp [containsGlobal, iha]
  | gepSlot _ b _ ihb => simp [containsGlobal, ihb]
  | binE _ a b iha ihb => simp [containsGlobal, iha, ihb]
  | intC _ _ => rfl
  | fpC _ _ => rfl
  | nullC _ => rfl
  | sizeOfC _ => rfl

theorem rewriteBlocks_shape (f3 : Func) (records : List (Nat × Nat × Nat))
    (tableTy : Ty) (actualTable : Const) (k1 : Nat) :
    ∀ b' ∈ rewriteBlocks f3 records tableTy actualTable k1,
      ∀ j ∈ b'.instrs,
        (∃ r ∈ records.enum, j = slotLoad tableTy actualTable k1 r.1 r.2.1)
        ∨ (∃ b ∈ f3.blocks, ∃ i ∈ b.instrs, j = rewriteOps records k1 i) := by
  intro b' hb' j hj
  unfold rewriteBlocks at hb'
  obtain ⟨b, hb, hbe⟩ := List.mem_map.mp hb'
  rw [← hbe] at hj
  rcases mem_insertBeforeLast _ _ j hj with h | h
  · obtain ⟨i, hi, hji⟩ := List.mem_flatMap.mp h
    rcases List.mem_append.mp hji with h2 | h2
    · obtain ⟨pe, hpe, hpev⟩ := List.mem_filterMap.mp h2
      by_cases hc : (pe.2.2.1 = i.iid ∧ recPlace f3 pe.2.2.1 pe.2.2.2 = none)
      · rw [if_pos hc] at hpev
        exact Or.inl ⟨pe, hpe, (Option.some.inj hpev).symm⟩
      · rw [if_neg hc] at hpev
        cases hpev
    · have hje : j = rewriteOps records k1 i := by simpa using h2
      exact Or.inr ⟨b, hb, i, hi, hje⟩
  · obtain ⟨pe, hpe, hpev⟩ := List.mem_filterMap.mp h
    by_cases hc : recPlace f3 pe.2.2.1 pe.2.2.2 = some b.bbid
    · rw [if_pos hc] at hpev
      exact Or.inl ⟨pe, hpe, (Option.some.inj hpev).symm⟩
    · rw [if_neg hc] at hpev
      cases hpev

theorem recFind_isSome_of_mem (records : List (Nat × Nat × Nat)) (idx iid j : Nat)
    (hm : (idx, iid, j) ∈ records) : recFind records iid j ≠ none := by
  intro hrf
  unfold recFind at hrf
  cases hfind : records.enum.find? (fun pe => pe.2.2.1 = iid ∧ pe.2.2.2 = j) with
  | some pe => rw [hfind] at hrf; cases hrf
  | none =>
      obtain ⟨q, hq⟩ := List.mem_iff_getElem?.mp hm
      have henum : (q, (idx, iid, j)) ∈ records.enum := List.mk_mem_enum_iff_getElem?.mpr hq
      have := List.find?_eq_none.mp hfind (q, (idx, iid, j)) henum
      simp at this

theorem recFind_some_enum (records : List (Nat × Nat × Nat)) (iid j pos ti : Nat)
    (h : recFind records iid j = some (pos, ti)) :
    (pos, ti, iid, j) ∈ records.enum := by
  unfold recFind at h
  cases hfind : records.enum.find? (fun pe => pe.2.2.1 = iid ∧ pe.2.2.2 = j) with
  | none =>
      rw [hfind] at h
      cases h
  | some pe =>
      rw [hfind] at h
      have hpe : (pe.1, pe.2.1) = (pos, ti) := Option.some.inj h
      have hpred := List.find?_some hfind
      simp at hpred
      have hmem := List.mem_of_find?_eq_some hfind
      have he : pe = (pos, ti, iid, j) := by
        have h1 : pe.1 = pos := congrArg Prod.fst hpe
        have h2 : pe.2.1 = ti := congrArg Prod.snd hpe
        calc pe = (pe.1, pe.2.1, pe.2.2.1, pe.2.2.2) := rfl
          _ = (pos, ti, iid, j) := by rw [h1, h2, hpred.1, hpred.2]
      rw [he] at hmem
      exact hmem

/-- Claim C1, corrected (global references after randomization): the
claim that NO instruction operand's constant closure references a
global after the rewrite is false — each inserted slot load's pointer
operand is a `getelementptr` on the relocation table global (or on the
sentinel function when data is PC-relative), which itself references a
global.  Corrected statement, for the transformed function: (first
conjunct) every operand whose constant closure still references a
global is the slot constant of one of the inserted relocation-table
loads, with a slot index inside the table; (second conjunct) every
originally collected global-referencing use — an operand of the scanned
function whose constant closure references a global — is rewritten at
the same operand position to the register of its corresponding inserted
slot load: the load's result register is exactly that register, its
slot index names the table entry holding the use's constant, and the
load itself is placed in the function (directly before its instruction,
or, for a PHI incoming value, in the named incoming block).  The
address map is assumed injective on the discovered constants and the
collected use slots (instruction id, operand index) pairwise distinct,
mirroring pointer identity of uniqued constants and of `Use`
records. -/
theorem no_globals_remain_C1 (addr : Const → Nat) (m : Module) (fname : String) (k : Nat)
    (f f3 : Func)
    (hf : funcNamed m fname = some f)
    (hf3 : funcNamed (extractFloatOperations (rcPrep m fname) fname k).1 fname = some f3)
    (haddr : ∀ c ∈ (collectPairs (extractFloatOperations (rcPrep m fname) fname k).1 f3).map
          (·.1),
        ∀ c' ∈ (collectPairs (extractFloatOperations (rcPrep m fname) fname k).1 f3).map
          (·.1),
        addr c = addr c' → c = c')
    (huses : ((collectPairs (extractFloatOperations (rcPrep m fname) fname k).1 f3).map
        (·.2)).Nodup)
    (hne : (findPCRelativeUsesIn addr (extractFloatOperations (rcPrep m fname) fname k).1
        f3).isEmpty = false) :
    ∀ f', funcNamed (randomizeCode addr m fname k).m fname = some f' →
      (∀ j ∈ instrsOfF f', ∀ o ∈ j.operands, ∀ cst, o = Opnd.c cst →
        containsGlobal (randomizeCode addr m fname k).m cst = true →
        ∃ ti, ti < (randomizeCode addr m fname k).refs.length
          ∧ cst = slotConst (rcTableTy fname)
              (rcActualTable (extractFloatOperations (rcPrep m fname) fname k).1 fname) ti)
      ∧ (∀ b ∈ f3.blocks, ∀ i ∈ b.instrs, ∀ jdx cst,
          i.operands[jdx]? = some (Opnd.c cst) →
          containsGlobal (extractFloatOperations (rcPrep m fname) fname k).1 cst = true →
          ∃ pos ti,
            recFind (recordsOf (findPCRelativeUsesIn addr
                (extractFloatOperations (rcPrep m fname) fname k).1 f3)) i.iid jdx
              = some (pos, ti)
            ∧ (rewriteOps (recordsOf (findPCRelativeUsesIn addr
                  (extractFloatOperations (rcPrep m fname) fname k).1 f3))
                (extractFloatOperations (rcPrep m fname) fname k).2 i).operands[jdx]?
              = some (Opnd.reg ((extractFloatOperations (rcPrep m fname) fname k).2 + pos))
            ∧ rewriteOps (recordsOf (findPCRelativeUsesIn addr
                  (extractFloatOperations (rcPrep m fname) fname k).1 f3))
                (extractFloatOperations (rcPrep m fname) fname k).2 i ∈ instrsOfF f'
            ∧ ((findPCRelativeUsesIn addr
                  (extractFloatOperations (rcPrep m fname) fname k).1 f3).map
                (·.1))[ti]? = some cst
            ∧ (slotLoad (rcTableTy fname)
                (rcActualTable (extractFloatOperations (rcPrep m fname) fname k).1 fname)
                (extractFloatOperations (rcPrep m fname) fname k).2 pos ti).res
              = some ((extractFloatOperations (rcPrep m fname) fname k).2 + pos)
            ∧ (recPlace f3 i.iid jdx = none →
                slotLoad (rcTableTy fname)
                  (rcActualTable (extractFloatOperations (rcPrep m fname) fname k).1 fname)
                  (extractFloatOperations (rcPrep m fname) fname k).2 pos ti
                  ∈ instrsOfF f')
            ∧ (∀ bb, recPlace f3 i.iid jdx = some bb →
                ∀ b2 ∈ f3.blocks, b2.bbid = bb →
                  slotLoad (rcTableTy fname)
                    (rcActualTable (extractFloatOperations (rcPrep m fname) fname k).1 fname)
                    (extractFloatOperations (rcPrep m fname) fname k).2 pos ti
                    ∈ instrsOfF f')) := by
  have hrc : randomizeCode addr m fname k
      = rcBuild addr (extractFloatOperations (rcPrep m fname) fname k).1 fname
          (extractFloatOperations (rcPrep m fname) fname k).2 := by
    unfold randomizeCode
    rw [hf]
  set M3 := (extractFloatOperations (rcPrep m fname) fname k).1 with hM3
  set K1 := (extractFloatOperations (rcPrep m fname) fname k).2 with hK1
  set refs := findPCRelativeUsesIn addr M3 f3 with hrefs
  have hbuild := rcBuild_some addr M3 fname K1 f3 hf3
  rw [if_neg (by simp [hne])] at hbuild
  rw [hrc, hbuild]
  have hfname : f3.name = fname := by
    simpa using List.find?_some
      (show M3.funcs.find? (fun g => g.name = fname) = some f3 from hf3)
  -- the rewritten function
  have hM : funcNamed (rcM4 M3 fname f3 refs K1) fname
      = some { f3 with
          blocks := rewriteBlocks f3 (recordsOf refs) (rcTableTy fname)
            (rcActualTable M3 fname) K1 } := by
    show (updateFuncs M3.funcs fname _).find? (fun g => g.name = fname) = _
    rw [find?_updateFuncs M3.funcs fname
        (fun g => { g with
          blocks := (rewriteBlocks f3 (recordsOf refs) (rcTableTy fname)
            (rcActualTable M3 fname) K1) })
        (fun g => rfl) fname]
    rw [show M3.funcs.find? (fun g => g.name = fname) = some f3 from hf3]
    simp [hfname]
  -- containsGlobal is unchanged by the rewrite's module update
  have hcg : ∀ c, containsGlobal (rcM4 M3 fname f3 refs K1) c = containsGlobal M3 c := by
    refine containsGlobal_congr _ _ (fun n => ?_)
    show ((updateFuncs M3.funcs fname _).find? (fun g => g.name = n)).map (·.intrinsic)
        = (M3.funcs.find? (fun g => g.name = n)).map (·.intrinsic)
    rw [find?_updateFuncs M3.funcs fname
        (fun g => { g with
          blocks := (rewriteBlocks f3 (recordsOf refs) (rcTableTy fname)
            (rcActualTable M3 fname) K1) })
        (fun g => rfl) n]
    cases M3.funcs.find? (fun g => g.name = n) with
    | none => rfl
    | some g =>
        by_cases hg : g.name = fname <;> simp [hg]
  obtain ⟨fs, fK, fk, fu⟩ := mapFold_all addr ((collectPairs M3 f3).map (·.1)) haddr
    (collectPairs M3 f3) []
    (fun p hp => List.mem_map_of_mem (·.1) hp) (fun e he => by cases he) (by simp)
  intro f' hf'
  rw [hM] at hf'
  have hfe := Option.some.inj hf'
  subst hfe
  constructor
  · -- remaining global-referencing operands are in-bounds slot constants
    intro j hj o ho cst hoc hcst
    have hcst3 : containsGlobal M3 cst = true := by
      rw [← hcg cst]
      exact hcst
    -- decompose the instruction
    unfold instrsOfF at hj
    obtain ⟨li, hli, hjli⟩ := List.mem_flatten.mp hj
    obtain ⟨b', hb', hb'e⟩ := List.mem_map.mp hli
    rw [← hb'e] at hjli
    rcases rewriteBlocks_shape f3 (recordsOf refs) (rcTableTy fname)
        (rcActualTable M3 fname) K1 b' hb' j hjli with ⟨r, hr, hje⟩ | ⟨b, hb, i, hi, hje⟩
    · -- a slot load: its only operand is the slot constant
      rw [hje] at ho
      have hoe : o = Opnd.c (slotConst (rcTableTy fname) (rcActualTable M3 fname) r.2.1) := by
        simpa [slotLoad] using ho
      rw [hoe] at hoc
      have hce : cst = slotConst (rcTableTy fname) (rcActualTable M3 fname) r.2.1 :=
        (Opnd.c.inj hoc).symm
      refine ⟨r.2.1, ?_, hce⟩
      -- the slot index is a table position
      have hr2 : r.2 ∈ recordsOf refs := by
        have := List.mk_mem_enum_iff_getElem?.mp
          (show (r.1, r.2) ∈ (recordsOf refs).enum from hr)
        exact List.mem_iff_getElem?.mpr ⟨r.1, this⟩
      obtain ⟨c0, us0, hget, _⟩ := recordsOf_mem refs r.2 hr2
      have := List.get?_eq_some.mp hget
      exact this.1
    · -- a rewritten original instruction
      rw [hje] at ho
      obtain ⟨jo, hjo, hjoe⟩ := List.mem_map.mp (show o ∈ (i.operands.enum.map _) from ho)
      cases hrf : recFind (recordsOf refs) i.iid jo.1 with
      | some pt =>
          rw [hrf] at hjoe
          have h0 : Opnd.reg (K1 + pt.1) = o := hjoe
          rw [hoc] at h0
          cases h0
      | none =>
          rw [hrf] at hjoe
          -- the operand is the original one and was collected — contradiction
          exfalso
          have hjo2 : jo.2 = Opnd.c cst := by
            have h0 : jo.2 = o := hjoe
            rw [h0, hoc]
          have hcpi : (cst, i.iid, jo.1) ∈ collectPairsInstr M3 i := by
            unfold collectPairsInstr
            refine List.mem_filterMap.mpr ⟨jo, hjo, ?_⟩
            rw [hjo2]
            show (if containsGlobal M3 cst = true then some cst else none).map
                (fun c => (c, i.iid, jo.1)) = some (cst, i.iid, jo.1)
            rw [if_pos hcst3]
            rfl
          have hcp : (cst, i.iid, jo.1) ∈ collectPairs M3 f3 := by
            unfold collectPairs
            exact List.mem_flatMap.mpr ⟨b, hb, List.mem_flatMap.mpr ⟨i, hi, hcpi⟩⟩
          obtain ⟨us, hus, huse⟩ := (fu cst (i.iid, jo.1)).mpr (Or.inl hcp)
          obtain ⟨idx, hidx⟩ := List.mem_iff_getElem?.mp hus
          have hrec : (idx, i.iid, jo.1) ∈ recordsOf refs := by
            refine recordsOf_of_get refs idx cst us ?_ (i.iid, jo.1) huse
            rw [List.get?_eq_getElem?]
            exact hidx
          exact recFind_isSome_of_mem (recordsOf refs) idx i.iid jo.1 hrec hrf
  · -- every collected use is rewritten to its slot load's register
    intro b hb i hi jdx cst hget hcstM3
    have henum : (jdx, Opnd.c cst) ∈ i.operands.enum :=
      List.mk_mem_enum_iff_getElem?.mpr hget
    have hcpi : (cst, i.iid, jdx) ∈ collectPairsInstr M3 i := by
      unfold collectPairsInstr
      refine List.mem_filterMap.mpr ⟨(jdx, Opnd.c cst), henum, ?_⟩
      show (if containsGlobal M3 cst = true then some cst else none).map
          (fun c => (c, i.iid, jdx)) = some (cst, i.iid, jdx)
      rw [if_pos hcstM3]
      rfl
    have hcp : (cst, i.iid, jdx) ∈ collectPairs M3 f3 := by
      unfold collectPairs
      exact List.mem_flatMap.mpr ⟨b, hb, List.mem_flatMap.mpr ⟨i, hi, hcpi⟩⟩
    obtain ⟨us, hus, huse⟩ := (fu cst (i.iid, jdx)).mpr (Or.inl hcp)
    obtain ⟨idx, hidx⟩ := List.mem_iff_getElem?.mp hus
    have hrec : (idx, i.iid, jdx) ∈ recordsOf refs := by
      refine recordsOf_of_get refs idx cst us ?_ (i.iid, jdx) huse
      rw [List.get?_eq_getElem?]
      exact hidx
    obtain ⟨pos, ti, hrf⟩ : ∃ pos ti,
        recFind (recordsOf refs) i.iid jdx = some (pos, ti) := by
      cases hr : recFind (recordsOf refs) i.iid jdx with
      | none =>
          exact absurd hr (recFind_isSome_of_mem (recordsOf refs) idx i.iid jdx hrec)
      | some pt => exact ⟨pt.1, pt.2, rfl⟩
    have hen := recFind_some_enum (recordsOf refs) i.iid jdx pos ti hrf
    have hbmem : ∀ b0, b0 ∈ f3.blocks →
        ({ b0 with instrs := (insertBeforeLast
            (phiLoads f3 (recordsOf refs) (rcTableTy fname) (rcActualTable M3 fname) K1 b0)
            (b0.instrs.flatMap (fun i0 =>
              ownLoads f3 (recordsOf refs) (rcTableTy fname) (rcActualTable M3 fname) K1 i0
                ++ [rewriteOps (recordsOf refs) K1 i0]))) } : BB)
          ∈ rewriteBlocks f3 (recordsOf refs) (rcTableTy fname)
              (rcActualTable M3 fname) K1 := by
      intro b0 hb0
      unfold rewriteBlocks
      exact List.mem_map_of_mem _ hb0
    refine ⟨pos, ti, hrf, ?_, ?_, ?_, rfl, ?_, ?_⟩
    · -- the operand is rewritten in place to the load's register
      show ((i.operands.enum.map (fun jo =>
          match recFind (recordsOf refs) i.iid jo.1 with
          | some pt => Opnd.reg (K1 + pt.1)
          | none => jo.2))[jdx]?) = some (Opnd.reg (K1 + pos))
      rw [List.getElem?_map, List.getElem?_enum, hget]
      show some (match recFind (recordsOf refs) i.iid jdx with
          | some pt => Opnd.reg (K1 + pt.1)
          | none => Opnd.c cst) = some (Opnd.reg (K1 + pos))
      rw [hrf]
    · -- the rewritten instruction is in the function
      show rewriteOps (recordsOf refs) K1 i
          ∈ ((rewriteBlocks f3 (recordsOf refs) (rcTableTy fname) (rcActualTable M3 fname)
              K1).map (·.instrs)).flatten
      refine List.mem_flatten.mpr ⟨_, List.mem_map_of_mem (·.instrs) (hbmem b hb), ?_⟩
      refine mem_insertBeforeLast_left _ _ _ ?_
      refine List.mem_flatMap.mpr ⟨i, hi, ?_⟩
      exact List.mem_append_right _ (by simp)
    · -- the load's slot holds this use's constant
      have hrecmem : (ti, i.iid, jdx) ∈ recordsOf refs := by
        have h2 := List.mk_mem_enum_iff_getElem?.mp hen
        exact List.mem_iff_getElem?.mpr ⟨pos, h2⟩
      obtain ⟨c0, us0, hget0, hin0⟩ := recordsOf_mem refs (ti, i.iid, jdx) hrecmem
      have hmemr : (c0, us0) ∈ refs := by
        refine List.mem_iff_getElem?.mpr ⟨ti, ?_⟩
        rw [← List.get?_eq_getElem?]
        exact hget0
      have hcp0 : (c0, i.iid, jdx) ∈ collectPairs M3 f3 := by
        rcases (fu c0 (i.iid, jdx)).mp ⟨us0, hmemr, hin0⟩ with h | h
        · exact h
        · obtain ⟨us1, hus1, _⟩ := h
          cases hus1
      have hceq : c0 = cst := by
        have h3 := List.inj_on_of_nodup_map huses hcp0 hcp rfl
        exact congrArg Prod.fst h3
      show ((refs.map (·.1))[ti]?) = some cst
      rw [List.getElem?_map]
      rw [show refs[ti]? = some (c0, us0) from by
        rw [← List.get?_eq_getElem?]; exact hget0]
      show some c0 = some cst
      rw [hceq]
    · -- direct placement: the load sits before its instruction
      intro hplace
      have hload : slotLoad (rcTableTy fname) (rcActualTable M3 fname) K1 pos ti
          ∈ ownLoads f3 (recordsOf refs) (rcTableTy fname) (rcActualTable M3 fname) K1 i := by
        unfold ownLoads
        refine List.mem_filterMap.mpr ⟨(pos, ti, i.iid, jdx), hen, ?_⟩
        simp [hplace]
      show slotLoad (rcTableTy fname) (rcActualTable M3 fname) K1 pos ti
          ∈ ((rewriteBlocks f3 (recordsOf refs) (rcTableTy fname) (rcActualTable M3 fname)
              K1).map (·.instrs)).flatten
      refine List.mem_flatten.mpr ⟨_, List.mem_map_of_mem (·.instrs) (hbmem b hb), ?_⟩
      refine mem_insertBeforeLast_left _ _ _ ?_
      exact List.mem_flatMap.mpr ⟨i, hi, List.mem_append_left _ hload⟩
    · -- PHI placement: the load sits at the incoming block's terminator
      intro bb hplace b2 hb2 hbb2
      have hpl : recPlace f3 i.iid jdx = some b2.bbid := by
        rw [hbb2]
        exact hplace
      have hload : slotLoad (rcTableTy fname) (rcActualTable M3 fname) K1 pos ti
          ∈ phiLoads f3 (recordsOf refs) (rcTableTy fname) (rcActualTable M3 fname) K1 b2 := by
        unfold phiLoads
        refine List.mem_filterMap.mpr ⟨(pos, ti, i.iid, jdx), hen, ?_⟩
        simp [hpl]
      show slotLoad (rcTableTy fname) (rcActualTable M3 fname) K1 pos ti
          ∈ ((rewriteBlocks f3 (recordsOf refs) (rcTableTy fname) (rcActualTable M3 fname)
              K1).map (·.instrs)).flatten
      refine List.mem_flatten.mpr ⟨_, List.mem_map_of_mem (·.instrs) (hbmem b2 hb2), ?_⟩
      exact mem_insertBeforeLast_news _ _ _ hload

/-- Concrete function exercising C1: one use of global `a`. -/
def c1F : Func :=
  ⟨"F", .fn0 .void, .external, false, [], none,
   [⟨0, [⟨1, .opaqueOp "use", [.c (.gv "a")], none⟩,
         ⟨2, .ret, [], none⟩]⟩]⟩

/-- Concrete module exercising C1. -/
def c1M : Module :=
  { triple := "x86_64-unknown-linux-gnu", ptrBytes := 8, funcs := [c1F],
    gvars := [⟨"a", .int 32, false, .external, .scalar (.intC 32 0)⟩] }

/-- Address map for the C1 example. -/
def c1addr : Const → Nat := fun c => if c = .gv "a" then 3 else 0

/-- The module after sentinel insertion and float extraction in the C1
example. -/
def c1M3 : Module := (extractFloatOperations (rcPrep c1M "F") "F" 100).1

/-- The specification's sentence is false of the code: after code
randomization with a non-empty collection, the transformed function
still holds an instruction (an inserted slot load) with an operand
whose constant closure references a global value. -/
theorem no_globals_remain_C1_counterexample :
    (randomizeCode c1addr c1M "F" 100).refs ≠ []
    ∧ ((randomizeCode c1addr c1M "F" 100).m.funcs.any (fun g =>
        g.name == "F" && (instrsOfF g).any (fun j => j.operands.any (fun o =>
          (condConst (randomizeCode c1addr c1M "F" 100).m o).isSome)))) = true := by
  constructor
  · decide
  · decide

theorem no_globals_remain_C1_witness :
    (∃ ti, ti < (randomizeCode c1addr c1M "F" 100).refs.length
      ∧ slotConst (rcTableTy "F") (rcActualTable c1M3 "F") 0
        = slotConst (rcTableTy "F") (rcActualTable c1M3 "F") ti)
    ∧ (∃ pos ti,
        recFind (recordsOf (findPCRelativeUsesIn c1addr c1M3 c1F)) 1 0 = some (pos, ti)
        ∧ (rewriteOps (recordsOf (findPCRelativeUsesIn c1addr c1M3 c1F))
            (extractFloatOperations (rcPrep c1M "F") "F" 100).2
            ⟨1, .opaqueOp "use", [.c (.gv "a")], none⟩).operands[0]?
            = some (Opnd.reg ((extractFloatOperations (rcPrep c1M "F") "F" 100).2 + pos))
        ∧ ((findPCRelativeUsesIn c1addr c1M3 c1F).map (·.1))[ti]?
            = some (.gv "a")) := by
  have h := no_globals_remain_C1 c1addr c1M "F" 100 c1F c1F
    (by decide) (by decide) (by decide) (by decide) (by decide)
  have h2 := h
    { c1F with blocks := (rewriteBlocks c1F
        (recordsOf (findPCRelativeUsesIn c1addr c1M3 c1F))
        (rcTableTy "F") (rcActualTable c1M3 "F") 100) }
    (by decide)
  constructor
  · exact h2.1
      (slotLoad (rcTableTy "F") (rcActualTable c1M3 "F") 100 0 0) (by decide)
      (Opnd.c (slotConst (rcTableTy "F") (rcActualTable c1M3 "F") 0)) (by decide)
      (slotConst (rcTableTy "F") (rcActualTable c1M3 "F") 0) rfl (by decide)
  · obtain ⟨pos, ti, h1, hrw, _, hkey, _, _, _⟩ := h2.2
      ⟨0, [⟨1, .opaqueOp "use", [.c (.gv "a")], none⟩, ⟨2, .ret, [], none⟩]⟩ (by decide)
      ⟨1, .opaqueOp "use", [.c (.gv "a")], none⟩ (by decide)
      0 (.gv "a") (by decide) (by decide)
    exact ⟨pos, ti, h1, hrw, hkey⟩

/-! ## Stage preservation of function lookups, and the `main` rename -/

theorem find?_append_some (l t : List Func) (x : String) (g : Func)
    (h : l.find? (fun f => f.name = x) = some g) :
    (l ++ t).find? (fun f => f.name = x) = some g := by
  rw [List.find?_append, h]
  rfl

theorem find?_updateFuncs_ne (l : List Func) (n : String) (upd : Func → Func)
    (hupd : ∀ f, (upd f).name = f.name) (x : String) (g : Func) (hx : x ≠ n)
    (h : l.find? (fun f => f.name = x) = some g) :
    (updateFuncs l n upd).find? (fun f => f.name = x) = some g := by
  rw [find?_updateFuncs l n upd hupd x, h]
  have hg : g.name = x := by simpa using List.find?_some h
  have : ¬ g.name = n := by
    rw [hg]
    exact hx
  simp [this]

theorem find?_insertFnAfter_ne (l : List Func) (n : String) (d : Func) (x : String) (g : Func)
    (hd : d.name ≠ x) (h : l.find? (fun f => f.name = x) = some g) :
    (insertFnAfter l n d).find? (fun f => f.name = x) = some g := by
  induction l with
  | nil => exact absurd h (by simp)
  | cons a rest ih =>
      unfold insertFnAfter
      by_cases han : a.name = n
      · rw [if_pos han]
        by_cases hax : a.name = x
        · rw [List.find?_cons_of_pos _ (by simpa using hax)] at h ⊢
          exact h
        · rw [List.find?_cons_of_neg _ (by simpa using hax)] at h
          rw [List.find?_cons_of_neg _ (by simpa using hax),
            List.find?_cons_of_neg _ (by simpa using hd)]
          exact h
      · rw [if_neg han]
        by_cases hax : a.name = x
        · rw [List.find?_cons_of_pos _ (by simpa using hax)] at h ⊢
          exact h
        · rw [List.find?_cons_of_neg _ (by simpa using hax)] at h
          rw [List.find?_cons_of_neg _ (by simpa using hax)]
          exact ih h

theorem funcNamed_getOrDeclare (m : Module) (n : String) (ty : Ty) (b : Bool)
    (x : String) (g : Func) (h : funcNamed m x = some g) :
    funcNamed (getOrDeclare m n ty b) x = some g := by
  unfold getOrDeclare
  cases hl : funcNamed m n with
  | some _ => exact h
  | none => exact find?_append_some _ _ x g h

theorem randomizeHeap_pres_decl (m : Module) (x : String) (g : Func)
    (hg : g.blocks = []) (h : funcNamed m x = some g) :
    funcNamed (randomizeHeap m) x = some g := by
  show (randomizeHeap m).funcs.find? (fun f => f.name = x) = some g
  rw [show (randomizeHeap m).funcs
      = m.funcs.map (sigmaOf allocNames m)
        ++ (allocNames.filter (fun n => (funcNamed m n).isSome)).map (declOf m)
    from heapFold_closed allocNames m (by decide)]
  refine find?_append_some _ _ x _ ?_
  rw [find?_map_name _ _ (fun f => sigmaOf_name allocNames m f) x]
  rw [show m.funcs.find? (fun f => f.name = x) = some g from h]
  show some (sigmaOf allocNames m g) = some g
  rw [sigmaOf_decl allocNames m g hg]

theorem randomizeStack_pres (m : Module) (fname pad : String) (k : Nat)
    (x : String) (g : Func) (hx : x ≠ fname) (h : funcNamed m x = some g) :
    funcNamed (randomizeStack m fname pad k).1 x = some g := by
  have h2 : funcNamed (rsM2 m) x = some g :=
    funcNamed_getOrDeclare _ _ _ _ x g (funcNamed_getOrDeclare _ _ _ _ x g h)
  unfold randomizeStack
  cases hf : funcNamed (rsM2 m) fname with
  | none => exact h2
  | some f =>
      exact find?_updateFuncs_ne (rsM2 m).funcs fname
        (fun g0 => { g0 with
          blocks := (f.blocks.foldl (rsStepB (rsM2 m) pad) ([], k)).1 })
        (fun _ => rfl) x g hx h2

theorem stackStage_cons (n : String) (rest : List String) (m : Module) (k : Nat) :
    stackStage (n :: rest) m k
      = stackStage rest
          (randomizeStack
            { m with gvars := (m.gvars
                ++ [⟨n ++ ".stack_pad", .int 8, false, .internal, .scalar (.intC 8 0)⟩]) }
            n (n ++ ".stack_pad") k).1
          (randomizeStack
            { m with gvars := (m.gvars
                ++ [⟨n ++ ".stack_pad", .int 8, false, .internal, .scalar (.intC 8 0)⟩]) }
            n (n ++ ".stack_pad") k).2 := by
  unfold stackStage
  rw [List.foldl_cons]

theorem stackStage_pres (locals : List String) :
    ∀ (m : Module) (k : Nat) (x : String) (g : Func),
      (∀ n ∈ locals, n ≠ x) → funcNamed m x = some g →
      funcNamed (stackStage locals m k).1 x = some g := by
  induction locals with
  | nil => exact fun m k x g _ h => h
  | cons n rest ih =>
      intro m k x g hx h
      rw [stackStage_cons]
      refine ih _ _ x g (fun n' hn' => hx n' (by simp [hn'])) ?_
      refine randomizeStack_pres _ n _ _ x g (fun he => hx n (by simp) he.symm) ?_
      exact h

theorem funcNamed_makeConstructor (m : Module) (name x : String) (g : Func)
    (h : funcNamed m x = some g) :
    funcNamed (makeConstructor m name) x = some g := by
  exact find?_append_some _ _ x g h

theorem funcNamed_declareRuntime (m : Module) (x : String) (g : Func)
    (h : funcNamed m x = some g) :
    funcNamed (declareRuntimeFunctions m) x = some g := by
  exact find?_append_some _ _ x g h

theorem rcBuild_none (addr : Const → Nat) (m3 : Module) (fname : String) (k1 : Nat)
    (h : funcNamed m3 fname = none) :
    rcBuild addr m3 fname k1 = ⟨m3, [], k1, []⟩ := by
  unfold rcBuild
  rw [h]

theorem randomizeCode_pres (addr : Const → Nat) (m : Module) (fname : String) (k : Nat)
    (x : String) (g : Func) (hx : x ≠ fname) (hdx : dummyName fname ≠ x)
    (h : funcNamed m x = some g) :
    funcNamed (randomizeCode addr m fname k).m x = some g := by
  unfold randomizeCode
  cases hf : funcNamed m fname with
  | none => exact h
  | some f =>
      have h1 : funcNamed (rcPrep m fname) x = some g :=
        find?_updateFuncs_ne (insertFnAfter m.funcs fname (dummyFuncOf fname)) fname
          (fun f0 => { f0 with
            fnAttrs := (f0.fnAttrs.filter (fun a => a ≠ "stackprotect")).filter
                (fun a => a ≠ "stackprotectreq"),
            linkage := if f0.linkage = .linkonceODR then .external else f0.linkage })
          (fun _ => rfl) x g hx
          (find?_insertFnAfter_ne m.funcs fname (dummyFuncOf fname) x g hdx h)
      have h2 : funcNamed (extractFloatOperations (rcPrep m fname) fname k).1 x = some g := by
        unfold extractFloatOperations
        cases hf2 : funcNamed (rcPrep m fname) fname with
        | none => exact h1
        | some f2 =>
            obtain ⟨extF, extG, hF, _, _, _⟩ :=
              efoFoldBlocks_mod f2.blocks ⟨rcPrep m fname, k, []⟩ []
            have hin : (efoScan (rcPrep m fname) k f2.blocks).1.m.funcs.find?
                (fun f => f.name = x) = some g := by
              rw [show (efoScan (rcPrep m fname) k f2.blocks).1.m.funcs
                  = (rcPrep m fname).funcs ++ extF from hF]
              exact find?_append_some _ _ x g h1
            exact find?_updateFuncs_ne
              (efoScan (rcPrep m fname) k f2.blocks).1.m.funcs fname
              (fun g0 => { g0 with
                blocks := efoBlocks2 (efoScan (rcPrep m fname) k f2.blocks) })
              (fun _ => rfl) x g hx hin
      cases hf3 : funcNamed (extractFloatOperations (rcPrep m fname) fname k).1 fname with
      | none =>
          rw [rcBuild_none addr _ fname _ hf3]
          exact h2
      | some f3 =>
          rw [rcBuild_some addr _ fname _ f3 hf3]
          by_cases hre : (findPCRelativeUsesIn addr
              (extractFloatOperations (rcPrep m fname) fname k).1 f3).isEmpty = true
          · rw [if_pos hre]
            exact h2
          · rw [if_neg hre]
            exact find?_updateFuncs_ne
              (extractFloatOperations (rcPrep m fname) fname k).1.funcs fname
              (fun g0 => { g0 with
                blocks := (rewriteBlocks f3
                  (recordsOf (findPCRelativeUsesIn addr
                    (extractFloatOperations (rcPrep m fname) fname k).1 f3))
                  (rcTableTy fname)
                  (rcActualTable (extractFloatOperations (rcPrep m fname) fname k).1 fname)
                  (extractFloatOperations (rcPrep m fname) fname k).2) })
              (fun _ => rfl) x g hx h2

theorem codeStage_pres (stack : Bool) (addr : Const → Nat) (locals : List String) :
    ∀ (acc : Module × Nat × List Instr) (x : String) (g : Func),
      (∀ n ∈ locals, n ≠ x) → (∀ n ∈ locals, dummyName n ≠ x) →
      funcNamed acc.1 x = some g →
      funcNamed (locals.foldl
        (fun (acc : Module × Nat × List Instr) fname =>
          let r := randomizeCode addr acc.1 fname acc.2.1
          let padArg : Const :=
            if stack then .gv (fname ++ ".stack_pad") else .nullC (.ptr (.int 8))
          let callArgs : List Opnd :=
            (r.args ++ [padArg]).map Opnd.c ++ [.c (.gv "stabilizer_register_function")]
          (r.m, r.k + 1, acc.2.2 ++ [⟨r.k, .call, callArgs, none⟩])) acc).1 x = some g := by
  induction locals with
  | nil => exact fun acc x g _ _ h => h
  | cons n rest ih =>
      intro acc x g hx hdx h
      rw [List.foldl_cons]
      refine ih _ x g (fun n' hn' => hx n' (by simp [hn']))
        (fun n' hn' => hdx n' (by simp [hn'])) ?_
      exact randomizeCode_pres addr acc.1 n acc.2.1 x g
        (fun he => hx n (by simp) he.symm) (hdx n (by simp)) h

theorem stabilizerPass_rename (heap stack code : Bool) (addr : Const → Nat)
    (m : Module) (k : Nat) (g : Func)
    (h : funcNamed (spM6 heap stack code addr m k) "main" = some g) :
    stabilizerPass heap stack code addr m k
      = { spM6 heap stack code addr m k with
          funcs := (updateFuncs (spM6 heap stack code addr m k).funcs "main"
            (fun f => { f with name := "stabilizer_main" })) } := by
  unfold stabilizerPass
  rw [h]

theorem find?_rename_main_none (l : List Func) :
    (updateFuncs l "main" (fun f => { f with name := "stabilizer_main" })).find?
      (fun f => f.name = "main") = none := by
  rw [List.find?_eq_none]
  intro f hf
  obtain ⟨f0, _, rfl⟩ := List.mem_map.mp hf
  by_cases h0 : f0.name = "main" <;> simp [h0]

/-- Claim C10 (`main` rename on declarations): the driver looks `main`
up by name only, without checking for a body; a module that merely
declares an external `main` still ends with no function named `main`
and a declaration named `stabilizer_main`.  The local-function snapshot
is assumed not to contain the name `main` (a declaration never is a
local function, so this only excludes a second, defined function of the
same name). -/
theorem main_renamed_C10 (heap stack code : Bool) (addr : Const → Nat)
    (m : Module) (k : Nat) (g : Func)
    (hm : funcNamed m "main" = some g) (hgb : g.blocks = [])
    (hlocals : ∀ n ∈ spLocals heap m, n ≠ "main") :
    funcNamed (stabilizerPass heap stack code addr m k) "main" = none
    ∧ ∃ g', g' ∈ (stabilizerPass heap stack code addr m k).funcs
        ∧ g'.name = "stabilizer_main" ∧ g'.blocks = [] := by
  have h1 : funcNamed (spM1 heap m) "main" = some g := by
    unfold spM1
    cases heap with
    | true => exact randomizeHeap_pres_decl m "main" g hgb hm
    | false => exact hm
  have h2 : funcNamed (spM2 heap m) "main" = some g :=
    funcNamed_declareRuntime _ "main" g h1
  have h3 : funcNamed (spS3 heap stack m k).1 "main" = some g := by
    unfold spS3
    cases stack with
    | true => exact stackStage_pres (spLocals heap m) (spM2 heap m) k "main" g hlocals h2
    | false => exact h2
  have h4 : funcNamed (spM4 heap stack m k) "main" = some g :=
    funcNamed_makeConstructor _ _ "main" g h3
  have h5 : funcNamed (spS5 heap stack code addr m k).1 "main" = some g := by
    unfold spS5
    cases code with
    | true =>
        refine codeStage_pres stack addr (spLocals heap m) _ "main" g hlocals ?_ h4
        intro n _
        exact strHasPfx_ne "stabilizer.dummy." "main" n (by decide)
    | false => exact h4
  have h6 : funcNamed (spM6 heap stack code addr m k) "main" = some g :=
    find?_updateFuncs_ne (spS5 heap stack code addr m k).1.funcs "stabilizer.module_ctor"
      (fun f => { f with blocks := [⟨0, spBody heap stack code addr m k⟩] })
      (fun _ => rfl) "main" g (by decide) h5
  have hgname : g.name = "main" := by simpa using List.find?_some h6
  rw [stabilizerPass_rename heap stack code addr m k g h6]
  constructor
  · exact find?_rename_main_none _
  · refine ⟨{ g with name := "stabilizer_main" }, ?_, rfl, hgb⟩
    show _ ∈ (updateFuncs (spM6 heap stack code addr m k).funcs "main" _)
    have hmem : g ∈ (spM6 heap stack code addr m k).funcs := List.mem_of_find?_eq_some h6
    have : (fun f => if f.name = "main" then { f with name := "stabilizer_main" } else f) g
        = { g with name := "stabilizer_main" } := by
      show (if g.name = "main" then { g with name := "stabilizer_main" } else g)
          = { g with name := "stabilizer_main" }
      rw [if_pos hgname]
    rw [← this]
    exact List.mem_map_of_mem _ hmem

/-- Concrete module exercising C10: `main` is only declared. -/
def c10M : Module :=
  { triple := "", ptrBytes := 8,
    funcs := [⟨"main", .fn0 (.int 32), .external, false, [], none, []⟩],
    gvars := [] }

theorem main_renamed_C10_witness :
    funcNamed (stabilizerPass true true true (fun _ => 0) c10M 0) "main" = none := by
  exact (main_renamed_C10 true true true (fun _ => 0) c10M 0
    ⟨"main", .fn0 (.int 32), .external, false, [], none, []⟩
    (by decide) rfl (by decide)).1

/-! ## The constructor table after the pass -/

/-- The one-entry constructor table synthesized by `makeConstructor`
when the driver passes the name `stabilizer.module_ctor`. -/
def ctorTabGv : GlobalVar :=
  ⟨"llvm.global_ctors", .arr 1 (.strukt "ctor_entry_t"), true, .appending,
   .ctorTab [(65535, .gv "stabilizer.module_ctor", .nullC i8p)]⟩

theorem efoOperands_gvnames (isPhi : Bool) (inblocks : List Nat) (ops : List Opnd) :
    ∀ j k g, g ∈ (efoOperands isPhi inblocks ops j k).2.2.2.1 →
      strHasPfx "fconst." g.name = true := by
  induction ops with
  | nil =>
      intro j k g hg
      cases hg
  | cons o rest ih =>
      intro j k g hg
      unfold efoOperands at hg
      split at hg
      · split at hg
        · split at hg
          · simp at hg
            rcases hg with hg | hg
            · rw [hg]
              exact strHasPfx_append "fconst." (natStr k)
            · exact ih _ _ g hg
          · simp at hg
            rcases hg with hg | hg
            · rw [hg]
              exact strHasPfx_append "fconst." (natStr k)
            · exact ih _ _ g hg
        · exact ih _ _ g hg
      · exact ih _ _ g hg

theorem efoInstr_gvnames (s : EfoState) (i : Instr) :
    ∃ extG, (efoInstr s i).1.m.gvars = s.m.gvars ++ extG
      ∧ ∀ g ∈ extG, strHasPfx "fconst." g.name = true := by
  unfold efoInstr
  split
  · split
    · refine ⟨[], ?_, fun g hg => by cases hg⟩
      obtain ⟨ext, h1, h2, h3, h4⟩ := getFloatConversion_mod s.m _ _ _
      rw [h4]
      simp
    · exact ⟨_, rfl, fun g hg => efoOperands_gvnames false [] i.operands 0 s.k g hg⟩
  · exact ⟨_, rfl, fun g hg => efoOperands_gvnames true _ i.operands 0 s.k g hg⟩
  · exact ⟨_, rfl, fun g hg => efoOperands_gvnames false [] i.operands 0 s.k g hg⟩

theorem efoFoldInstrs_gvnames (instrs : List Instr) :
    ∀ (s : EfoState) (acc : List Instr),
      ∃ extG, (instrs.foldl efoStepI (s, acc)).1.m.gvars = s.m.gvars ++ extG
        ∧ ∀ g ∈ extG, strHasPfx "fconst." g.name = true := by
  induction instrs with
  | nil => exact fun s acc => ⟨[], by simp, fun g hg => by cases hg⟩
  | cons i rest ih =>
      intro s acc
      rw [List.foldl_cons, efoStepI_eq]
      obtain ⟨g1, h1, hn1⟩ := efoInstr_gvnames s i
      obtain ⟨g2, h2, hn2⟩ := ih (efoInstr s i).1 (acc ++ (efoInstr s i).2)
      refine ⟨g1 ++ g2, by rw [h2, h1, List.append_assoc], ?_⟩
      intro g hg
      rcases List.mem_append.mp hg with h | h
      · exact hn1 g h
      · exact hn2 g h

theorem efoFoldBlocks_gvnames (blocks : List BB) :
    ∀ (s : EfoState) (accb : List BB),
      ∃ extG, (blocks.foldl efoStepB (s, accb)).1.m.gvars = s.m.gvars ++ extG
        ∧ ∀ g ∈ extG, strHasPfx "fconst." g.name = true := by
  induction blocks with
  | nil => exact fun s accb => ⟨[], by simp, fun g hg => by cases hg⟩
  | cons b rest ih =>
      intro s accb
      rw [List.foldl_cons, efoStepB_eq]
      obtain ⟨g1, h1, hn1⟩ := efoFoldInstrs_gvnames b.instrs s []
      obtain ⟨g2, h2, hn2⟩ := ih _ _
      refine ⟨g1 ++ g2, by rw [h2, h1, List.append_assoc], ?_⟩
      intro g hg
      rcases List.mem_append.mp hg with h | h
      · exact hn1 g h
      · exact hn2 g h

theorem extractFloat_gvnames (m : Module) (fname : String) (k : Nat) :
    ∃ extG, (extractFloatOperations m fname k).1.gvars = m.gvars ++ extG
      ∧ ∀ g ∈ extG, strHasPfx "fconst." g.name = true := by
  unfold extractFloatOperations
  cases hf : funcNamed m fname with
  | none => exact ⟨[], by simp, fun g hg => by cases hg⟩
  | some f =>
      obtain ⟨extG, h1, hn⟩ := efoFoldBlocks_gvnames f.blocks ⟨m, k, []⟩ []
      exact ⟨extG, h1, hn⟩

theorem randomizeCode_gvnames (addr : Const → Nat) (m : Module) (fname : String) (k : Nat) :
    ∃ extG, (randomizeCode addr m fname k).m.gvars = m.gvars ++ extG
      ∧ ∀ g ∈ extG, strHasPfx "fconst." g.name = true ∨ g.name = rcTableName fname := by
  unfold randomizeCode
  cases hf : funcNamed m fname with
  | none =>
      refine ⟨[], ?_, fun g hg => by cases hg⟩
      show m.gvars = m.gvars ++ []
      simp
  | some f =>
      obtain ⟨extG, h1, hn⟩ := extractFloat_gvnames (rcPrep m fname) fname k
      have h1' : (extractFloatOperations (rcPrep m fname) fname k).1.gvars
          = m.gvars ++ extG := h1
      cases hf3 : funcNamed (extractFloatOperations (rcPrep m fname) fname k).1 fname with
      | none =>
          rw [rcBuild_none addr _ fname _ hf3]
          exact ⟨extG, h1', fun g hg => Or.inl (hn g hg)⟩
      | some f3 =>
          rw [rcBuild_some addr _ fname _ f3 hf3]
          by_cases hre : (findPCRelativeUsesIn addr
              (extractFloatOperations (rcPrep m fname) fname k).1 f3).isEmpty = true
          · rw [if_pos hre]
            exact ⟨extG, h1', fun g hg => Or.inl (hn g hg)⟩
          · rw [if_neg hre]
            refine ⟨extG ++ [rcTableGv fname (findPCRelativeUsesIn addr
                (extractFloatOperations (rcPrep m fname) fname k).1 f3)], ?_, ?_⟩
            · show (extractFloatOperations (rcPrep m fname) fname k).1.gvars
                  ++ [rcTableGv fname (findPCRelativeUsesIn addr
                    (extractFloatOperations (rcPrep m fname) fname k).1 f3)]
                = m.gvars ++ (extG ++ [rcTableGv fname (findPCRelativeUsesIn addr
                    (extractFloatOperations (rcPrep m fname) fname k).1 f3)])
              rw [h1', List.append_assoc]
            · intro g hg
              rcases List.mem_append.mp hg with h | h
              · exact Or.inl (hn g h)
              · simp at h
                rw [h]
                exact Or.inr rfl

theorem codeStage_gvnames (stack : Bool) (addr : Const → Nat) (locals : List String) :
    ∀ (acc : Module × Nat × List Instr),
      ∃ extG,
        (locals.foldl (fun (acc : Module × Nat × List Instr) fname =>
          let r := randomizeCode addr acc.1 fname acc.2.1
          let padArg : Const :=
            if stack then .gv (fname ++ ".stack_pad") else .nullC (.ptr (.int 8))
          let callArgs : List Opnd :=
            (r.args ++ [padArg]).map Opnd.c ++ [.c (.gv "stabilizer_register_function")]
          (r.m, r.k + 1, acc.2.2 ++ [⟨r.k, .call, callArgs, none⟩])) acc).1.gvars
          = acc.1.gvars ++ extG
        ∧ ∀ g ∈ extG,
            strHasPfx "fconst." g.name = true ∨ ∃ n, g.name = rcTableName n := by
  induction locals with
  | nil => exact fun acc => ⟨[], by simp, fun g hg => by cases hg⟩
  | cons fname rest ih =>
      intro acc
      rw [List.foldl_cons]
      obtain ⟨g1, h1, hn1⟩ := randomizeCode_gvnames addr acc.1 fname acc.2.1
      obtain ⟨g2, h2, hn2⟩ := ih _
      refine ⟨g1 ++ g2, ?_, ?_⟩
      · rw [h2]
        show (randomizeCode addr acc.1 fname acc.2.1).m.gvars ++ g2
            = acc.1.gvars ++ (g1 ++ g2)
        rw [h1, List.append_assoc]
      · intro g hg
        rcases List.mem_append.mp hg with h | h
        · rcases hn1 g h with h' | h'
          · exact Or.inl h'
          · exact Or.inr ⟨fname, h'⟩
        · exact hn2 g h

theorem spS5_gvnames (heap stack code : Bool) (addr : Const → Nat) (m : Module) (k : Nat) :
    ∃ extG, (spS5 heap stack code addr m k).1.gvars = (spM4 heap stack m k).gvars ++ extG
      ∧ ∀ g ∈ extG,
          strHasPfx "fconst." g.name = true ∨ ∃ n, g.name = rcTableName n := by
  unfold spS5
  cases code with
  | false =>
      refine ⟨[], ?_, fun g hg => by cases hg⟩
      show (spM4 heap stack m k).gvars = (spM4 heap stack m k).gvars ++ []
      simp
  | true =>
      exact codeStage_gvnames stack addr (spLocals heap m)
        (spM4 heap stack m k, (spS3 heap stack m k).2, [])

theorem stabilizerPass_gvars (heap stack code : Bool) (addr : Const → Nat)
    (m : Module) (k : Nat) :
    (stabilizerPass heap stack code addr m k).gvars
      = (spM6 heap stack code addr m k).gvars := by
  unfold stabilizerPass
  cases funcNamed (spM6 heap stack code addr m k) "main" <;> rfl

theorem spM4_gvars (heap stack : Bool) (m : Module) (k : Nat) :
    (spM4 heap stack m k).gvars
      = ((spS3 heap stack m k).1.gvars.filter (fun g => g.name ≠ "llvm.global_ctors"))
        ++ [ctorTabGv] := rfl

theorem gvfind_filter_ctors (l : List GlobalVar) :
    (l.filter (fun g => g.name ≠ "llvm.global_ctors")).find?
      (fun g => g.name = "llvm.global_ctors") = none := by
  rw [List.find?_eq_none]
  intro g hg
  have h2 := (List.mem_filter.mp hg).2
  simp at h2 ⊢
  exact h2

theorem gvarNamed_spM4 (heap stack : Bool) (m : Module) (k : Nat) :
    gvarNamed (spM4 heap stack m k) "llvm.global_ctors" = some ctorTabGv := by
  show ((spS3 heap stack m k).1.gvars.filter (fun g => g.name ≠ "llvm.global_ctors")
      ++ [ctorTabGv]).find? (fun g => g.name = "llvm.global_ctors") = some ctorTabGv
  rw [List.find?_append, gvfind_filter_ctors]
  rfl

theorem spM4_ctors_unique (heap stack : Bool) (m : Module) (k : Nat) :
    ∀ g ∈ (spM4 heap stack m k).gvars, g.name = "llvm.global_ctors" → g = ctorTabGv := by
  intro g hg hname
  rw [spM4_gvars] at hg
  rcases List.mem_append.mp hg with h | h
  · have h2 := (List.mem_filter.mp h).2
    simp [hname] at h2
  · simpa using h

theorem fconst_ne_ctors (n : String) (h : strHasPfx "fconst." n = true) :
    n ≠ "llvm.global_ctors" := by
  intro he
  rw [he] at h
  exact absurd h (by decide)

theorem rcTableName_ne_ctors (n : String) : rcTableName n ≠ "llvm.global_ctors" := by
  intro h
  have hd : (n ++ ".relocation_table").data = "llvm.global_ctors".data :=
    congrArg String.data h
  rw [strdata_append] at hd
  have hlen : n.data.length + (".relocation_table".data).length
      = ("llvm.global_ctors".data).length := by
    have := congrArg List.length hd
    simpa using this
  have hn : n.data = [] := by
    have h17a : (".relocation_table".data).length = 17 := by decide
    have h17b : ("llvm.global_ctors".data).length = 17 := by decide
    rw [h17a, h17b] at hlen
    exact List.eq_nil_of_length_eq_zero (by omega)
  rw [hn] at hd
  simp at hd

/-- Claim C6 (single constructor-table entry): after the pass, for any
flag combination and any input module, looking up `llvm.global_ctors`
yields the synthesized one-entry appending table at priority 65535
pointing at `stabilizer.module_ctor`, and it is the only global of that
name — any pre-existing table was erased by `makeConstructor` (whose new
table takes the name over), and every global added afterwards is an
`fconst.` float literal or a `.relocation_table`, neither of which can
be named `llvm.global_ctors`. -/
theorem ctor_table_single_C6 (heap stack code : Bool) (addr : Const → Nat)
    (m : Module) (k : Nat) :
    gvarNamed (stabilizerPass heap stack code addr m k) "llvm.global_ctors" = some ctorTabGv
    ∧ ∀ g ∈ (stabilizerPass heap stack code addr m k).gvars,
        g.name = "llvm.global_ctors" → g = ctorTabGv := by
  obtain ⟨extG, hext, hnames⟩ := spS5_gvnames heap stack code addr m k
  have hgv : (stabilizerPass heap stack code addr m k).gvars
      = (spM4 heap stack m k).gvars ++ extG := by
    rw [stabilizerPass_gvars]
    show (spS5 heap stack code addr m k).1.gvars = _
    exact hext
  constructor
  · show (stabilizerPass heap stack code addr m k).gvars.find?
        (fun g => g.name = "llvm.global_ctors") = some ctorTabGv
    rw [hgv, List.find?_append]
    have h4 : (spM4 heap stack m k).gvars.find? (fun g => g.name = "llvm.global_ctors")
        = some ctorTabGv := gvarNamed_spM4 heap stack m k
    rw [h4]
    rfl
  · intro g hg hname
    rw [hgv] at hg
    rcases List.mem_append.mp hg with h | h
    · exact spM4_ctors_unique heap stack m k g h hname
    · rcases hnames g h with h' | ⟨n, h'⟩
      · exact absurd hname (fconst_ne_ctors g.name h')
      · rw [hname] at h'
        exact absurd h'.symm (rcTableName_ne_ctors n)

/-! ## Sentinel adjacency: the dummy immediately follows its function -/

/-- Some element satisfying `p` is immediately followed by `d`. -/
def adjPairB (p : Func → Bool) (d : Func) : List Func → Bool
  | x :: y :: rest => (p x && y == d) || adjPairB p d (y :: rest)
  | _ => false

/-- The attribute/linkage rewrite `randomizeCode` applies to the
function being randomized (named form of the update inside
`rcPrep`). -/
def rcPrepUpd : Func → Func := fun f =>
  { f with
    fnAttrs := (f.fnAttrs.filter (fun a => a ≠ "stackprotect")).filter
        (fun a => a ≠ "stackprotectreq"),
    linkage := if f.linkage = .linkonceODR then .external else f.linkage }

/-- Named form of the block replacement inside
`extractFloatOperations`. -/
def efoUpd (m : Module) (k : Nat) (blocks : List BB) : Func → Func := fun g =>
  { g with blocks := efoBlocks2 (efoScan m k blocks) }

/-- Named form of the block replacement inside `rcM4`. -/
def rcM4Upd (f3 : Func) (refs : RefMap) (ty : Ty) (tbl : Const) (k1 : Nat) :
    Func → Func := fun g =>
  { g with blocks := (rewriteBlocks f3 (recordsOf refs) ty tbl k1) }

/-- Named form of the constructor-body fill inside `spM6`. -/
def spM6Upd (body : List Instr) : Func → Func := fun f =>
  { f with blocks := [⟨0, body⟩] }

theorem adjPairB_cons_of (p : Func → Bool) (d : Func) (x : Func) (t : List Func)
    (h : adjPairB p d t = true) : adjPairB p d (x :: t) = true := by
  cases t with
  | nil => cases h
  | cons w ws =>
      show ((p x && (w == d)) || adjPairB p d (w :: ws)) = true
      rw [h]
      simp

theorem adjPairB_append (p : Func → Bool) (d : Func) (t : List Func) :
    ∀ l, adjPairB p d l = true → adjPairB p d (l ++ t) = true := by
  intro l
  induction l with
  | nil => intro h; cases h
  | cons x rest ih =>
      cases rest with
      | nil => intro h; cases h
      | cons y rest2 =>
          intro h
          have h' : ((p x && (y == d)) || adjPairB p d (y :: rest2)) = true := h
          rw [Bool.or_eq_true] at h'
          show ((p x && (y == d)) || adjPairB p d ((y :: rest2) ++ t)) = true
          rcases h' with h1 | h2
          · rw [h1]
            simp
          · rw [ih h2]
            simp

theorem adjPairB_map2 (p q : Func → Bool) (d : Func) (σ : Func → Func)
    (hσd : σ d = d) (hσp : ∀ x, p x = true → q (σ x) = true) :
    ∀ l, adjPairB p d l = true → adjPairB q d (l.map σ) = true := by
  intro l
  induction l with
  | nil => intro h; cases h
  | cons x rest ih =>
      cases rest with
      | nil => intro h; cases h
      | cons y rest2 =>
          intro h
          have h' : ((p x && (y == d)) || adjPairB p d (y :: rest2)) = true := h
          rw [Bool.or_eq_true] at h'
          show ((q (σ x) && (σ y == d)) || adjPairB q d (σ y :: rest2.map σ)) = true
          rcases h' with h1 | h2
          · rw [Bool.and_eq_true] at h1
            have hy : y = d := by simpa using h1.2
            rw [hσp x h1.1, (by rw [hy, hσd]; simp : (σ y == d) = true)]
            simp
          · have hr : adjPairB q d (σ y :: rest2.map σ) = true := ih h2
            rw [hr]
            simp

theorem adjPairB_exists (p : Func → Bool) (d : Func) :
    ∀ l, adjPairB p d l = true → ∃ x ∈ l, p x = true := by
  intro l
  induction l with
  | nil => intro h; cases h
  | cons x rest ih =>
      cases rest with
      | nil => intro h; cases h
      | cons y rest2 =>
          intro h
          have h' : ((p x && (y == d)) || adjPairB p d (y :: rest2)) = true := h
          rw [Bool.or_eq_true] at h'
          rcases h' with h1 | h2
          · rw [Bool.and_eq_true] at h1
            exact ⟨x, by simp, h1.1⟩
          · obtain ⟨z, hz, hpz⟩ := ih h2
            exact ⟨z, List.mem_cons_of_mem x hz, hpz⟩

theorem adjPairB_insertFnAfter (p : Func → Bool) (d : Func) (n : String) (d' : Func)
    (hp : ∀ x, p x = true → x.name ≠ n) :
    ∀ l, adjPairB p d l = true → adjPairB p d (insertFnAfter l n d') = true := by
  intro l
  induction l with
  | nil => intro h; cases h
  | cons x rest ih =>
      cases rest with
      | nil => intro h; cases h
      | cons y rest2 =>
          intro h
          have h' : ((p x && (y == d)) || adjPairB p d (y :: rest2)) = true := h
          rw [Bool.or_eq_true] at h'
          rw [show insertFnAfter (x :: y :: rest2) n d'
              = if x.name = n then x :: d' :: y :: rest2
                else x :: insertFnAfter (y :: rest2) n d' from rfl]
          rcases h' with h1 | h2
          · rw [Bool.and_eq_true] at h1
            rw [if_neg (hp x h1.1)]
            rw [show insertFnAfter (y :: rest2) n d'
                = if y.name = n then y :: d' :: rest2
                  else y :: insertFnAfter rest2 n d' from rfl]
            by_cases hyn : y.name = n
            · rw [if_pos hyn]
              show ((p x && (y == d)) || adjPairB p d (y :: d' :: rest2)) = true
              rw [h1.1, h1.2]
              simp
            · rw [if_neg hyn]
              show ((p x && (y == d)) || adjPairB p d (y :: insertFnAfter rest2 n d')) = true
              rw [h1.1, h1.2]
              simp
          · by_cases hxn : x.name = n
            · rw [if_pos hxn]
              show ((p x && (d' == d))
                  || ((p d' && (y == d)) || adjPairB p d (y :: rest2))) = true
              rw [h2]
              simp
            · rw [if_neg hxn]
              exact adjPairB_cons_of p d x _ (ih h2)

theorem adjPairB_insert_self (p : Func → Bool) (d : Func) (n : String)
    (hp : ∀ x, x.name = n → p x = true) :
    ∀ l, (l.find? (fun f => f.name = n)).isSome = true →
      adjPairB p d (insertFnAfter l n d) = true := by
  intro l
  induction l with
  | nil => intro h; simp at h
  | cons x rest ih =>
      intro h
      unfold insertFnAfter
      by_cases hxn : x.name = n
      · rw [if_pos hxn]
        show ((p x && (d == d)) || adjPairB p d (d :: rest)) = true
        rw [hp x hxn]
        simp
      · rw [if_neg hxn]
        have h2 : (rest.find? (fun f => f.name = n)).isSome = true := by
          rw [List.find?_cons_of_neg _ (by simpa using hxn)] at h
          exact h
        exact adjPairB_cons_of p d x _ (ih h2)

theorem adjPairB_updateFuncs (fnameP : String) (d : Func) (n : String) (upd : Func → Func)
    (hupd : ∀ f, (upd f).name = f.name) (hd : d.name ≠ n) (l : List Func)
    (h : adjPairB (fun g => g.name == fnameP) d l = true) :
    adjPairB (fun g => g.name == fnameP) d (updateFuncs l n upd) = true := by
  show adjPairB (fun g => g.name == fnameP) d
      (l.map (fun f => if f.name = n then upd f else f)) = true
  refine adjPairB_map2 (fun g => g.name == fnameP) (fun g => g.name == fnameP) d
    (fun f => if f.name = n then upd f else f) ?_ ?_ l h
  · show (if d.name = n then upd d else d) = d
    rw [if_neg hd]
  · intro x hx
    show ((if x.name = n then upd x else x).name == fnameP) = true
    by_cases hxn : x.name = n
    · rw [if_pos hxn, hupd x]
      exact hx
    · rw [if_neg hxn]
      exact hx

theorem adjPairB_rename_main (fname : String) (d : Func) (hd : d.name ≠ "main")
    (l : List Func)
    (h : adjPairB (fun g => g.name == fname) d l = true) :
    adjPairB (fun g => g.name == (if fname = "main" then "stabilizer_main" else fname)) d
      (updateFuncs l "main" (fun f => { f with name := "stabilizer_main" })) = true := by
  show adjPairB (fun g => g.name == (if fname = "main" then "stabilizer_main" else fname)) d
      (l.map (fun f => if f.name = "main" then { f with name := "stabilizer_main" } else f))
      = true
  refine adjPairB_map2 (fun g => g.name == fname) _ d
    (fun f => if f.name = "main" then { f with name := "stabilizer_main" } else f) ?_ ?_ l h
  · show (if d.name = "main" then { d with name := "stabilizer_main" } else d) = d
    rw [if_neg hd]
  · intro x hx
    have hx' : x.name = fname := by simpa using hx
    show ((if x.name = "main" then { x with name := "stabilizer_main" } else x).name
        == (if fname = "main" then "stabilizer_main" else fname)) = true
    by_cases hm : fname = "main"
    · have hxm : x.name = "main" := by rw [hx', hm]
      rw [if_pos hxm, if_pos hm]
      simp
    · have hxm : ¬ x.name = "main" := by rw [hx']; exact hm
      rw [if_neg hxm, if_neg hm]
      exact hx

theorem strHasPfx_trans_append (p q t : String) (h : strHasPfx p q = true) :
    strHasPfx p (q ++ t) = true := by
  simp [strHasPfx, strdata_append, List.isPrefixOf_iff_prefix] at h ⊢
  exact h.trans (List.prefix_append q.data t.data)

theorem dummyName_ne_of_pfx (fname n : String)
    (h : strHasPfx "stabilizer." n = false) : dummyName fname ≠ n := by
  intro he
  rw [← he] at h
  rw [show dummyName fname = "stabilizer.dummy." ++ fname from rfl,
    strHasPfx_trans_append "stabilizer." "stabilizer.dummy." fname (by decide)] at h
  cases h

theorem find?_append_isSome (l t : List Func) (p : Func → Bool)
    (h : (l.find? p).isSome = true) : ((l ++ t).find? p).isSome = true := by
  obtain ⟨g, hg⟩ := Option.isSome_iff_exists.mp h
  rw [List.find?_append, hg]
  rfl

theorem find?_name_isSome_of_mem (l : List Func) (f : Func) (hf : f ∈ l) :
    (l.find? (fun g => g.name = f.name)).isSome = true := by
  induction l with
  | nil => cases hf
  | cons a rest ih =>
      by_cases ha : a.name = f.name
      · rw [List.find?_cons_of_pos _ (by simpa using ha)]
        rfl
      · rw [List.find?_cons_of_neg _ (by simpa using ha)]
        rcases List.mem_cons.mp hf with he | hm
        · rw [he] at ha
          exact absurd rfl ha
        · exact ih hm

theorem funcNamed_isSome_of_mem (m : Module) (f : Func) (hf : f ∈ m.funcs) :
    (funcNamed m f.name).isSome = true :=
  find?_name_isSome_of_mem m.funcs f hf

theorem getOrDeclare_presSome (m : Module) (n : String) (ty : Ty) (b : Bool) (x : String)
    (h : (funcNamed m x).isSome = true) :
    (funcNamed (getOrDeclare m n ty b) x).isSome = true := by
  unfold getOrDeclare
  cases hl : funcNamed m n with
  | some _ => exact h
  | none => exact find?_append_isSome m.funcs _ _ h

theorem randomizeStack_presSome (m : Module) (fname pad : String) (k : Nat) (x : String)
    (h : (funcNamed m x).isSome = true) :
    (funcNamed (randomizeStack m fname pad k).1 x).isSome = true := by
  have h2 : (funcNamed (rsM2 m) x).isSome = true :=
    getOrDeclare_presSome _ _ _ _ x (getOrDeclare_presSome _ _ _ _ x h)
  unfold randomizeStack
  cases hf : funcNamed (rsM2 m) fname with
  | none => exact h2
  | some f =>
      show ((updateFuncs (rsM2 m).funcs fname
          (fun g0 => { g0 with
            blocks := (f.blocks.foldl (rsStepB (rsM2 m) pad) ([], k)).1 })).find?
          (fun g => g.name = x)).isSome = true
      rw [find?_updateFuncs_isSome]
      · exact h2
      · exact fun g0 => rfl

theorem stackStage_presSome (locals : List String) :
    ∀ (m : Module) (k : Nat) (x : String), (funcNamed m x).isSome = true →
      (funcNamed (stackStage locals m k).1 x).isSome = true := by
  induction locals with
  | nil => exact fun m k x h => h
  | cons n rest ih =>
      intro m k x h
      rw [stackStage_cons]
      refine ih _ _ x ?_
      refine randomizeStack_presSome _ n _ _ x ?_
      exact h

theorem randomizeCode_presSome (addr : Const → Nat) (m : Module) (fn : String) (k : Nat)
    (x : String) (h : (funcNamed m x).isSome = true) :
    (funcNamed (randomizeCode addr m fn k).m x).isSome = true := by
  unfold randomizeCode
  cases hf : funcNamed m fn with
  | none => exact h
  | some f =>
      have h1 : (funcNamed (rcPrep m fn) x).isSome = true := by
        show ((updateFuncs (insertFnAfter m.funcs fn (dummyFuncOf fn)) fn rcPrepUpd).find?
            (fun g => g.name = x)).isSome = true
        rw [find?_updateFuncs_isSome]
        · exact find?_insertFnAfter_mono m.funcs fn (dummyFuncOf fn) x h
        · exact fun f0 => rfl
      have h2 : (funcNamed (extractFloatOperations (rcPrep m fn) fn k).1 x).isSome = true := by
        unfold extractFloatOperations
        cases hf2 : funcNamed (rcPrep m fn) fn with
        | none => exact h1
        | some f2 =>
            obtain ⟨extF, extG, hF, _, _, _⟩ :=
              efoFoldBlocks_mod f2.blocks ⟨rcPrep m fn, k, []⟩ []
            show ((updateFuncs (efoScan (rcPrep m fn) k f2.blocks).1.m.funcs fn
                (efoUpd (rcPrep m fn) k f2.blocks)).find? (fun g => g.name = x)).isSome = true
            rw [find?_updateFuncs_isSome]
            · rw [show (efoScan (rcPrep m fn) k f2.blocks).1.m.funcs
                  = (rcPrep m fn).funcs ++ extF from hF]
              exact find?_append_isSome _ _ _ h1
            · exact fun f0 => rfl
      cases hf3 : funcNamed (extractFloatOperations (rcPrep m fn) fn k).1 fn with
      | none =>
          rw [rcBuild_none addr _ fn _ hf3]
          exact h2
      | some f3 =>
          rw [rcBuild_some addr _ fn _ f3 hf3]
          by_cases hre : (findPCRelativeUsesIn addr
              (extractFloatOperations (rcPrep m fn) fn k).1 f3).isEmpty = true
          · rw [if_pos hre]
            exact h2
          · rw [if_neg hre]
            show ((updateFuncs (extractFloatOperations (rcPrep m fn) fn k).1.funcs fn
                (rcM4Upd f3 (findPCRelativeUsesIn addr
                    (extractFloatOperations (rcPrep m fn) fn k).1 f3)
                  (rcTableTy fn)
                  (rcActualTable (extractFloatOperations (rcPrep m fn) fn k).1 fn)
                  (extractFloatOperations (rcPrep m fn) fn k).2)).find?
                (fun g => g.name = x)).isSome = true
            rw [find?_updateFuncs_isSome]
            · exact h2
            · exact fun f0 => rfl

theorem codeStage_presSome (stack : Bool) (addr : Const → Nat) (locals : List String) :
    ∀ (acc : Module × Nat × List Instr) (x : String),
      (funcNamed acc.1 x).isSome = true →
      (funcNamed ((locals.foldl (fun (acc : Module × Nat × List Instr) fname =>
          let r := randomizeCode addr acc.1 fname acc.2.1
          let padArg : Const :=
            if stack then .gv (fname ++ ".stack_pad") else .nullC (.ptr (.int 8))
          let callArgs : List Opnd :=
            (r.args ++ [padArg]).map Opnd.c ++ [.c (.gv "stabilizer_register_function")]
          (r.m, r.k + 1, acc.2.2 ++ [⟨r.k, .call, callArgs, none⟩])) acc)).1 x).isSome
        = true := by
  induction locals with
  | nil => exact fun acc x h => h
  | cons n rest ih =>
      intro acc x h
      rw [List.foldl_cons]
      refine ih _ x ?_
      exact randomizeCode_presSome addr acc.1 n acc.2.1 x h

theorem randomizeCode_adj (addr : Const → Nat) (m : Module) (fname : String) (k : Nat)
    (hpres : (funcNamed m fname).isSome = true)
    (hdne : dummyName fname ≠ fname) :
    adjPairB (fun g => g.name == fname) (dummyFuncOf fname)
      (randomizeCode addr m fname k).m.funcs = true := by
  unfold randomizeCode
  cases hf : funcNamed m fname with
  | none =>
      rw [hf] at hpres
      simp at hpres
  | some f =>
      have hA : adjPairB (fun g => g.name == fname) (dummyFuncOf fname)
          (insertFnAfter m.funcs fname (dummyFuncOf fname)) = true := by
        refine adjPairB_insert_self _ _ fname (fun x hx => by simp [hx]) m.funcs ?_
        rw [show m.funcs.find? (fun f => f.name = fname) = some f from hf]
        rfl
      have hB : adjPairB (fun g => g.name == fname) (dummyFuncOf fname)
          (rcPrep m fname).funcs = true := by
        show adjPairB (fun g => g.name == fname) (dummyFuncOf fname)
          (updateFuncs (insertFnAfter m.funcs fname (dummyFuncOf fname)) fname rcPrepUpd)
          = true
        exact adjPairB_updateFuncs fname (dummyFuncOf fname) fname rcPrepUpd
          (fun f0 => rfl) hdne _ hA
      have hC : adjPairB (fun g => g.name == fname) (dummyFuncOf fname)
          (extractFloatOperations (rcPrep m fname) fname k).1.funcs = true := by
        unfold extractFloatOperations
        cases hf2 : funcNamed (rcPrep m fname) fname with
        | none => exact hB
        | some f2 =>
            obtain ⟨extF, extG, hF, _, _, _⟩ :=
              efoFoldBlocks_mod f2.blocks ⟨rcPrep m fname, k, []⟩ []
            have hApp : adjPairB (fun g => g.name == fname) (dummyFuncOf fname)
                (efoScan (rcPrep m fname) k f2.blocks).1.m.funcs = true := by
              rw [show (efoScan (rcPrep m fname) k f2.blocks).1.m.funcs
                  = (rcPrep m fname).funcs ++ extF from hF]
              exact adjPairB_append _ _ extF _ hB
            show adjPairB (fun g => g.name == fname) (dummyFuncOf fname)
                (updateFuncs (efoScan (rcPrep m fname) k f2.blocks).1.m.funcs fname
                  (efoUpd (rcPrep m fname) k f2.blocks)) = true
            exact adjPairB_updateFuncs fname (dummyFuncOf fname) fname
              (efoUpd (rcPrep m fname) k f2.blocks) (fun f0 => rfl) hdne _ hApp
      cases hf3 : funcNamed (extractFloatOperations (rcPrep m fname) fname k).1 fname with
      | none =>
          rw [rcBuild_none addr _ fname _ hf3]
          exact hC
      | some f3 =>
          rw [rcBuild_some addr _ fname _ f3 hf3]
          by_cases hre : (findPCRelativeUsesIn addr
              (extractFloatOperations (rcPrep m fname) fname k).1 f3).isEmpty = true
          · rw [if_pos hre]
            exact hC
          · rw [if_neg hre]
            show adjPairB (fun g => g.name == fname) (dummyFuncOf fname)
                (updateFuncs (extractFloatOperations (rcPrep m fname) fname k).1.funcs fname
                  (rcM4Upd f3 (findPCRelativeUsesIn addr
                      (extractFloatOperations (rcPrep m fname) fname k).1 f3)
                    (rcTableTy fname)
                    (rcActualTable (extractFloatOperations (rcPrep m fname) fname k).1 fname)
                    (extractFloatOperations (rcPrep m fname) fname k).2)) = true
            exact adjPairB_updateFuncs fname (dummyFuncOf fname) fname
              (rcM4Upd f3 (findPCRelativeUsesIn addr
                  (extractFloatOperations (rcPrep m fname) fname k).1 f3)
                (rcTableTy fname)
                (rcActualTable (extractFloatOperations (rcPrep m fname) fname k).1 fname)
                (extractFloatOperations (rcPrep m fname) fname k).2)
              (fun f0 => rfl) hdne _ hC

theorem randomizeCode_adj_pres (addr : Const → Nat) (m : Module) (fn : String) (k : Nat)
    (fname : String) (hne : fname ≠ fn) (hnd : dummyName fname ≠ fn)
    (h : adjPairB (fun g => g.name == fname) (dummyFuncOf fname) m.funcs = true) :
    adjPairB (fun g => g.name == fname) (dummyFuncOf fname)
      (randomizeCode addr m fn k).m.funcs = true := by
  unfold randomizeCode
  cases hf : funcNamed m fn with
  | none => exact h
  | some f =>
      have hA : adjPairB (fun g => g.name == fname) (dummyFuncOf fname)
          (insertFnAfter m.funcs fn (dummyFuncOf fn)) = true := by
        refine adjPairB_insertFnAfter _ _ fn (dummyFuncOf fn) ?_ m.funcs h
        intro x hx
        have hx' : x.name = fname := by simpa using hx
        rw [hx']
        exact hne
      have hB : adjPairB (fun g => g.name == fname) (dummyFuncOf fname)
          (rcPrep m fn).funcs = true := by
        show adjPairB (fun g => g.name == fname) (dummyFuncOf fname)
          (updateFuncs (insertFnAfter m.funcs fn (dummyFuncOf fn)) fn rcPrepUpd) = true
        exact adjPairB_updateFuncs fname (dummyFuncOf fname) fn rcPrepUpd
          (fun f0 => rfl) hnd _ hA
      have hC : adjPairB (fun g => g.name == fname) (dummyFuncOf fname)
          (extractFloatOperations (rcPrep m fn) fn k).1.funcs = true := by
        unfold extractFloatOperations
        cases hf2 : funcNamed (rcPrep m fn) fn with
        | none => exact hB
        | some f2 =>
            obtain ⟨extF, extG, hF, _, _, _⟩ :=
              efoFoldBlocks_mod f2.blocks ⟨rcPrep m fn, k, []⟩ []
            have hApp : adjPairB (fun g => g.name == fname) (dummyFuncOf fname)
                (efoScan (rcPrep m fn) k f2.blocks).1.m.funcs = true := by
              rw [show (efoScan (rcPrep m fn) k f2.blocks).1.m.funcs
                  = (rcPrep m fn).funcs ++ extF from hF]
              exact adjPairB_append _ _ extF _ hB
            show adjPairB (fun g => g.name == fname) (dummyFuncOf fname)
                (updateFuncs (efoScan (rcPrep m fn) k f2.blocks).1.m.funcs fn
                  (efoUpd (rcPrep m fn) k f2.blocks)) = true
            exact adjPairB_updateFuncs fname (dummyFuncOf fname) fn
              (efoUpd (rcPrep m fn) k f2.blocks) (fun f0 => rfl) hnd _ hApp
      cases hf3 : funcNamed (extractFloatOperations (rcPrep m fn) fn k).1 fn with
      | none =>
          rw [rcBuild_none addr _ fn _ hf3]
          exact hC
      | some f3 =>
          rw [rcBuild_some addr _ fn _ f3 hf3]
          by_cases hre : (findPCRelativeUsesIn addr
              (extractFloatOperations (rcPrep m fn) fn k).1 f3).isEmpty = true
          · rw [if_pos hre]
            exact hC
          · rw [if_neg hre]
            show adjPairB (fun g => g.name == fname) (dummyFuncOf fname)
                (updateFuncs (extractFloatOperations (rcPrep m fn) fn k).1.funcs fn
                  (rcM4Upd f3 (findPCRelativeUsesIn addr
                      (extractFloatOperations (rcPrep m fn) fn k).1 f3)
                    (rcTableTy fn)
                    (rcActualTable (extractFloatOperations (rcPrep m fn) fn k).1 fn)
                    (extractFloatOperations (rcPrep m fn) fn k).2)) = true
            exact adjPairB_updateFuncs fname (dummyFuncOf fname) fn
              (rcM4Upd f3 (findPCRelativeUsesIn addr
                  (extractFloatOperations (rcPrep m fn) fn k).1 f3)
                (rcTableTy fn)
                (rcActualTable (extractFloatOperations (rcPrep m fn) fn k).1 fn)
                (extractFloatOperations (rcPrep m fn) fn k).2)
              (fun f0 => rfl) hnd _ hC

theorem codeStage_adj_pres (stack : Bool) (addr : Const → Nat) (fname : String)
    (post : List String) :
    ∀ (acc : Module × Nat × List Instr),
      (∀ n ∈ post, fname ≠ n) → (∀ n ∈ post, dummyName fname ≠ n) →
      adjPairB (fun g => g.name == fname) (dummyFuncOf fname) acc.1.funcs = true →
      adjPairB (fun g => g.name == fname) (dummyFuncOf fname)
        ((post.foldl (fun (acc : Module × Nat × List Instr) fname =>
          let r := randomizeCode addr acc.1 fname acc.2.1
          let padArg : Const :=
            if stack then .gv (fname ++ ".stack_pad") else .nullC (.ptr (.int 8))
          let callArgs : List Opnd :=
            (r.args ++ [padArg]).map Opnd.c ++ [.c (.gv "stabilizer_register_function")]
          (r.m, r.k + 1, acc.2.2 ++ [⟨r.k, .call, callArgs, none⟩])) acc)).1.funcs
        = true := by
  induction post with
  | nil => exact fun acc _ _ h => h
  | cons n rest ih =>
      intro acc hne hnd h
      rw [List.foldl_cons]
      refine ih _ (fun n' hn' => hne n' (by simp [hn']))
        (fun n' hn' => hnd n' (by simp [hn'])) ?_
      exact randomizeCode_adj_pres addr acc.1 n acc.2.1 fname
        (hne n (by simp)) (hnd n (by simp)) h

theorem codeStage_adj (stack : Bool) (addr : Const → Nat) (pre post : List String)
    (fname : String) (m : Module) (k : Nat)
    (hpres : (funcNamed m fname).isSome = true)
    (hdself : dummyName fname ≠ fname)
    (hne : ∀ n ∈ post, fname ≠ n) (hnd : ∀ n ∈ post, dummyName fname ≠ n) :
    adjPairB (fun g => g.name == fname) (dummyFuncOf fname)
      (codeStage stack addr (pre ++ fname :: post) m k).1.funcs = true := by
  unfold codeStage
  rw [List.foldl_append, List.foldl_cons]
  refine codeStage_adj_pres stack addr fname post _ hne hnd ?_
  exact randomizeCode_adj addr _ fname _
    (codeStage_presSome stack addr pre (m, k, []) fname hpres) hdself

theorem spLocals_presSome (heap : Bool) (m : Module) (fname : String)
    (hmem : fname ∈ spLocals heap m) :
    (funcNamed (spM1 heap m) fname).isSome = true := by
  have hmem' : fname ∈ ((spM1 heap m).funcs.filter (fun f =>
      !f.intrinsic && !f.isDecl && f.name ≠ "__gxx_personality_v0")).map (·.name) := hmem
  obtain ⟨f0, hf0, hname⟩ := List.mem_map.mp hmem'
  have hf0m : f0 ∈ (spM1 heap m).funcs := List.mem_of_mem_filter hf0
  rw [← hname]
  exact funcNamed_isSome_of_mem (spM1 heap m) f0 hf0m

theorem spM4_presSome (heap stack : Bool) (m : Module) (k : Nat) (x : String)
    (h : (funcNamed (spM1 heap m) x).isSome = true) :
    (funcNamed (spM4 heap stack m k) x).isSome = true := by
  have h2 : (funcNamed (spM2 heap m) x).isSome = true :=
    find?_append_isSome (spM1 heap m).funcs _ _ h
  have h3 : (funcNamed (spS3 heap stack m k).1 x).isSome = true := by
    unfold spS3
    cases stack with
    | true => exact stackStage_presSome (spLocals heap m) (spM2 heap m) k x h2
    | false => exact h2
  exact find?_append_isSome (spS3 heap stack m k).1.funcs _ _ h3

/-- Claim C3 (sentinel adjacency): after the pass with code
randomization on, every locally-defined function `F` — under its final
name, `stabilizer_main` when `F` is `main` — is immediately followed in
the module's function list by its sentinel `stabilizer.dummy.F`: an
internal `void()` function, 64-byte aligned, with a single basic block
whose sole instruction is a void return (these are the literal fields
of `dummyFuncOf`).  Hypotheses: the local-function names are distinct
and none of them starts with the reserved prefix `stabilizer.`. -/
theorem dummy_follows_function_C3 (heap stack : Bool) (addr : Const → Nat)
    (m : Module) (k : Nat) (fname : String)
    (hmem : fname ∈ spLocals heap m)
    (hnodup : (spLocals heap m).Nodup)
    (hpfx : ∀ n ∈ spLocals heap m, strHasPfx "stabilizer." n = false) :
    adjPairB (fun g => g.name == (if fname = "main" then "stabilizer_main" else fname))
      (dummyFuncOf fname)
      (stabilizerPass heap stack true addr m k).funcs = true := by
  obtain ⟨pre, post, hsplit⟩ := List.append_of_mem hmem
  have hnotpost : fname ∉ post := by
    rw [hsplit] at hnodup
    exact (List.nodup_cons.mp (List.nodup_append.mp hnodup).2.1).1
  have hpres1 : (funcNamed (spM1 heap m) fname).isSome = true :=
    spLocals_presSome heap m fname hmem
  have hpres4 : (funcNamed (spM4 heap stack m k) fname).isSome = true :=
    spM4_presSome heap stack m k fname hpres1
  have hdself : dummyName fname ≠ fname := dummyName_ne_of_pfx fname fname (hpfx fname hmem)
  have h5 : adjPairB (fun g => g.name == fname) (dummyFuncOf fname)
      (spS5 heap stack true addr m k).1.funcs = true := by
    show adjPairB (fun g => g.name == fname) (dummyFuncOf fname)
        (codeStage stack addr (spLocals heap m) (spM4 heap stack m k)
          (spS3 heap stack m k).2).1.funcs = true
    rw [hsplit]
    refine codeStage_adj stack addr pre post fname _ _ hpres4 hdself ?_ ?_
    · intro n hn heq
      rw [heq] at hnotpost
      exact hnotpost hn
    · intro n hn
      refine dummyName_ne_of_pfx fname n (hpfx n ?_)
      rw [hsplit]
      exact List.mem_append_right _ (List.mem_cons_of_mem _ hn)
  have h6 : adjPairB (fun g => g.name == fname) (dummyFuncOf fname)
      (spM6 heap stack true addr m k).funcs = true := by
    show adjPairB (fun g => g.name == fname) (dummyFuncOf fname)
        (updateFuncs (spS5 heap stack true addr m k).1.funcs "stabilizer.module_ctor"
          (spM6Upd (spBody heap stack true addr m k))) = true
    exact adjPairB_updateFuncs fname (dummyFuncOf fname) "stabilizer.module_ctor"
      (spM6Upd (spBody heap stack true addr m k)) (fun f0 => rfl)
      (strHasPfx_ne "stabilizer.dummy." "stabilizer.module_ctor" fname (by decide)) _ h5
  unfold stabilizerPass
  cases hmain : funcNamed (spM6 heap stack true addr m k) "main" with
  | some f0 =>
      show adjPairB (fun g => g.name
            == (if fname = "main" then "stabilizer_main" else fname))
          (dummyFuncOf fname)
          (updateFuncs (spM6 heap stack true addr m k).funcs "main"
            (fun f => { f with name := "stabilizer_main" })) = true
      exact adjPairB_rename_main fname (dummyFuncOf fname)
        (strHasPfx_ne "stabilizer.dummy." "main" fname (by decide)) _ h6
  | none =>
      have hfm : fname ≠ "main" := by
        intro heq
        obtain ⟨x, hx, hpx⟩ := adjPairB_exists _ _ _ h6
        have hxname : x.name = fname := by simpa using hpx
        have hmain' : (spM6 heap stack true addr m k).funcs.find?
            (fun f => f.name = "main") = none := hmain
        have hx2 := List.find?_eq_none.mp hmain' x hx
        apply hx2
        simp [hxname, heq]
      show adjPairB (fun g => g.name
            == (if fname = "main" then "stabilizer_main" else fname))
          (dummyFuncOf fname) (spM6 heap stack true addr m k).funcs = true
      rw [if_neg hfm]
      exact h6

/-- Concrete module exercising C3: one locally-defined function. -/
def c3M : Module :=
  { triple := "", ptrBytes := 8,
    funcs := [⟨"foo", .fn0 .void, .external, false, [], none,
      [⟨0, [⟨0, .ret, [], none⟩]⟩]⟩],
    gvars := [] }

theorem dummy_follows_function_C3_witness :
    adjPairB (fun g => g.name == (if "foo" = "main" then "stabilizer_main" else "foo"))
      (dummyFuncOf "foo")
      (stabilizerPass false false true (fun _ => 0) c3M 0).funcs = true :=
  dummy_follows_function_C3 false false (fun _ => 0) c3M 0 "foo"
    (by decide) (by decide) (by decide)

end StabM
